import Mathlib

/-!
# Verification development for the `geo` package (adzr/geo)

A shallow embedding of `point.go`, `hash.go`, `util.go` and `boundary.go`.

Modelling conventions

* A Go `float64` coordinate is a rational number.  The loops of `GetHash` and
  `ReverseHash` only compare a coordinate with a cell bound, add two cell bounds
  and halve the sum, all of which is exact on the dyadic cell bounds involved;
  the rounding of `NewPoint` is the exact decimal rounding.  The halving of
  `GetNeededPrecision` goes down to the smallest float64 values and rounds as
  float64 does (`half64`).
* A Go `string` is the list of its bytes, each byte written as the character
  with the same code, so that the conversion `string(s[i])` of a byte is the
  character itself.  `strings.ToLower` decodes and encodes UTF-8 as the library
  does; its case table is modelled as far as it leads to ASCII characters (see
  `lowerRune`).
* `uint64` values are natural numbers, reduced modulo `2^64` where the source can
  overflow; `uint8` counters are reduced modulo `2^8` where the source can overflow.
* A nil interface value is `none`; a run-time failure (index out of range, nil
  dereference) is `none` in the result of the function that fails.
-/

namespace Geo

/-! ## hash.go -/

/-- Constant `bitMask` of hash.go. -/
def bitMask : Nat := 0x1f

/-- Constant `MaxHashBits` of hash.go. -/
def MaxHashBits : Nat := 60

/-- Constant `base32` of hash.go. -/
def base32 : List Char := "0123456789bcdefghjkmnpqrstuvwxyz".toList

/-- The `hash` struct of hash.go. -/
structure Hash where
  str : List Char
  val : Nat
  bits : Nat
  size : Nat
deriving DecidableEq, Repr

/-- Left shift on `uint64`: bits shifted past position 63 are lost. -/
def shl64 (x n : Nat) : Nat := (x <<< n) % 2 ^ 64

/-- The text loop of `NewHash`: `n` iterations remain, `i` is the loop index,
`bitCount` the running group counter, `str` the text built so far. -/
def NewHashLoop (bits : Nat) : Nat → Nat → Nat → List Char → List Char
  | 0, _, _, str => str
  | n + 1, i, bitCount, str =>
    let bitCount := bitCount + 1
    if bitCount = 5 then
      NewHashLoop bits n (i + 1) 0
        (str ++ [base32.getD ((bits >>> (64 - i - 1)) &&& bitMask) '0'])
    else
      NewHashLoop bits n (i + 1) bitCount str

/-- Function `NewHash` of hash.go. -/
def NewHash (bits size : Nat) : Hash :=
  let size := min size MaxHashBits
  let val := bits >>> (64 - size)
  let str := NewHashLoop bits size 0 0 []
  { str := str, val := val, bits := bits, size := size }

/-! ## point.go -/

/-- Constant `DecimalPlaces` of point.go. -/
def DecimalPlaces : Nat := 8

/-- Constant `RoundOn` of point.go. -/
def RoundOn : ℚ := 1 / 2

/-- Constant `TotalLongitude` of point.go. -/
def TotalLongitude : ℚ := 360

/-- Constant `HalfLongitude` of point.go. -/
def HalfLongitude : ℚ := 180

/-- Constant `NorthPoleLat` of point.go. -/
def NorthPoleLat : ℚ := 90

/-- Constant `SouthPoleLat` of point.go. -/
def SouthPoleLat : ℚ := -90

/-- The `point` struct of point.go. -/
structure Point where
  latitude : ℚ
  longitude : ℚ
deriving DecidableEq, Repr

/-- Modelled from the spec: `mathex.Round` belongs to the imported package
`github.com/adzr/mathex`, whose source is not part of this repository.  The
spec states the contract: the value is rounded to `places` decimal places,
round-half-up (a fractional part of at least `roundOn` rounds up). -/
def Round (val : ℚ) (places : Nat) (roundOn : ℚ) : ℚ :=
  let pow : ℚ := 10 ^ places
  let digit := pow * val
  let whole : ℚ := ⌊digit⌋
  if digit - whole ≥ roundOn then (whole + 1) / pow else whole / pow

/-- The standard library function `math.Mod`: the remainder of the truncated
division, with the sign of `x`. -/
def Mod (x y : ℚ) : ℚ :=
  if x / y ≥ 0 then x - y * ⌊x / y⌋ else x - y * ⌈x / y⌉

/-- Function `NewPoint` of point.go. -/
def NewPoint (latitude longitude : ℚ) : Point :=
  let lat0 := if latitude > 0 then min latitude NorthPoleLat else max latitude SouthPoleLat
  let lat := Round lat0 DecimalPlaces RoundOn
  let lng0 :=
    if |lat| = NorthPoleLat then 0
    else
      let remainder := Mod longitude TotalLongitude
      if remainder ≤ -HalfLongitude then remainder + TotalLongitude
      else if remainder > HalfLongitude then remainder - TotalLongitude
      else remainder
  { latitude := lat, longitude := Round lng0 DecimalPlaces RoundOn }

/-! ## util.go -/

/-- Constant `EarthRadiusInKM` of util.go. -/
def EarthRadiusInKM : ℚ := 6371009 / 1000

/-- Constant `North` of util.go. -/
def North : Nat := 0x1

/-- Constant `East` of util.go. -/
def East : Nat := 0x2

/-- Constant `South` of util.go. -/
def South : Nat := 0x8

/-- Constant `West` of util.go. -/
def West : Nat := 0x10

/-- Table `neighbours` of util.go; a key that is absent from the map gives the
empty slice. -/
def neighbours (direction : Nat) : List (List Char) :=
  if direction = North then
    ["p0r21436x8zb9dcf5h7kjnmqesgutwvy".toList, "bc01fg45238967deuvhjyznpkmstqrwx".toList]
  else if direction = East then
    ["bc01fg45238967deuvhjyznpkmstqrwx".toList, "p0r21436x8zb9dcf5h7kjnmqesgutwvy".toList]
  else if direction = South then
    ["14365h7k9dcfesgujnmqp0r2twvyx8zb".toList, "238967debc01fg45kmstqrwxuvhjyznp".toList]
  else if direction = West then
    ["238967debc01fg45kmstqrwxuvhjyznp".toList, "14365h7k9dcfesgujnmqp0r2twvyx8zb".toList]
  else []

/-- Table `borders` of util.go; a key that is absent from the map gives the
empty slice. -/
def borders (direction : Nat) : List (List Char) :=
  if direction = North then ["prxz".toList, "bcfguvyz".toList]
  else if direction = East then ["bcfguvyz".toList, "prxz".toList]
  else if direction = South then ["028b".toList, "0145hjnp".toList]
  else if direction = West then ["0145hjnp".toList, "028b".toList]
  else []

/-- The standard library function `strings.Index` for a one-character needle:
the position of its first occurrence, `none` standing for `-1`. -/
def Index : List Char → Char → Option Nat
  | [], _ => none
  | x :: xs, c => if x = c then some 0 else (Index xs c).map (· + 1)

/-- Constant `utf8.RuneError`, the rune U+FFFD. -/
def RuneError : Nat := 0xFFFD

/-- The standard library function `utf8.DecodeRuneInString`: the first rune of
a string and its width in bytes.  A byte sequence that is not the UTF-8
encoding of a rune gives `RuneError` and the width 1, the empty string gives
the width 0. -/
def DecodeRune (s : List Char) : Nat × Nat :=
  match s with
  | [] => (RuneError, 0)
  | c0 :: rest =>
    let s0 := c0.toNat
    if s0 < 0x80 then (s0, 1)
    else if s0 < 0xC2 then (RuneError, 1)
    else if s0 < 0xE0 then
      match rest with
      | c1 :: _ =>
        let s1 := c1.toNat
        if s1 < 0x80 ∨ 0xBF < s1 then (RuneError, 1)
        else ((s0 &&& 0x1F) <<< 6 ||| (s1 &&& 0x3F), 2)
      | [] => (RuneError, 1)
    else if s0 < 0xF0 then
      match rest with
      | c1 :: c2 :: _ =>
        let s1 := c1.toNat
        let s2 := c2.toNat
        let lo := if s0 = 0xE0 then 0xA0 else 0x80
        let hi := if s0 = 0xED then 0x9F else 0xBF
        if s1 < lo ∨ hi < s1 then (RuneError, 1)
        else if s2 < 0x80 ∨ 0xBF < s2 then (RuneError, 1)
        else ((s0 &&& 0x0F) <<< 12 ||| (s1 &&& 0x3F) <<< 6 ||| (s2 &&& 0x3F), 3)
      | _ => (RuneError, 1)
    else if s0 < 0xF5 then
      match rest with
      | c1 :: c2 :: c3 :: _ =>
        let s1 := c1.toNat
        let s2 := c2.toNat
        let s3 := c3.toNat
        let lo := if s0 = 0xF0 then 0x90 else 0x80
        let hi := if s0 = 0xF4 then 0x8F else 0xBF
        if s1 < lo ∨ hi < s1 then (RuneError, 1)
        else if s2 < 0x80 ∨ 0xBF < s2 then (RuneError, 1)
        else if s3 < 0x80 ∨ 0xBF < s3 then (RuneError, 1)
        else ((s0 &&& 0x07) <<< 18 ||| (s1 &&& 0x3F) <<< 12 ||| (s2 &&& 0x3F) <<< 6 |||
          (s3 &&& 0x3F), 4)
      | _ => (RuneError, 1)
    else (RuneError, 1)

/-- The standard library function `utf8.AppendRune` on the empty slice: the
UTF-8 encoding of a rune; a surrogate or a value above U+10FFFF is encoded as
`RuneError`. -/
def EncodeRune (r : Nat) : List Char :=
  if r ≤ 0x7F then [Char.ofNat r]
  else if r ≤ 0x7FF then
    [Char.ofNat (0xC0 ||| (r >>> 6)), Char.ofNat (0x80 ||| (r &&& 0x3F))]
  else if r > 0x10FFFF ∨ (0xD800 ≤ r ∧ r ≤ 0xDFFF) then
    [Char.ofNat 0xEF, Char.ofNat 0xBF, Char.ofNat 0xBD]
  else if r ≤ 0xFFFF then
    [Char.ofNat (0xE0 ||| (r >>> 12)), Char.ofNat (0x80 ||| ((r >>> 6) &&& 0x3F)),
     Char.ofNat (0x80 ||| (r &&& 0x3F))]
  else
    [Char.ofNat (0xF0 ||| (r >>> 18)), Char.ofNat (0x80 ||| ((r >>> 12) &&& 0x3F)),
     Char.ofNat (0x80 ||| ((r >>> 6) &&& 0x3F)), Char.ofNat (0x80 ||| (r &&& 0x3F))]

/-- The standard library function `strings.Map` for a mapping that drops no
rune, with a budget of decoding steps: the encodings of the mapped runes of the
string, an invalid byte counting as `RuneError`. -/
def MapFuel (mapping : Nat → Nat) : Nat → List Char → List Char
  | 0, _ => []
  | fuel + 1, s =>
    match s with
    | [] => []
    | _ :: _ =>
      EncodeRune (mapping (DecodeRune s).1) ++ MapFuel mapping fuel (s.drop (DecodeRune s).2)

/-- The standard library function `strings.Map`; every rune takes at least one
byte, so a budget of `len(s)` decoding steps is never exhausted. -/
def Map (mapping : Nat → Nat) (s : List Char) : List Char :=
  MapFuel mapping s.length s

/-- The standard library function `unicode.ToLower`.  Up to U+007F it adds
`'a' - 'A'` to the letters `A` to `Z`.  Above, the library looks the rune up in
its case table, which is not part of this repository; the model has the two
entries of the table whose lower-case rune is an ASCII character, U+0130 (to
`i`) and U+212A, the Kelvin sign (to `k`), and leaves every other rune as it
is, where the library maps the cased letters of other alphabets to other runes
above U+007F. -/
def lowerRune (r : Nat) : Nat :=
  if r ≤ 0x7F then
    if 0x41 ≤ r ∧ r ≤ 0x5A then r + 0x20 else r
  else if r = 0x130 then 0x69
  else if r = 0x212A then 0x6B
  else r

/-- The standard library function `strings.ToLower`: a string of ASCII bytes
is lower-cased byte by byte, any other string rune by rune. -/
def ToLower (s : List Char) : List Char :=
  if s.all (fun c => c.toNat < 0x80) then s.map Char.toLower
  else Map lowerRune s

/-- The rectangle `minLat, maxLat, minLng, maxLng` that `GetHash` and
`ReverseHash` narrow down. -/
structure Cell where
  minLat : ℚ
  maxLat : ℚ
  minLng : ℚ
  maxLng : ℚ
deriving DecidableEq, Repr

/-- The rectangle both loops start from. -/
def fullCell : Cell :=
  { minLat := SouthPoleLat, maxLat := NorthPoleLat,
    minLng := -HalfLongitude, maxLng := HalfLongitude }

/-- The loop of `GetHash`: `n` iterations remain; the state is the accumulator
`hash`, the flag `isEvenBit` and the current rectangle. -/
def GetHashLoop (point : Point) : Nat → Nat → Bool → Cell → Nat × Bool × Cell
  | 0, hash, isEvenBit, c => (hash, isEvenBit, c)
  | n + 1, hash, isEvenBit, c =>
    let hash := shl64 hash 1
    if isEvenBit then
      let d := (c.maxLng + c.minLng) / 2
      if point.longitude > d then
        GetHashLoop point n (hash ||| 1) (!isEvenBit) { c with minLng := d }
      else
        GetHashLoop point n hash (!isEvenBit) { c with maxLng := d }
    else
      let d := (c.maxLat + c.minLat) / 2
      if point.latitude > d then
        GetHashLoop point n (hash ||| 1) (!isEvenBit) { c with minLat := d }
      else
        GetHashLoop point n hash (!isEvenBit) { c with maxLat := d }

/-- Function `GetHash` of util.go. -/
def GetHash (point : Option Point) (precision : Nat) : Option Hash :=
  match point with
  | none => none
  | some pt =>
    let precision := min precision MaxHashBits
    let hash := (GetHashLoop pt precision 0 true fullCell).1
    let hash := shl64 hash (64 - precision)
    some (NewHash hash precision)

/-- Function `GetNeighbour` of util.go with an explicit recursion budget; the
budget is spent only by the recursive call on the parent. -/
def GetNeighbourFuel : Nat → List Char → Nat → Option (List Char)
  | 0, _, _ => none
  | fuel + 1, hash, direction =>
    let hash := ToLower hash
    let length := hash.length
    if length = 0 then some []
    else if ¬ (direction = North ∨ direction = East ∨ direction = South ∨ direction = West) then
      some []
    else
      let category := length % 2
      let lastChar := hash.getD (length - 1) '0'
      let parent := hash.take (length - 1)
      let parent? : Option (List Char) :=
        if (Index ((borders direction).getD category []) lastChar).isSome ∧ parent.length > 0 then
          GetNeighbourFuel fuel parent direction
        else some parent
      match parent?, Index ((neighbours direction).getD category []) lastChar with
      | some parent, some k =>
        match base32.get? k with
        | some ch => some (parent ++ [ch])
        | none => none
      | _, _ => none

/-- Function `GetNeighbour` of util.go: every recursive call is on the
lower-cased text without its last byte and is made only from an alphabet
character, of which the lower-cased text has at most `len(hash)` at its end, so a
budget of `len(hash) + 1` calls is never exhausted. -/
def GetNeighbour (hash : List Char) (direction : Nat) : Option (List Char) :=
  GetNeighbourFuel (hash.length + 1) hash direction

/-- The value `uint64(strings.Index(base32, c))`: a missing character gives
`-1`, which converts to the all-ones word. -/
def indexWord (c : Char) : Nat :=
  match Index base32 c with
  | some k => k
  | none => 2 ^ 64 - 1

/-- The loop of `GetHashFromString`. -/
def GetHashFromStringLoop : List Char → Nat → Nat
  | [], bits => bits
  | c :: cs, bits => GetHashFromStringLoop cs (shl64 bits 5 ||| indexWord c)

/-- Function `GetHashFromString` of util.go; `size` is a `uint8`. -/
def GetHashFromString (str : List Char) : Option Hash :=
  let str := ToLower str
  let length := str.length
  if length = 0 then none
  else
    let bits := GetHashFromStringLoop str 0
    let size := (length * 5) % 256
    let bits := shl64 bits ((64 + 256 - size) % 256)
    some (NewHash bits size)

/-- The inner loop of `ReverseHash` over the bits `j = n-1, ..., 0` of `index`. -/
def ReverseHashBits (index : Nat) : Nat → Bool → Cell → Bool × Cell
  | 0, isEvenBit, c => (isEvenBit, c)
  | j + 1, isEvenBit, c =>
    let bit := (index >>> j) &&& 1
    if isEvenBit then
      let lng := (c.minLng + c.maxLng) / 2
      if bit = 1 then ReverseHashBits index j (!isEvenBit) { c with minLng := lng }
      else ReverseHashBits index j (!isEvenBit) { c with maxLng := lng }
    else
      let lat := (c.minLat + c.maxLat) / 2
      if bit = 1 then ReverseHashBits index j (!isEvenBit) { c with minLat := lat }
      else ReverseHashBits index j (!isEvenBit) { c with maxLat := lat }

/-- The outer loop of `ReverseHash`, `for i := 0; i < length; i++`, with
`count` iterations to go on the rest `hash[i:]` of the text.  The result `none`
is the early `return nil` for a character outside the alphabet, or the
run-time failure of `hash[i]` when the text has fewer than `length` bytes. -/
def ReverseHashLoop : Nat → List Char → Bool → Cell → Option (Bool × Cell)
  | 0, _, isEvenBit, c => some (isEvenBit, c)
  | _ + 1, [], _, _ => none
  | count + 1, char :: rest, isEvenBit, c =>
    match Index base32 char with
    | none => none
    | some index =>
      let st := ReverseHashBits index 5 isEvenBit c
      ReverseHashLoop count rest st.1 st.2

/-- Function `ReverseHash` of util.go.  The source takes `length` before it
lower-cases the text and runs its loop up to that length. -/
def ReverseHash (hash : List Char) : Option Point :=
  let length := hash.length
  if length = 0 then none
  else
    let hash := ToLower hash
    match ReverseHashLoop length hash true fullCell with
    | none => none
    | some (_, c) => some (NewPoint ((c.minLat + c.maxLat) / 2) ((c.minLng + c.maxLng) / 2))

/-- Function `GetHashAndNeighbours` of util.go.  The entries of the result may
be nil hashes (`GetHashFromString` of an empty text); the outer `none` is a
run-time failure. -/
def GetHashAndNeighbours (point : Option Point) (precision : Nat) :
    Option (List (Option Hash)) :=
  match point with
  | none => some []
  | some pt =>
    let precision := min precision MaxHashBits
    match GetHash (some pt) precision with
    | none => none
    | some hash =>
      if hash.str.length = 0 then some []
      else
        match ReverseHash hash.str with
        | none => none
        | some center => do
          let hashes : List (Option Hash) := []
          let hashes ←
            if pt.latitude > center.latitude then do
              let north ← GetNeighbour hash.str North
              let hashes := hashes ++ [GetHashFromString north]
              if pt.longitude > center.longitude then do
                let ne ← GetNeighbour north East
                pure (hashes ++ [GetHashFromString ne])
              else if pt.longitude < center.longitude then do
                let nw ← GetNeighbour north West
                pure (hashes ++ [GetHashFromString nw])
              else pure hashes
            else if pt.latitude < center.latitude then do
              let south ← GetNeighbour hash.str South
              let hashes := hashes ++ [GetHashFromString south]
              if pt.longitude > center.longitude then do
                let se ← GetNeighbour south East
                pure (hashes ++ [GetHashFromString se])
              else if pt.longitude < center.longitude then do
                let sw ← GetNeighbour south West
                pure (hashes ++ [GetHashFromString sw])
              else pure hashes
            else pure hashes
          let hashes ←
            if pt.longitude > center.longitude then do
              let e ← GetNeighbour hash.str East
              pure (hashes ++ [GetHashFromString e])
            else if pt.longitude < center.longitude then do
              let w ← GetNeighbour hash.str West
              pure (hashes ++ [GetHashFromString w])
            else pure hashes
          pure (hashes ++ [some hash])

/-- Rounding to the nearest integer, a tie going to the even one: the rounding
of float64 arithmetic. -/
def roundEven (x : ℚ) : Int :=
  let f := ⌊x⌋
  if x - f < 1 / 2 then f
  else if x - f > 1 / 2 then f + 1
  else if f % 2 = 0 then f else f + 1

/-- The float64 statement `d /= 2`.  Halving a float64 is exact as long as the
quotient is a normal number, of absolute value at least `2^-1022`; below, the
quotient is rounded to the nearest multiple of `2^-1074`, a tie going to the
even multiple. -/
def half64 (d : ℚ) : ℚ :=
  if |d / 2| ≥ 1 / 2 ^ 1022 then d / 2
  else (roundEven (d / 2 * 2 ^ 1074) : ℚ) / 2 ^ 1074

/-- The loop of `GetNeededPrecision`: `fuel` bounds the number of iterations,
`none` meaning the bound was reached; `bits` is a `uint8`. -/
def GetNeededPrecisionLoop (radiusInKM : ℚ) : Nat → ℚ → Nat → Option Nat
  | 0, _, _ => none
  | fuel + 1, d, bits =>
    if d ≥ radiusInKM then
      GetNeededPrecisionLoop radiusInKM fuel (half64 d) ((bits + 2) % 256)
    else some bits

/-- Function `GetNeededPrecision` of util.go, run for at most `fuel` loop tests. -/
def GetNeededPrecision (fuel : Nat) (radiusInKM : ℚ) : Option Nat :=
  GetNeededPrecisionLoop radiusInKM fuel (half64 EarthRadiusInKM) 0

/-! ## boundary.go -/

/-- The `boundary` struct of boundary.go. -/
structure Boundary where
  lower : Point
  upper : Point
deriving DecidableEq, Repr

/-- The three threads of a call of `NewBoundary`: the calling function and the
two goroutines it starts. -/
inductive Thread where
  | caller
  | sendLower
  | sendUpper
deriving DecidableEq, Repr

/-- The state of a call of `NewBoundary` after the two `go` statements: the
point each goroutine has still to send (`none` once it has sent and ended), the
content of the channels `chLower` and `chUpper` of capacity 1 (`none` is the
empty channel), and the two fields of the result the caller has received so far. -/
structure BoundaryState where
  pendingLower : Option Point
  pendingUpper : Option Point
  chLower : Option Point
  chUpper : Option Point
  lower : Option Point
  upper : Option Point
deriving DecidableEq, Repr

/-- One step of a thread.  A goroutine sends its point if the channel has room
and ends; the caller receives from `chLower` first and from `chUpper` second
and blocks while the channel it waits for is empty.  A step of a thread that
has ended or is blocked leaves the state as it is. -/
def step (s : BoundaryState) : Thread → BoundaryState
  | Thread.sendLower =>
    match s.pendingLower, s.chLower with
    | some p, none => { s with pendingLower := none, chLower := some p }
    | _, _ => s
  | Thread.sendUpper =>
    match s.pendingUpper, s.chUpper with
    | some p, none => { s with pendingUpper := none, chUpper := some p }
    | _, _ => s
  | Thread.caller =>
    match s.lower with
    | none =>
      match s.chLower with
      | some p => { s with chLower := none, lower := some p }
      | none => s
    | some _ =>
      match s.upper with
      | none =>
        match s.chUpper with
        | some p => { s with chUpper := none, upper := some p }
        | none => s
      | some _ => s

/-- Function `NewBoundary` of boundary.go, run under a schedule: the list of
the threads in the order in which they take their steps.  The result is `none`
as long as the caller has not received both points. -/
def NewBoundary (schedule : List Thread) (lower upper : Point) : Option Boundary :=
  let lowerLat := min lower.latitude upper.latitude
  let upperLat := max lower.latitude upper.latitude
  let lngs : ℚ × ℚ :=
    if |lower.latitude| = NorthPoleLat ∨ |upper.latitude| = NorthPoleLat then (0, 0)
    else (lower.longitude, upper.longitude)
  let start : BoundaryState :=
    { pendingLower := some (NewPoint lowerLat lngs.1),
      pendingUpper := some (NewPoint upperLat lngs.2),
      chLower := none, chUpper := none, lower := none, upper := none }
  let final := schedule.foldl step start
  match final.lower, final.upper with
  | some l, some u => some { lower := l, upper := u }
  | _, _ => none

/-! ## Definitions that follow the wording of the specification -/

/-- The algorithm of the spec for the needed precision, in the spec's words:
while `d ≥ radiusKm`, halve `d` and add 2 to the accumulator; return the
accumulator once `d < radiusKm`.  `fuel` bounds the number of loop tests. -/
def specPrecisionLoop (radiusKm : ℚ) : Nat → ℚ → Nat → Option Nat
  | 0, _, _ => none
  | fuel + 1, d, acc =>
    if d ≥ radiusKm then specPrecisionLoop radiusKm fuel (d / 2) (acc + 2)
    else some acc

/-- The spec's needed precision: the loop started at `d = EarthRadiusKm` with
accumulator 0. -/
def specNeededPrecision (fuel : Nat) (radiusKm : ℚ) : Option Nat :=
  specPrecisionLoop radiusKm fuel EarthRadiusInKM 0

/-- One bisection step in the wording of the claims: an even step halves the
longitude range, an odd step the latitude range; bit 1 keeps the upper half,
bit 0 the lower half. -/
def bisect (c : Cell) (isEven : Bool) (bit : Bool) : Cell :=
  if isEven then
    if bit then { c with minLng := (c.minLng + c.maxLng) / 2 }
    else { c with maxLng := (c.minLng + c.maxLng) / 2 }
  else
    if bit then { c with minLat := (c.minLat + c.maxLat) / 2 }
    else { c with maxLat := (c.minLat + c.maxLat) / 2 }

/-- Replaying a list of bits, most significant first, from the rectangle `c`. -/
def replay : List Bool → Bool → Cell → Cell
  | [], _, c => c
  | b :: bs, isEven, c => replay bs (!isEven) (bisect c isEven b)

/-- The `size` bits a hash carries, most significant first: bit `i` is bit
`63 - i` of the left-justified 64-bit word. -/
def hashBits (h : Hash) : List Bool :=
  (List.range h.size).map fun i => h.bits.testBit (63 - i)

/-- The rectangle a hash denotes: its bits replayed from the full domain. -/
def cellOfHash (h : Hash) : Cell := replay (hashBits h) true fullCell

/-- The number a list of bits denotes, most significant bit first. -/
def toNum : List Bool → Nat
  | [] => 0
  | b :: bs => b.toNat * 2 ^ bs.length + toNum bs

/-- The decision the loop of `GetHash` takes first. -/
def firstBit (pt : Point) (e : Bool) (c : Cell) : Bool :=
  if e then decide (pt.longitude > (c.maxLng + c.minLng) / 2)
  else decide (pt.latitude > (c.maxLat + c.minLat) / 2)

/-- The decisions the loop of `GetHash` takes in `n` iterations. -/
def encodeBits (pt : Point) : Nat → Bool → Cell → List Bool
  | 0, _, _ => []
  | n + 1, isEven, c =>
    firstBit pt isEven c :: encodeBits pt n (!isEven) (bisect c isEven (firstBit pt isEven c))

/-- The point lies in the rectangle, strictly above each lower bound that is
not the domain minimum. -/
def Inside (pt : Point) (c : Cell) : Prop :=
  (c.minLng < pt.longitude ∨ c.minLng = -180) ∧ pt.longitude ≤ c.maxLng ∧
  (c.minLat < pt.latitude ∨ c.minLat = -90) ∧ pt.latitude ≤ c.maxLat

/-- The character `NewHash` emits for the `g`-th complete group of five bits. -/
def groupChar (bits g : Nat) : Char :=
  base32.getD ((bits >>> (59 - 5 * g)) &&& bitMask) '0'

/-- A hash text made of alphabet characters. -/
def Valid (h : List Char) : Prop := ∀ ch, ch ∈ h → ch ∈ base32

instance (h : List Char) : Decidable (Valid h) := by unfold Valid; infer_instance

/-- The five bits of an alphabet character, most significant first. -/
def charBits (c : Char) : List Bool :=
  [(indexWord c).testBit 4, (indexWord c).testBit 3, (indexWord c).testBit 2,
   (indexWord c).testBit 1, (indexWord c).testBit 0]

/-- The `5 * len` bits of a hash text. -/
def textBits : List Char → List Bool
  | [] => []
  | c :: cs => charBits c ++ textBits cs

/-- The elements at the even positions 0, 2, 4, ... of a list. -/
def evens {α : Type} : List α → List α
  | [] => []
  | [a] => [a]
  | a :: _ :: l => a :: evens l

/-- The elements at the odd positions 1, 3, 5, ... of a list. -/
def odds {α : Type} (l : List α) : List α := evens (l.drop 1)

/-- The longitude index of a hash text: its bits at even positions. -/
def lngIndex (h : List Char) : Nat := toNum (evens (textBits h))

/-- The latitude index of a hash text: its bits at odd positions. -/
def latIndex (h : List Char) : Nat := toNum (odds (textBits h))

/-- The number of longitude bits of a text of `len` characters. -/
def lngBits (len : Nat) : Nat := (5 * len + 1) / 2

/-- The number of latitude bits of a text of `len` characters. -/
def latBits (len : Nat) : Nat := 5 * len / 2

/-- The character `GetNeighbour` puts in place of the last one. -/
def stepChar (direction category : Nat) (c : Char) : Option Char :=
  (Index ((neighbours direction).getD category []) c).bind base32.get?

/-- The test `GetNeighbour` makes on the last character. -/
def isBorder (direction category : Nat) (c : Char) : Bool :=
  (Index ((borders direction).getD category []) c).isSome

/-- The direction opposite to one of the four directions. -/
def opposite (direction : Nat) : Nat :=
  if direction = North then South
  else if direction = South then North
  else if direction = East then West
  else if direction = West then East
  else direction

/-- The longitude bits of a character, as a number; `category` is the length
of the text up to and including the character, modulo 2. -/
def xDigit (category : Nat) (c : Char) : Nat :=
  toNum (if category = 1 then evens (charBits c) else odds (charBits c))

/-- The latitude bits of a character, as a number. -/
def yDigit (category : Nat) (c : Char) : Nat :=
  toNum (if category = 1 then odds (charBits c) else evens (charBits c))

/-- The number of longitude bits of a character. -/
def xWidth (category : Nat) : Nat := if category = 1 then 3 else 2

/-- The number of latitude bits of a character. -/
def yWidth (category : Nat) : Nat := if category = 1 then 2 else 3

/-- The list of hashes the specification describes for `GetHashAndNeighbours`,
given the point, the decoded midpoint `m` of the centre hash `c`, the four
neighbours `n`, `s`, `e`, `w` of its text and the four diagonal texts: first the
vertical neighbour on the side of the point, then its horizontal neighbour on
the side of the point, then the horizontal neighbour of the centre, and the
centre last; no neighbour for an axis on which the point equals the midpoint. -/
def quadrantList (pt m : Point) (c : Hash) (n s e w ne nw se sw : List Char) :
    List (Option Hash) :=
  (if pt.latitude > m.latitude then
      GetHashFromString n ::
        (if pt.longitude > m.longitude then [GetHashFromString ne]
         else if pt.longitude < m.longitude then [GetHashFromString nw]
         else [])
    else if pt.latitude < m.latitude then
      GetHashFromString s ::
        (if pt.longitude > m.longitude then [GetHashFromString se]
         else if pt.longitude < m.longitude then [GetHashFromString sw]
         else [])
    else []) ++
  (if pt.longitude > m.longitude then [GetHashFromString e]
   else if pt.longitude < m.longitude then [GetHashFromString w]
   else []) ++
  [some c]

/-- A hash text read as a base-32 number: the digits are the alphabet indices
of its characters, most significant first. -/
def base32Value : List Char → Nat
  | [] => 0
  | c :: cs => indexWord c * 32 ^ cs.length + base32Value cs

/-- The rectangle a hash text denotes: its `5 * len` bits replayed from the full
domain, longitude first. -/
def cellOfText (t : List Char) : Cell := replay (textBits t) true fullCell

/-- A point in normal form: the latitude lies in [-90, 90], the longitude in
(-180, 180], and both are multiples of 0.00000001. -/
def Normalised (p : Point) : Prop :=
  -90 ≤ p.latitude ∧ p.latitude ≤ 90 ∧ -180 < p.longitude ∧ p.longitude ≤ 180 ∧
  (∃ a : Int, p.latitude = (a : ℚ) / 100000000) ∧
  (∃ b : Int, p.longitude = (b : ℚ) / 100000000)

/-- Where a point `p` is on its way from a goroutine to the caller: still to be
sent, in the channel, or received. -/
def InTransit (p : Point) (pending ch got : Option Point) : Prop :=
  (pending = some p ∧ ch = none ∧ got = none) ∨
  (pending = none ∧ ch = some p ∧ got = none) ∨
  (pending = none ∧ ch = none ∧ got = some p)

/-- The states a call of `NewBoundary` that sends the points `pl` and `pu` can
be in. -/
def BoundaryInv (pl pu : Point) (s : BoundaryState) : Prop :=
  InTransit pl s.pendingLower s.chLower s.lower ∧
  InTransit pu s.pendingUpper s.chUpper s.upper

/-- The corners `NewBoundary` computes from two points. -/
def corners (lower upper : Point) : Boundary :=
  { lower := NewPoint (min lower.latitude upper.latitude)
      (if |lower.latitude| = NorthPoleLat ∨ |upper.latitude| = NorthPoleLat then 0
       else lower.longitude),
    upper := NewPoint (max lower.latitude upper.latitude)
      (if |lower.latitude| = NorthPoleLat ∨ |upper.latitude| = NorthPoleLat then 0
       else upper.longitude) }

/-- The change of the longitude index by one step in a direction. -/
def dLng (direction : Nat) : Int :=
  if direction = East then 1 else if direction = West then -1 else 0

/-- The change of the latitude index by one step in a direction. -/
def dLat (direction : Nat) : Int :=
  if direction = North then 1 else if direction = South then -1 else 0

/-- The texts of a list of hashes, a nil hash having none. -/
def texts (hashes : List (Option Hash)) : List (Option (List Char)) :=
  hashes.map fun x => x.map fun h => h.str

/-- The text `t` has the length of the text `c`, is made of alphabet
characters, and lies `a` columns east and `b` rows north of `c`, counted modulo
the numbers of columns and rows. -/
def Offset (c t : List Char) (a b : Int) : Prop :=
  Valid t ∧ t.length = c.length ∧
  (lngIndex t : Int) = ((lngIndex c : Int) + a) % ((2 ^ lngBits c.length : Nat) : Int) ∧
  (latIndex t : Int) = ((latIndex c : Int) + b) % ((2 ^ latBits c.length : Nat) : Int)

/-! ## GetNeededPrecision -/

theorem earthRadius_pos : (0 : ℚ) < EarthRadiusInKM := by
  unfold EarthRadiusInKM; norm_num

/-- Halving once and then `i` more times is halving `i + 1` times. -/
theorem half_div_pow (d : ℚ) (i : Nat) : d / 2 / 2 ^ i = d / 2 ^ (i + 1) := by
  rw [div_div, pow_succ, mul_comm]

/-- Halving is exact when the quotient is a normal number. -/
theorem half64_exact (d : ℚ) (h : 1 / 2 ^ 1022 ≤ d / 2) : half64 d = d / 2 := by
  have hpos : (0 : ℚ) < 1 / 2 ^ 1022 := by positivity
  unfold half64
  rw [abs_of_pos (lt_of_lt_of_le hpos h), if_pos h]

/-- Repeated halving is exact as long as the quotients are normal numbers. -/
theorem half64_iterate_exact (d : ℚ) :
    ∀ n : Nat, 1 / 2 ^ 1022 ≤ d / 2 ^ n → half64^[n] d = d / 2 ^ n := by
  intro n
  induction n with
  | zero => intro _; simp
  | succ n ih =>
    intro h
    have hpos : (0 : ℚ) < 1 / 2 ^ 1022 := by positivity
    have hd : 0 < d := by
      have h1 : 0 < d / 2 ^ (n + 1) := lt_of_lt_of_le hpos h
      exact (div_pos_iff_of_pos_right (by positivity)).mp h1
    have hle : d / 2 ^ (n + 1) ≤ d / 2 ^ n :=
      div_le_div_of_nonneg_left hd.le (by positivity)
        (pow_le_pow_right₀ (by norm_num) (Nat.le_succ n))
    have e : d / 2 ^ n / 2 = d / 2 ^ (n + 1) := by rw [div_div, pow_succ]
    rw [Function.iterate_succ_apply', ih (le_trans h hle), half64_exact _ (by rw [e]; exact h), e]

/-- The loop of `GetNeededPrecision` run from `d` with counter `bits`: when the
first `n` tests succeed and the next one fails, `2 * n` has been added. -/
theorem GetNeededPrecisionLoop_iterate (r : ℚ) :
    ∀ (n fuel : Nat) (d : ℚ) (bits : Nat), bits < 256 →
      (∀ i, i < n → r ≤ half64^[i] d) → half64^[n] d < r → n < fuel →
      GetNeededPrecisionLoop r fuel d bits = some ((bits + 2 * n) % 256) := by
  intro n
  induction n with
  | zero =>
    intro fuel d bits hb _ hlt hf
    obtain ⟨f, rfl⟩ : ∃ f, fuel = f + 1 := ⟨fuel - 1, by omega⟩
    have hlt' : d < r := by simpa using hlt
    simp [GetNeededPrecisionLoop, not_le.mpr hlt', Nat.mod_eq_of_lt hb]
  | succ n ih =>
    intro fuel d bits hb hge hlt hf
    obtain ⟨f, rfl⟩ : ∃ f, fuel = f + 1 := ⟨fuel - 1, by omega⟩
    have h0 : r ≤ d := by simpa using hge 0 (Nat.succ_pos n)
    have := ih f (half64 d) ((bits + 2) % 256) (Nat.mod_lt _ (by norm_num))
      (fun i hi => by rw [← Function.iterate_succ_apply]; exact hge (i + 1) (by omega))
      (by rw [← Function.iterate_succ_apply]; exact hlt) (by omega)
    simp only [GetNeededPrecisionLoop, ge_iff_le, h0, if_true, this]
    congr 1
    omega

/-- As long as every test of the loop succeeds the budget runs out. -/
theorem GetNeededPrecisionLoop_none (r : ℚ) :
    ∀ (fuel : Nat) (d : ℚ) (bits : Nat), (∀ i, i < fuel → r ≤ half64^[i] d) →
      GetNeededPrecisionLoop r fuel d bits = none := by
  intro fuel
  induction fuel with
  | zero => intro d bits _; rfl
  | succ f ih =>
    intro d bits hge
    have h0 : r ≤ d := by simpa using hge 0 (Nat.succ_pos f)
    have := ih (half64 d) ((bits + 2) % 256)
      (fun i hi => by rw [← Function.iterate_succ_apply]; exact hge (i + 1) (by omega))
    simp only [GetNeededPrecisionLoop, ge_iff_le, h0, if_true, this]

/-- The loop of `GetNeededPrecision` on normal numbers: when the first `n`
tests succeed and the next one fails, `2 * n` has been added. -/
theorem GetNeededPrecisionLoop_eq (r : ℚ) (n fuel : Nat) (d : ℚ) (bits : Nat)
    (hb : bits < 256) (hge : ∀ i, i < n → r ≤ d / 2 ^ i) (hlt : d / 2 ^ n < r)
    (hf : n < fuel) (hn : 1 / 2 ^ 1022 ≤ d / 2 ^ n) :
    GetNeededPrecisionLoop r fuel d bits = some ((bits + 2 * n) % 256) := by
  have hpos : (0 : ℚ) < 1 / 2 ^ 1022 := by positivity
  have hd : 0 < d := (div_pos_iff_of_pos_right (by positivity)).mp (lt_of_lt_of_le hpos hn)
  have hex : ∀ i, i ≤ n → half64^[i] d = d / 2 ^ i := by
    intro i hi
    apply half64_iterate_exact
    exact le_trans hn (div_le_div_of_nonneg_left hd.le (by positivity)
      (pow_le_pow_right₀ (by norm_num) hi))
  apply GetNeededPrecisionLoop_iterate r n fuel d bits hb
  · intro i hi
    rw [hex i hi.le]; exact hge i hi
  · rw [hex n le_rfl]; exact hlt
  · exact hf

/-- The loop of the spec run from `d` with accumulator `acc`. -/
theorem specPrecisionLoop_eq (r : ℚ) :
    ∀ (n fuel : Nat) (d : ℚ) (acc : Nat),
      (∀ i, i < n → r ≤ d / 2 ^ i) → d / 2 ^ n < r → n < fuel →
      specPrecisionLoop r fuel d acc = some (acc + 2 * n) := by
  intro n
  induction n with
  | zero =>
    intro fuel d acc _ hlt hf
    obtain ⟨f, rfl⟩ : ∃ f, fuel = f + 1 := ⟨fuel - 1, by omega⟩
    have hlt' : d < r := by simpa using hlt
    simp [specPrecisionLoop, not_le.mpr hlt']
  | succ n ih =>
    intro fuel d acc hge hlt hf
    obtain ⟨f, rfl⟩ : ∃ f, fuel = f + 1 := ⟨fuel - 1, by omega⟩
    have h0 : r ≤ d := by simpa using hge 0 (Nat.succ_pos n)
    have hstep : ∀ i, d / 2 / 2 ^ i = d / 2 ^ (i + 1) := half_div_pow d
    have := ih f (d / 2) (acc + 2)
      (fun i hi => by rw [hstep]; exact hge (i + 1) (by omega))
      (by rw [hstep]; exact hlt) (by omega)
    simp only [specPrecisionLoop, ge_iff_le, h0, if_true, this]
    congr 1
    omega

/-- Halving the earth radius more often gives a smaller value. -/
theorem earthRadius_div_anti {i j : Nat} (h : i ≤ j) :
    EarthRadiusInKM / 2 ^ j ≤ EarthRadiusInKM / 2 ^ i := by
  apply div_le_div_of_nonneg_left earthRadius_pos.le (by positivity)
  exact pow_le_pow_right₀ (by norm_num) h

theorem earthRadius_div_lt {i j : Nat} (h : i < j) :
    EarthRadiusInKM / 2 ^ j < EarthRadiusInKM / 2 ^ i := by
  apply div_lt_div_of_pos_left earthRadius_pos (by positivity)
  exact pow_lt_pow_right₀ (by norm_num) h

/-- The first 1034 halvings of the earth radius are normal numbers. -/
theorem earthRadius_normal {j : Nat} (hj : j ≤ 1034) :
    (1 : ℚ) / 2 ^ 1022 ≤ EarthRadiusInKM / 2 ^ j := by
  refine le_trans ?_ (earthRadius_div_anti hj)
  unfold EarthRadiusInKM
  rw [div_le_div_iff₀ (by positivity) (by positivity)]
  norm_num

/-- The first halving, before the loop, is exact. -/
theorem half64_earthRadius : half64 EarthRadiusInKM = EarthRadiusInKM / 2 := by
  apply half64_exact
  have := earthRadius_normal (j := 1) (by norm_num)
  simpa using this

/-- The value of `GetNeededPrecision` as an 8-bit counter, for every radius
whose least halving count is `k`, up to 1000. -/
theorem GetNeededPrecision_mod (r : ℚ) (k fuel : Nat)
    (hk : EarthRadiusInKM / 2 ^ (k + 1) < r)
    (hmin : ∀ j, j < k → r ≤ EarthRadiusInKM / 2 ^ (j + 1)) (hf : k < fuel)
    (hk1000 : k ≤ 1000) :
    GetNeededPrecision fuel r = some ((2 * k) % 256) := by
  have hstep := half_div_pow EarthRadiusInKM
  have := GetNeededPrecisionLoop_eq r k fuel (EarthRadiusInKM / 2) 0 (by norm_num)
    (fun i hi => by rw [hstep]; exact hmin i hi) (by rw [hstep]; exact hk) hf
    (by rw [hstep]; exact earthRadius_normal (by omega))
  simpa [GetNeededPrecision, half64_earthRadius] using this

/-- A radius above `EarthRadiusInKM / 2^128` has a least halving count below 128. -/
theorem least_halving_lt (r : ℚ) (k : Nat) (hr : EarthRadiusInKM / 2 ^ 128 < r)
    (hmin : ∀ j, j < k → ¬ EarthRadiusInKM / 2 ^ (j + 1) < r) : k < 128 := by
  by_contra hk
  have h1 : r ≤ EarthRadiusInKM / 2 ^ (127 + 1) := not_lt.mp (hmin 127 (by omega))
  exact absurd (lt_of_lt_of_le hr h1) (lt_irrefl _)

/-- A radius above `EarthRadiusInKM / 2^128` has a least halving count. -/
theorem exists_least_halving (r : ℚ) (hr : EarthRadiusInKM / 2 ^ 128 < r) :
    ∃ k, EarthRadiusInKM / 2 ^ (k + 1) < r ∧
      ∀ j, j < k → ¬ EarthRadiusInKM / 2 ^ (j + 1) < r := by
  classical
  have hex : ∃ k, EarthRadiusInKM / 2 ^ (k + 1) < r := ⟨127, hr⟩
  exact ⟨Nat.find hex, Nat.find_spec hex, fun j hj => Nat.find_min hex hj⟩

/-- Away from the wrap-around of the 8-bit counter the needed precision does
not increase with the radius. -/
theorem GetNeededPrecision_antitone (r1 r2 : ℚ) (k1 k2 fuel : Nat)
    (hr : EarthRadiusInKM / 2 ^ 128 < r1) (h12 : r1 ≤ r2)
    (hk1 : EarthRadiusInKM / 2 ^ (k1 + 1) < r1)
    (hmin1 : ∀ j, j < k1 → ¬ EarthRadiusInKM / 2 ^ (j + 1) < r1)
    (hk2 : EarthRadiusInKM / 2 ^ (k2 + 1) < r2)
    (hmin2 : ∀ j, j < k2 → ¬ EarthRadiusInKM / 2 ^ (j + 1) < r2) (hf : k1 < fuel) :
    GetNeededPrecision fuel r1 = some (2 * k1) ∧ GetNeededPrecision fuel r2 = some (2 * k2) ∧
    2 * k2 ≤ 2 * k1 := by
  have hk128 := least_halving_lt r1 k1 hr hmin1
  have hle : k2 ≤ k1 := by
    by_contra hlt
    exact hmin2 k1 (by omega) (lt_of_lt_of_le hk1 h12)
  refine ⟨?_, ?_, by omega⟩
  · rw [GetNeededPrecision_mod r1 k1 fuel hk1 (fun j hj => not_lt.mp (hmin1 j hj)) hf
      (by omega)]
    congr 1
    omega
  · rw [GetNeededPrecision_mod r2 k2 fuel hk2 (fun j hj => not_lt.mp (hmin2 j hj)) (by omega)
      (by omega)]
    congr 1
    omega

/-! ## GetHash: the accumulator, the decisions and the rectangle -/

theorem encodeBits_length (pt : Point) :
    ∀ (n : Nat) (e : Bool) (c : Cell), (encodeBits pt n e c).length = n := by
  intro n
  induction n with
  | zero => intro e c; rfl
  | succ n ih => intro e c; simp [encodeBits, ih]

theorem toNum_lt : ∀ l : List Bool, toNum l < 2 ^ l.length := by
  intro l
  induction l with
  | nil => simp [toNum]
  | cons b bs ih =>
    have hb : b.toNat ≤ 1 := Bool.toNat_le b
    have : b.toNat * 2 ^ bs.length ≤ 1 * 2 ^ bs.length := Nat.mul_le_mul_right _ hb
    simp only [toNum, List.length_cons, pow_succ]
    omega

theorem toNum_append (a b : List Bool) :
    toNum (a ++ b) = toNum a * 2 ^ b.length + toNum b := by
  induction a with
  | nil => simp [toNum]
  | cons x xs ih =>
    rw [List.cons_append, toNum, toNum, ih, List.length_append, pow_add]
    ring

theorem shl64_one (h : Nat) (hh : 2 * h < 2 ^ 64) : shl64 h 1 = 2 * h := by
  unfold shl64
  rw [Nat.shiftLeft_eq, Nat.mod_eq_of_lt (by omega)]
  omega

/-- Shifting a word left by one and setting the low bit is doubling plus one. -/
theorem shl64_one_or (h : Nat) (hh : 2 * h < 2 ^ 64) : shl64 h 1 ||| 1 = 2 * h + 1 := by
  rw [shl64_one h hh]
  have := Nat.mul_add_lt_is_or (i := 1) (b := 1) (by decide) h
  simpa using this.symm

theorem encodeBits_succ (pt : Point) (n : Nat) (e : Bool) (c : Cell) :
    encodeBits pt (n + 1) e c =
      firstBit pt e c :: encodeBits pt n (!e) (bisect c e (firstBit pt e c)) := rfl

/-- One iteration of the loop of `GetHash`. -/
theorem GetHashLoop_succ (pt : Point) (n hash : Nat) (e : Bool) (c : Cell) :
    GetHashLoop pt (n + 1) hash e c =
      GetHashLoop pt n (if firstBit pt e c then shl64 hash 1 ||| 1 else shl64 hash 1) (!e)
        (bisect c e (firstBit pt e c)) := by
  cases e
  · simp only [GetHashLoop, firstBit, bisect, Bool.false_eq_true, if_false, add_comm c.maxLat,
      decide_eq_true_eq, Bool.not_false]
    split_ifs <;> rfl
  · simp only [GetHashLoop, firstBit, bisect, if_true, add_comm c.maxLng, decide_eq_true_eq,
      Bool.not_true]
    split_ifs <;> rfl

/-- The rectangle the loop of `GetHash` ends with is the one obtained by
replaying its own decisions. -/
theorem GetHashLoop_cell (pt : Point) :
    ∀ (n hash : Nat) (e : Bool) (c : Cell),
      (GetHashLoop pt n hash e c).2.2 = replay (encodeBits pt n e c) e c := by
  intro n
  induction n with
  | zero => intro hash e c; simp [GetHashLoop, encodeBits, replay]
  | succ n ih =>
    intro hash e c
    rw [GetHashLoop_succ, ih, encodeBits_succ, replay]

/-- The accumulator of the loop of `GetHash`: the decisions are appended below
the bits already there, as long as nothing is shifted out of the word. -/
theorem GetHashLoop_hash (pt : Point) :
    ∀ (n hash : Nat) (e : Bool) (c : Cell), (hash + 1) * 2 ^ n ≤ 2 ^ 64 →
      (GetHashLoop pt n hash e c).1 = hash * 2 ^ n + toNum (encodeBits pt n e c) := by
  intro n
  induction n with
  | zero => intro hash e c _; simp [GetHashLoop, encodeBits, toNum]
  | succ n ih =>
    intro hash e c hlt
    have hp : 0 < 2 ^ n := by positivity
    have hexp : (hash + 1) * 2 ^ (n + 1) = (2 * hash + 2) * 2 ^ n := by rw [pow_succ]; ring
    rw [hexp] at hlt
    have h2 : 2 * hash < 2 ^ 64 := by
      have : (2 * hash + 2) * 1 ≤ (2 * hash + 2) * 2 ^ n := Nat.mul_le_mul_left _ hp
      omega
    have hlen := encodeBits_length pt n (!e) (bisect c e (firstBit pt e c))
    rw [GetHashLoop_succ, encodeBits_succ, toNum, hlen]
    cases hb : firstBit pt e c
    · have h3 : (2 * hash + 1) * 2 ^ n ≤ 2 ^ 64 :=
        le_trans (Nat.mul_le_mul_right _ (by omega)) hlt
      simp only [Bool.false_eq_true, if_false, shl64_one hash h2]
      rw [ih _ _ _ h3, pow_succ]
      simp
      ring
    · simp only [if_true, shl64_one_or hash h2]
      rw [ih _ _ _ (by simpa using hlt), pow_succ]
      simp
      ring

/-- Bit `i` of a bit list, counted from the most significant end, is bit
`length - 1 - i` of the number it denotes. -/
theorem toNum_testBit : ∀ (l : List Bool) (i : Nat) (hi : i < l.length),
    (toNum l).testBit (l.length - 1 - i) = l[i] := by
  intro l
  induction l with
  | nil => intro i hi; simp at hi
  | cons b bs ih =>
    intro i hi
    have hlt := toNum_lt bs
    rw [toNum, Nat.mul_comm, Nat.testBit_mul_pow_two_add _ hlt]
    cases i with
    | zero =>
      simp only [List.length_cons, Nat.add_sub_cancel, Nat.sub_zero, lt_irrefl, if_false,
        Nat.sub_self, List.getElem_cons_zero]
      cases b <;> decide
    | succ i =>
      have hi' : i < bs.length := by simpa using hi
      have h1 : (b :: bs).length - 1 - (i + 1) = bs.length - 1 - i := by
        simp only [List.length_cons]; omega
      have h2 : bs.length - 1 - i < bs.length := by omega
      rw [h1, if_pos h2, ih i hi']
      simp

/-- The word `GetHash` hands to `NewHash`: the decisions, left-justified. -/
theorem shl64_toNum (l : List Bool) (hl : l.length ≤ 64) :
    shl64 (toNum l) (64 - l.length) = toNum l * 2 ^ (64 - l.length) := by
  unfold shl64
  rw [Nat.shiftLeft_eq]
  apply Nat.mod_eq_of_lt
  calc toNum l * 2 ^ (64 - l.length) < 2 ^ l.length * 2 ^ (64 - l.length) :=
        Nat.mul_lt_mul_of_pos_right (toNum_lt l) (by positivity)
    _ = 2 ^ 64 := by rw [← pow_add]; congr 1; omega

/-- Bit `i` of the left-justified word is the `i`-th decision. -/
theorem testBit_leftJustified (l : List Bool) (hl : l.length ≤ 64) (i : Nat)
    (hi : i < l.length) :
    (toNum l * 2 ^ (64 - l.length)).testBit (63 - i) = l[i] := by
  rw [Nat.mul_comm, Nat.testBit_mul_pow_two]
  have h1 : 63 - i - (64 - l.length) = l.length - 1 - i := by omega
  have h2 : 63 - i ≥ 64 - l.length := by omega
  rw [h1, toNum_testBit l i hi]
  simp [h2]

/-- The hash `GetHash` returns, in terms of the decisions of its loop. -/
theorem GetHash_eq (pt : Point) (p : Nat) :
    GetHash (some pt) p =
      some (NewHash (toNum (encodeBits pt (min p 60) true fullCell) * 2 ^ (64 - min p 60))
        (min p 60)) := by
  have hlen := encodeBits_length pt (min p 60) true fullCell
  have hle : min p 60 ≤ 60 := Nat.min_le_right _ _
  have h1 := GetHashLoop_hash pt (min p 60) 0 true fullCell
    (by
      rw [Nat.zero_add, Nat.one_mul]
      exact Nat.pow_le_pow_right (by decide) (by omega))
  have h2 := shl64_toNum (encodeBits pt (min p 60) true fullCell) (by omega)
  rw [hlen] at h2
  simp only [GetHash, MaxHashBits, h1, Nat.zero_mul, Nat.zero_add, h2]

/-- The bits of the hash `GetHash` returns are the decisions of its loop. -/
theorem hashBits_GetHash (pt : Point) (p : Nat) (h : Hash)
    (hh : GetHash (some pt) p = some h) :
    h.size = min p 60 ∧ hashBits h = encodeBits pt (min p 60) true fullCell := by
  rw [GetHash_eq] at hh
  have hh' := (Option.some.inj hh).symm
  have hlen := encodeBits_length pt (min p 60) true fullCell
  have hle : min p 60 ≤ 60 := Nat.min_le_right _ _
  have hsize : h.size = min p 60 := by
    rw [hh']; simp [NewHash, MaxHashBits]
  refine ⟨hsize, ?_⟩
  apply List.ext_getElem
  · simp [hashBits, hsize, hlen]
  · intro i h1 h2
    have hbits : h.bits =
        toNum (encodeBits pt (min p 60) true fullCell) * 2 ^ (64 - min p 60) := by
      rw [hh']; simp [NewHash]
    simp only [hashBits, List.getElem_map, List.getElem_range, hbits]
    have := testBit_leftJustified (encodeBits pt (min p 60) true fullCell) (by omega) i h2
    rw [hlen] at this
    exact this

/-- A bisection step that follows the decision of `GetHash` keeps the point
in the rectangle. -/
theorem Inside_bisect (pt : Point) (e : Bool) (c : Cell) (h : Inside pt c) :
    Inside pt (bisect c e (firstBit pt e c)) := by
  obtain ⟨h1, h2, h3, h4⟩ := h
  cases e
  · by_cases hd : pt.latitude > (c.maxLat + c.minLat) / 2
    · have hd' : (c.minLat + c.maxLat) / 2 < pt.latitude := by rw [add_comm]; exact hd
      simp only [bisect, firstBit, Bool.false_eq_true, if_false, hd, decide_True, if_true]
      exact ⟨h1, h2, Or.inl hd', h4⟩
    · have hd' : pt.latitude ≤ (c.minLat + c.maxLat) / 2 := by
        rw [add_comm]; exact not_lt.mp hd
      simp only [bisect, firstBit, Bool.false_eq_true, if_false, hd, decide_False]
      exact ⟨h1, h2, h3, hd'⟩
  · by_cases hd : pt.longitude > (c.maxLng + c.minLng) / 2
    · have hd' : (c.minLng + c.maxLng) / 2 < pt.longitude := by rw [add_comm]; exact hd
      simp only [bisect, firstBit, if_true, hd, decide_True]
      exact ⟨Or.inl hd', h2, h3, h4⟩
    · have hd' : pt.longitude ≤ (c.minLng + c.maxLng) / 2 := by
        rw [add_comm]; exact not_lt.mp hd
      simp only [bisect, firstBit, if_true, hd, decide_False, Bool.false_eq_true, if_false]
      exact ⟨h1, hd', h3, h4⟩

/-- Replaying the decisions of `GetHash` keeps the point in the rectangle. -/
theorem Inside_replay (pt : Point) :
    ∀ (n : Nat) (e : Bool) (c : Cell), Inside pt c →
      Inside pt (replay (encodeBits pt n e c) e c) := by
  intro n
  induction n with
  | zero => intro e c h; simpa [encodeBits, replay] using h
  | succ n ih =>
    intro e c h
    rw [encodeBits_succ, replay]
    exact ih _ _ (Inside_bisect pt e c h)

/-! ## Lower-casing -/

theorem Valid_append {a b : List Char} : Valid (a ++ b) ↔ Valid a ∧ Valid b := by
  unfold Valid
  simp only [List.mem_append]
  constructor
  · intro h
    exact ⟨fun c hc => h c (Or.inl hc), fun c hc => h c (Or.inr hc)⟩
  · rintro ⟨h1, h2⟩ c (hc | hc)
    · exact h1 c hc
    · exact h2 c hc

theorem Valid_singleton {c : Char} : Valid [c] ↔ c ∈ base32 := by
  simp [Valid]

theorem base32_ascii : ∀ c, c ∈ base32 → c.toNat < 0x80 := by decide

theorem toLower_base32 : ∀ c, c ∈ base32 → c.toLower = c := by decide

/-- A text of alphabet characters is a string of ASCII bytes. -/
theorem Valid_all_ascii (h : List Char) (hv : Valid h) :
    h.all (fun c => decide (c.toNat < 0x80)) = true := by
  rw [List.all_eq_true]
  intro c hc
  exact decide_eq_true (base32_ascii c (hv c hc))

theorem ToLower_valid (h : List Char) (hv : Valid h) : ToLower h = h := by
  unfold ToLower
  rw [if_pos (Valid_all_ascii h hv)]
  conv_rhs => rw [← List.map_id h]
  apply List.map_congr_left
  intro c hc
  exact toLower_base32 c (hv c hc)

theorem ToLower_nil : ToLower [] = [] := rfl

/-- A byte whose ASCII lower-case form is an alphabet character is an ASCII
byte. -/
theorem toLower_mem_ascii (c : Char) (h : c.toLower ∈ base32) : c.toNat < 0x80 := by
  by_cases hu : c.toNat ≥ 65 ∧ c.toNat ≤ 90
  · omega
  · have : c.toLower = c := by
      unfold Char.toLower
      simp only [hu, if_false]
    rw [this] at h
    exact base32_ascii c h

/-- On a string of alphabet characters in upper or lower case `ToLower` is the
byte-wise lower-casing. -/
theorem ToLower_of_map_valid (t : List Char) (hv : Valid (t.map Char.toLower)) :
    ToLower t = t.map Char.toLower := by
  unfold ToLower
  rw [if_pos]
  rw [List.all_eq_true]
  intro c hc
  exact decide_eq_true (toLower_mem_ascii c (hv _ (List.mem_map_of_mem _ hc)))

theorem EncodeRune_ne_nil (r : Nat) : EncodeRune r ≠ [] := by
  unfold EncodeRune
  split_ifs <;> simp

theorem lead2_not_mem : ∀ x, x < 32 → Char.ofNat (0xC0 ||| x) ∉ base32 := by decide!

theorem lead3_not_mem : ∀ x, x < 16 → Char.ofNat (0xE0 ||| x) ∉ base32 := by decide!

theorem lead4_not_mem : ∀ x, x < 8 → Char.ofNat (0xF0 ||| x) ∉ base32 := by decide!

/-- The encoding of a rune is made of alphabet characters only if it is a
single byte. -/
theorem EncodeRune_valid_length (r : Nat) (hv : Valid (EncodeRune r)) :
    (EncodeRune r).length = 1 := by
  unfold EncodeRune at hv ⊢
  split_ifs at hv ⊢ with h1 h2 h3 h4
  · rfl
  · exfalso
    have hx : r >>> 6 < 32 := by rw [Nat.shiftRight_eq_div_pow]; omega
    exact lead2_not_mem _ hx (hv _ (List.mem_cons_self _ _))
  · exfalso
    have : Char.ofNat 0xEF ∉ base32 := by decide
    exact this (hv _ (List.mem_cons_self _ _))
  · exfalso
    have hx : r >>> 12 < 16 := by rw [Nat.shiftRight_eq_div_pow]; omega
    exact lead3_not_mem _ hx (hv _ (List.mem_cons_self _ _))
  · exfalso
    have hr : r ≤ 0x10FFFF := by
      by_contra hn
      exact h3 (Or.inl (by omega))
    have hx : r >>> 18 < 8 := by rw [Nat.shiftRight_eq_div_pow]; omega
    exact lead4_not_mem _ hx (hv _ (List.mem_cons_self _ _))

theorem DecodeRune_width_pos (c : Char) (rest : List Char) :
    1 ≤ (DecodeRune (c :: rest)).2 := by
  unfold DecodeRune
  simp only
  repeat' split
  all_goals first | exact le_rfl | exact Nat.le_succ _ | simp

theorem MapFuel_ne_nil (mapping : Nat → Nat) (fuel : Nat) (c : Char) (rest : List Char) :
    MapFuel mapping (fuel + 1) (c :: rest) ≠ [] := by
  rw [MapFuel]
  intro h
  exact EncodeRune_ne_nil _ (List.append_eq_nil.mp h).1

/-- Lower-casing a string that is not empty gives a string that is not empty. -/
theorem ToLower_ne_nil (s : List Char) (hs : s ≠ []) : ToLower s ≠ [] := by
  cases s with
  | nil => exact absurd rfl hs
  | cons c rest =>
    unfold ToLower
    split_ifs
    · simp
    · exact MapFuel_ne_nil lowerRune rest.length c rest

/-- A mapped string made of alphabet characters is not longer than the string. -/
theorem MapFuel_valid_length (mapping : Nat → Nat) :
    ∀ (fuel : Nat) (s : List Char), Valid (MapFuel mapping fuel s) →
      (MapFuel mapping fuel s).length ≤ s.length := by
  intro fuel
  induction fuel with
  | zero => intro s _; simp [MapFuel]
  | succ f ih =>
    intro s hv
    cases s with
    | nil => simp [MapFuel]
    | cons c rest =>
      rw [MapFuel] at hv ⊢
      obtain ⟨hv1, hv2⟩ := Valid_append.mp hv
      have h1 := EncodeRune_valid_length _ hv1
      have h2 := ih _ hv2
      have hw := DecodeRune_width_pos c rest
      rw [List.length_append, h1]
      rw [List.length_drop] at h2
      simp only [List.length_cons] at h2 ⊢
      omega

/-- A lower-cased string made of alphabet characters is not longer than the
string. -/
theorem ToLower_length_le (s : List Char) (hv : Valid (ToLower s)) :
    (ToLower s).length ≤ s.length := by
  unfold ToLower at hv ⊢
  split_ifs at hv ⊢
  · simp
  · exact MapFuel_valid_length lowerRune s.length s hv

/-! ## ReverseHash: when decoding fails -/

theorem Index_eq_none_iff (l : List Char) (c : Char) : Index l c = none ↔ c ∉ l := by
  induction l with
  | nil => simp [Index]
  | cons x xs ih =>
    by_cases hx : x = c
    · simp [Index, hx]
    · have hx' : ¬ c = x := fun h => hx h.symm
      simp [Index, hx, hx', ih]

/-- The character loop of `ReverseHash` gives no result exactly when one of the
characters it visits is not in the alphabet or the text is shorter than the
number of iterations. -/
theorem ReverseHashLoop_eq_none_iff :
    ∀ (n : Nat) (l : List Char) (e : Bool) (c : Cell),
      ReverseHashLoop n l e c = none ↔
        (∃ ch, ch ∈ l.take n ∧ ch ∉ base32) ∨ l.length < n := by
  intro n
  induction n with
  | zero => intro l e c; simp [ReverseHashLoop]
  | succ n ih =>
    intro l e c
    cases l with
    | nil => simp [ReverseHashLoop]
    | cons x xs =>
      cases hx : Index base32 x with
      | none =>
        have hx' := (Index_eq_none_iff base32 x).mp hx
        simp only [ReverseHashLoop, hx, true_iff]
        exact Or.inl ⟨x, by simp, hx'⟩
      | some k =>
        have hx' : x ∈ base32 := by
          by_contra hn
          rw [(Index_eq_none_iff base32 x).mpr hn] at hx
          exact Option.noConfusion hx
        simp only [ReverseHashLoop, hx, ih, List.take_succ_cons, List.mem_cons,
          List.length_cons, Nat.add_lt_add_iff_right]
        constructor
        · rintro (⟨ch, h1, h2⟩ | h)
          · exact Or.inl ⟨ch, Or.inr h1, h2⟩
          · exact Or.inr h
        · rintro (⟨ch, h1 | h1, h2⟩ | h)
          · exact absurd (h1 ▸ hx') h2
          · exact Or.inl ⟨ch, h1, h2⟩
          · exact Or.inr h

/-! ## GetNeighbour -/

theorem GetNeighbour_nil (d : Nat) : GetNeighbour [] d = some [] := by
  simp [GetNeighbour, GetNeighbourFuel, ToLower_nil]

/-- The last statement of `GetNeighbour`, written with `Option` combinators. -/
theorem GetNeighbour_result (P : Option (List Char)) (I : Option Nat) :
    (match P, I with
      | some parent, some k =>
        match base32.get? k with
        | some ch => some (parent ++ [ch])
        | none => none
      | _, _ => none) =
    P.bind fun parent => (I.bind base32.get?).map fun ch => parent ++ [ch] := by
  cases P with
  | none => rfl
  | some q =>
    cases I with
    | none => rfl
    | some k =>
      simp only [Option.some_bind]
      cases base32.get? k <;> rfl

/-- One level of `GetNeighbour` on a text of alphabet characters whose last
character is `c`, for one of the four directions. -/
theorem GetNeighbour_snoc (p : List Char) (c : Char) (d : Nat)
    (hd : d = North ∨ d = East ∨ d = South ∨ d = West) (hv : Valid (p ++ [c])) :
    GetNeighbour (p ++ [c]) d =
      (if isBorder d ((p.length + 1) % 2) c then GetNeighbour p d else some p).bind
        fun parent => (stepChar d ((p.length + 1) % 2) c).map fun ch => parent ++ [ch] := by
  have hlow := ToLower_valid _ hv
  have hlen : (p ++ [c]).length = p.length + 1 := by simp
  have hget : (p ++ [c]).getD p.length '0' = c := by
    simp [List.getD_eq_getElem?_getD]
  have htake : (p ++ [c]).take p.length = p := by simp
  have hpar : (if (Index ((borders d).getD ((p.length + 1) % 2) []) c).isSome = true ∧
        p.length > 0 then GetNeighbourFuel (p.length + 1) p d else some p) =
      (if isBorder d ((p.length + 1) % 2) c then GetNeighbour p d else some p) := by
    by_cases hb : isBorder d ((p.length + 1) % 2) c = true
    · have hb' : (Index ((borders d).getD ((p.length + 1) % 2) []) c).isSome = true := hb
      by_cases hp : p = []
      · subst hp
        simp [hb, GetNeighbour_nil]
      · have hpl : p.length > 0 := List.length_pos.mpr hp
        simp only [hb, hb', hpl, and_self, if_true]
        rfl
    · have hb' : ¬ (Index ((borders d).getD ((p.length + 1) % 2) []) c).isSome = true := hb
      rw [if_neg (fun h => hb' h.1), if_neg hb]
  rw [GetNeighbour, hlen, GetNeighbourFuel]
  simp only [hlow, hlen, Nat.add_sub_cancel, hget, htake, Nat.succ_ne_zero, if_false, hd,
    not_true_eq_false]
  rw [GetNeighbour_result, hpar]
  rfl

/-- The two tables of opposite directions undo each other on every alphabet
character, and a character is on the border in a direction exactly when its
replacement is on the border in the opposite direction. -/
theorem stepChar_opposite :
    ∀ d, d ∈ [North, East, South, West] → ∀ cat, cat ∈ [0, 1] → ∀ c, c ∈ base32 →
      ∃ c2, c2 ∈ base32 ∧ stepChar d cat c = some c2 ∧
        stepChar (opposite d) cat c2 = some c ∧
        isBorder (opposite d) cat c2 = isBorder d cat c := by
  decide!

theorem opposite_dir {d : Nat} (hd : d = North ∨ d = East ∨ d = South ∨ d = West) :
    opposite d = North ∨ opposite d = East ∨ opposite d = South ∨ opposite d = West := by
  rcases hd with h | h | h | h <;> subst h <;> decide

/-- Stepping in a direction gives a text of alphabet characters of the same
length, from which the step in the opposite direction leads back. -/
theorem GetNeighbour_opposite (d : Nat)
    (hd : d = North ∨ d = East ∨ d = South ∨ d = West) :
    ∀ h : List Char, Valid h →
      ∃ n, GetNeighbour h d = some n ∧ Valid n ∧ n.length = h.length ∧
        GetNeighbour n (opposite d) = some h := by
  intro h
  induction h using List.reverseRecOn with
  | nil =>
    intro _
    exact ⟨[], GetNeighbour_nil d, by simp [Valid], rfl, GetNeighbour_nil _⟩
  | append_singleton p c ih =>
    intro hv
    obtain ⟨hvp, hvc⟩ := Valid_append.mp hv
    have hc : c ∈ base32 := Valid_singleton.mp hvc
    have hdm : d ∈ [North, East, South, West] := by
      rcases hd with h | h | h | h <;> simp [h]
    have hcat : (p.length + 1) % 2 ∈ [0, 1] := by
      rcases Nat.mod_two_eq_zero_or_one (p.length + 1) with h | h <;> simp [h]
    obtain ⟨c2, hc2, hs, hs2, hb⟩ := stepChar_opposite d hdm _ hcat c hc
    obtain ⟨pn, hpn, hvpn, hlpn, hback⟩ := ih hvp
    have hod := opposite_dir hd
    by_cases hbd : isBorder d ((p.length + 1) % 2) c = true
    · have hv2 : Valid (pn ++ [c2]) := Valid_append.mpr ⟨hvpn, Valid_singleton.mpr hc2⟩
      refine ⟨pn ++ [c2], ?_, hv2, by simp [hlpn], ?_⟩
      · rw [GetNeighbour_snoc p c d hd hv, if_pos hbd, hpn, hs]
        rfl
      · rw [GetNeighbour_snoc pn c2 _ hod hv2, hlpn, hb, if_pos hbd, hback, hs2]
        rfl
    · have hv2 : Valid (p ++ [c2]) := Valid_append.mpr ⟨hvp, Valid_singleton.mpr hc2⟩
      refine ⟨p ++ [c2], ?_, hv2, by simp, ?_⟩
      · rw [GetNeighbour_snoc p c d hd hv, if_neg hbd, hs]
        rfl
      · rw [GetNeighbour_snoc p c2 _ hod hv2, hb, if_neg hbd, hs2]
        rfl

/-! ## The longitude and latitude index of a hash text -/

theorem evens_cons_cons {α : Type} (a b : α) (l : List α) :
    evens (a :: b :: l) = a :: evens l := rfl

theorem odds_cons_cons {α : Type} (a b : α) (l : List α) :
    odds (a :: b :: l) = b :: odds l := by
  cases l with
  | nil => rfl
  | cons x xs => rfl

theorem odds_cons {α : Type} (a : α) (l : List α) : odds (a :: l) = evens l := rfl

theorem evens_cons {α : Type} (a : α) (l : List α) : evens (a :: l) = a :: odds l := by
  cases l with
  | nil => rfl
  | cons x xs => rfl

/-- Splitting the even and the odd positions of a concatenation. -/
theorem evens_odds_append {α : Type} (b : List α) :
    ∀ a : List α,
      evens (a ++ b) = evens a ++ (if a.length % 2 = 0 then evens b else odds b) ∧
      odds (a ++ b) = odds a ++ (if a.length % 2 = 0 then odds b else evens b) := by
  intro a
  induction a with
  | nil => simp [evens, odds]
  | cons x xs ih =>
    obtain ⟨ih1, ih2⟩ := ih
    have hpar : (x :: xs).length % 2 = 0 ↔ ¬ xs.length % 2 = 0 := by
      simp only [List.length_cons]; omega
    constructor
    · rw [List.cons_append, evens_cons, evens_cons, ih2, List.cons_append]
      by_cases h : xs.length % 2 = 0
      · rw [if_pos h, if_neg (fun h2 => (hpar.mp h2) h)]
      · rw [if_neg h, if_pos (hpar.mpr h)]
    · rw [List.cons_append, odds_cons, odds_cons, ih1]
      by_cases h : xs.length % 2 = 0
      · rw [if_pos h, if_neg (fun h2 => (hpar.mp h2) h)]
      · rw [if_neg h, if_pos (hpar.mpr h)]

theorem evens_odds_length {α : Type} :
    ∀ l : List α, (evens l).length = (l.length + 1) / 2 ∧ (odds l).length = l.length / 2 := by
  intro l
  induction l with
  | nil => simp [evens, odds]
  | cons x xs ih =>
    obtain ⟨ih1, ih2⟩ := ih
    constructor
    · rw [evens_cons, List.length_cons, ih2, List.length_cons]; omega
    · rw [odds_cons, ih1, List.length_cons]

theorem charBits_length (c : Char) : (charBits c).length = 5 := rfl

theorem textBits_append (a b : List Char) : textBits (a ++ b) = textBits a ++ textBits b := by
  induction a with
  | nil => rfl
  | cons x xs ih => simp [textBits, ih]

theorem textBits_length (h : List Char) : (textBits h).length = 5 * h.length := by
  induction h with
  | nil => rfl
  | cons x xs ih => simp [textBits, ih, charBits_length]; omega

theorem textBits_singleton (c : Char) : textBits [c] = charBits c := by
  simp [textBits]

theorem lngIndex_lt (h : List Char) : lngIndex h < 2 ^ lngBits h.length := by
  have := toNum_lt (evens (textBits h))
  rw [(evens_odds_length _).1, textBits_length] at this
  exact this

theorem latIndex_lt (h : List Char) : latIndex h < 2 ^ latBits h.length := by
  have := toNum_lt (odds (textBits h))
  rw [(evens_odds_length _).2, textBits_length] at this
  exact this

/-- The longitude index of a text in terms of its parent and its last character. -/
theorem lngIndex_snoc (p : List Char) (c : Char) :
    lngIndex (p ++ [c]) =
      lngIndex p * 2 ^ xWidth ((p.length + 1) % 2) + xDigit ((p.length + 1) % 2) c := by
  unfold lngIndex xDigit xWidth
  rw [textBits_append, textBits_singleton, (evens_odds_append _ _).1, toNum_append,
    textBits_length]
  rcases Nat.mod_two_eq_zero_or_one p.length with h | h
  · have h1 : 5 * p.length % 2 = 0 := by omega
    have h2 : (p.length + 1) % 2 = 1 := by omega
    rw [if_pos h1, h2, if_pos rfl, if_pos rfl, (evens_odds_length _).1, charBits_length]
  · have h1 : ¬ 5 * p.length % 2 = 0 := by omega
    have h2 : (p.length + 1) % 2 = 0 := by omega
    rw [if_neg h1, h2, if_neg (by decide), if_neg (by decide), (evens_odds_length _).2,
      charBits_length]

/-- The latitude index of a text in terms of its parent and its last character. -/
theorem latIndex_snoc (p : List Char) (c : Char) :
    latIndex (p ++ [c]) =
      latIndex p * 2 ^ yWidth ((p.length + 1) % 2) + yDigit ((p.length + 1) % 2) c := by
  unfold latIndex yDigit yWidth
  rw [textBits_append, textBits_singleton, (evens_odds_append _ _).2, toNum_append,
    textBits_length]
  rcases Nat.mod_two_eq_zero_or_one p.length with h | h
  · have h1 : 5 * p.length % 2 = 0 := by omega
    have h2 : (p.length + 1) % 2 = 1 := by omega
    rw [if_pos h1, h2, if_pos rfl, if_pos rfl, (evens_odds_length _).2, charBits_length]
  · have h1 : ¬ 5 * p.length % 2 = 0 := by omega
    have h2 : (p.length + 1) % 2 = 0 := by omega
    rw [if_neg h1, h2, if_neg (by decide), if_neg (by decide), (evens_odds_length _).1,
      charBits_length]

theorem lngBits_succ (n : Nat) : lngBits (n + 1) = lngBits n + xWidth ((n + 1) % 2) := by
  unfold lngBits xWidth
  rcases Nat.mod_two_eq_zero_or_one n with h | h
  · have h2 : (n + 1) % 2 = 1 := by omega
    rw [h2, if_pos rfl]; omega
  · have h2 : (n + 1) % 2 = 0 := by omega
    rw [h2, if_neg (by decide)]; omega

theorem latBits_succ (n : Nat) : latBits (n + 1) = latBits n + yWidth ((n + 1) % 2) := by
  unfold latBits yWidth
  rcases Nat.mod_two_eq_zero_or_one n with h | h
  · have h2 : (n + 1) % 2 = 1 := by omega
    rw [h2, if_pos rfl]; omega
  · have h2 : (n + 1) % 2 = 0 := by omega
    rw [h2, if_neg (by decide)]; omega

/-- Going north (east) changes the latitude (longitude) digit of a character by
one, modulo the number of digit values, and leaves the other digit unchanged;
the character is on the border when its digit is the largest one. -/
theorem stepChar_north :
    ∀ cat, cat ∈ [0, 1] → ∀ c, c ∈ base32 →
      ∃ c2, c2 ∈ base32 ∧ stepChar North cat c = some c2 ∧
        xDigit cat c2 = xDigit cat c ∧
        yDigit cat c2 = (yDigit cat c + 1) % 2 ^ yWidth cat ∧
        isBorder North cat c = decide (yDigit cat c + 1 = 2 ^ yWidth cat) := by
  decide!

theorem stepChar_east :
    ∀ cat, cat ∈ [0, 1] → ∀ c, c ∈ base32 →
      ∃ c2, c2 ∈ base32 ∧ stepChar East cat c = some c2 ∧
        yDigit cat c2 = yDigit cat c ∧
        xDigit cat c2 = (xDigit cat c + 1) % 2 ^ xWidth cat ∧
        isBorder East cat c = decide (xDigit cat c + 1 = 2 ^ xWidth cat) := by
  decide!

theorem xDigit_lt : ∀ cat, cat ∈ [0, 1] → ∀ c, c ∈ base32 → xDigit cat c < 2 ^ xWidth cat := by
  decide!

theorem yDigit_lt : ∀ cat, cat ∈ [0, 1] → ∀ c, c ∈ base32 → yDigit cat c < 2 ^ yWidth cat := by
  decide!

/-! ## GetNeighbour as a step of the index -/

/-- Adding one to a number written as a high part `Y` and a low digit `y`, when
the digit overflows. -/
theorem carry_border (Y y M K : Nat) (hy : y + 1 = K) :
    ((Y + 1) % M) * K + (y + 1) % K = (Y * K + y + 1) % (M * K) := by
  have h0 : (y + 1) % K = 0 := by rw [hy]; exact Nat.mod_self K
  have h1 : Y * K + y + 1 = (Y + 1) * K := by rw [Nat.add_mul, ← hy]; ring
  rw [h0, h1, Nat.mul_mod_mul_right, Nat.add_zero]

/-- Adding one to a number written as a high part `Y` and a low digit `y`, when
the digit does not overflow. -/
theorem carry_inner (Y y M K : Nat) (hY : Y < M) (hlt : y < K) (hy : y + 1 ≠ K) :
    Y * K + (y + 1) % K = (Y * K + y + 1) % (M * K) := by
  have h0 : (y + 1) % K = y + 1 := Nat.mod_eq_of_lt (by omega)
  have h1 : Y * K + y + 1 < M * K := by
    have : (Y + 1) * K ≤ M * K := Nat.mul_le_mul_right K hY
    rw [Nat.add_mul] at this
    omega
  rw [h0, Nat.mod_eq_of_lt h1, Nat.add_assoc]

/-- Going north adds one to the latitude index, modulo the number of rows, and
keeps the longitude index. -/
theorem GetNeighbour_north :
    ∀ h : List Char, Valid h →
      ∃ n, GetNeighbour h North = some n ∧ Valid n ∧ n.length = h.length ∧
        lngIndex n = lngIndex h ∧
        latIndex n = (latIndex h + 1) % 2 ^ latBits h.length := by
  intro h
  induction h using List.reverseRecOn with
  | nil =>
    intro _
    exact ⟨[], GetNeighbour_nil _, by simp [Valid], rfl, rfl, by decide⟩
  | append_singleton p c ih =>
    intro hv
    obtain ⟨hvp, hvc⟩ := Valid_append.mp hv
    have hc : c ∈ base32 := Valid_singleton.mp hvc
    have hcat : (p.length + 1) % 2 ∈ [0, 1] := by
      rcases Nat.mod_two_eq_zero_or_one (p.length + 1) with h | h <;> simp [h]
    obtain ⟨c2, hc2, hs, hx, hy, hb⟩ := stepChar_north _ hcat c hc
    obtain ⟨pn, hpn, hvpn, hlpn, hxp, hyp⟩ := ih hvp
    have hd : North = North ∨ North = East ∨ North = South ∨ North = West := Or.inl rfl
    have hlen : (p ++ [c]).length = p.length + 1 := by simp
    have hYlt := latIndex_lt p
    have hylt := yDigit_lt _ hcat c hc
    rw [hlen, latBits_succ, pow_add, latIndex_snoc p c, lngIndex_snoc p c]
    by_cases hbd : isBorder North ((p.length + 1) % 2) c = true
    · have hv2 : Valid (pn ++ [c2]) := Valid_append.mpr ⟨hvpn, Valid_singleton.mpr hc2⟩
      have hover : yDigit ((p.length + 1) % 2) c + 1 = 2 ^ yWidth ((p.length + 1) % 2) := by
        rw [hb] at hbd; exact of_decide_eq_true hbd
      refine ⟨pn ++ [c2], ?_, hv2, by simp [hlpn], ?_, ?_⟩
      · rw [GetNeighbour_snoc p c North hd hv, if_pos hbd, hpn, hs]
        rfl
      · rw [lngIndex_snoc pn c2, hlpn, hxp, hx]
      · rw [latIndex_snoc pn c2, hlpn, hyp, hy]
        exact carry_border _ _ _ _ hover
    · have hv2 : Valid (p ++ [c2]) := Valid_append.mpr ⟨hvp, Valid_singleton.mpr hc2⟩
      have hinner : yDigit ((p.length + 1) % 2) c + 1 ≠ 2 ^ yWidth ((p.length + 1) % 2) := by
        intro hf
        rw [hb] at hbd
        exact hbd (decide_eq_true hf)
      refine ⟨p ++ [c2], ?_, hv2, by simp, ?_, ?_⟩
      · rw [GetNeighbour_snoc p c North hd hv, if_neg hbd, hs]
        rfl
      · rw [lngIndex_snoc p c2, hx]
      · rw [latIndex_snoc p c2, hy]
        exact carry_inner _ _ _ _ hYlt hylt hinner

/-- Going east adds one to the longitude index, modulo the number of columns,
and keeps the latitude index. -/
theorem GetNeighbour_east :
    ∀ h : List Char, Valid h →
      ∃ n, GetNeighbour h East = some n ∧ Valid n ∧ n.length = h.length ∧
        latIndex n = latIndex h ∧
        lngIndex n = (lngIndex h + 1) % 2 ^ lngBits h.length := by
  intro h
  induction h using List.reverseRecOn with
  | nil =>
    intro _
    exact ⟨[], GetNeighbour_nil _, by simp [Valid], rfl, rfl, by decide⟩
  | append_singleton p c ih =>
    intro hv
    obtain ⟨hvp, hvc⟩ := Valid_append.mp hv
    have hc : c ∈ base32 := Valid_singleton.mp hvc
    have hcat : (p.length + 1) % 2 ∈ [0, 1] := by
      rcases Nat.mod_two_eq_zero_or_one (p.length + 1) with h | h <;> simp [h]
    obtain ⟨c2, hc2, hs, hy, hx, hb⟩ := stepChar_east _ hcat c hc
    obtain ⟨pn, hpn, hvpn, hlpn, hyp, hxp⟩ := ih hvp
    have hd : East = North ∨ East = East ∨ East = South ∨ East = West := Or.inr (Or.inl rfl)
    have hlen : (p ++ [c]).length = p.length + 1 := by simp
    have hXlt := lngIndex_lt p
    have hxlt := xDigit_lt _ hcat c hc
    rw [hlen, lngBits_succ, pow_add, latIndex_snoc p c, lngIndex_snoc p c]
    by_cases hbd : isBorder East ((p.length + 1) % 2) c = true
    · have hv2 : Valid (pn ++ [c2]) := Valid_append.mpr ⟨hvpn, Valid_singleton.mpr hc2⟩
      have hover : xDigit ((p.length + 1) % 2) c + 1 = 2 ^ xWidth ((p.length + 1) % 2) := by
        rw [hb] at hbd; exact of_decide_eq_true hbd
      refine ⟨pn ++ [c2], ?_, hv2, by simp [hlpn], ?_, ?_⟩
      · rw [GetNeighbour_snoc p c East hd hv, if_pos hbd, hpn, hs]
        rfl
      · rw [latIndex_snoc pn c2, hlpn, hyp, hy]
      · rw [lngIndex_snoc pn c2, hlpn, hxp, hx]
        exact carry_border _ _ _ _ hover
    · have hv2 : Valid (p ++ [c2]) := Valid_append.mpr ⟨hvp, Valid_singleton.mpr hc2⟩
      have hinner : xDigit ((p.length + 1) % 2) c + 1 ≠ 2 ^ xWidth ((p.length + 1) % 2) := by
        intro hf
        rw [hb] at hbd
        exact hbd (decide_eq_true hf)
      refine ⟨p ++ [c2], ?_, hv2, by simp, ?_, ?_⟩
      · rw [GetNeighbour_snoc p c East hd hv, if_neg hbd, hs]
        rfl
      · rw [latIndex_snoc p c2, hy]
      · rw [lngIndex_snoc p c2, hx]
        exact carry_inner _ _ _ _ hXlt hxlt hinner

/-- Undoing an increment modulo `M`: if `b = (a + 1) mod M` with `a < M`, then
`a = (b - 1) mod M` over the integers. -/
theorem pred_mod_of_succ_mod (a b M : Nat) (ha : a < M) (hb : b = (a + 1) % M) :
    (a : Int) = ((b : Int) - 1) % (M : Int) := by
  by_cases h : a + 1 = M
  · have hb0 : b = 0 := by rw [hb, h, Nat.mod_self]
    have hM : (M : Int) = a + 1 := by exact_mod_cast h.symm
    rw [hb0, hM]
    have h1 : ((0 : Nat) : Int) - 1 = (a : Int) + (-1) * ((a : Int) + 1) := by push_cast; ring
    rw [h1, Int.add_mul_emod_self, Int.emod_eq_of_lt (by omega) (by omega)]
  · have hb1 : b = a + 1 := by rw [hb, Nat.mod_eq_of_lt (by omega)]
    rw [hb1]
    push_cast
    rw [add_sub_cancel_right, Int.emod_eq_of_lt (by omega) (by exact_mod_cast ha)]

/-- An increment modulo `M`, over the integers. -/
theorem succ_mod_cast (a b M : Nat) (hb : b = (a + 1) % M) :
    (b : Int) = ((a : Int) + 1) % (M : Int) := by
  rw [hb]; push_cast; rfl

/-- Going south subtracts one from the latitude index, modulo the number of
rows, and keeps the longitude index. -/
theorem GetNeighbour_south (h : List Char) (hv : Valid h) :
    ∃ n, GetNeighbour h South = some n ∧ Valid n ∧ n.length = h.length ∧
      lngIndex n = lngIndex h ∧
      (latIndex n : Int) = ((latIndex h : Int) - 1) % (2 ^ latBits h.length : Nat) := by
  obtain ⟨n, hn, hvn, hln, hback⟩ :=
    GetNeighbour_opposite South (Or.inr (Or.inr (Or.inl rfl))) h hv
  obtain ⟨n2, hn2, _, _, hx, hy⟩ := GetNeighbour_north n hvn
  have hopp : opposite South = North := by decide
  rw [hopp, hn2] at hback
  have he : n2 = h := Option.some.inj hback
  subst he
  refine ⟨n, hn, hvn, hln, hx.symm, ?_⟩
  have hlt := latIndex_lt n
  rw [hln] at hlt
  rw [hln] at hy
  exact pred_mod_of_succ_mod _ _ _ hlt hy

/-- Going west subtracts one from the longitude index, modulo the number of
columns, and keeps the latitude index. -/
theorem GetNeighbour_west (h : List Char) (hv : Valid h) :
    ∃ n, GetNeighbour h West = some n ∧ Valid n ∧ n.length = h.length ∧
      latIndex n = latIndex h ∧
      (lngIndex n : Int) = ((lngIndex h : Int) - 1) % (2 ^ lngBits h.length : Nat) := by
  obtain ⟨n, hn, hvn, hln, hback⟩ :=
    GetNeighbour_opposite West (Or.inr (Or.inr (Or.inr rfl))) h hv
  obtain ⟨n2, hn2, _, _, hy, hx⟩ := GetNeighbour_east n hvn
  have hopp : opposite West = East := by decide
  rw [hopp, hn2] at hback
  have he : n2 = h := Option.some.inj hback
  subst he
  refine ⟨n, hn, hvn, hln, hy.symm, ?_⟩
  have hlt := lngIndex_lt n
  rw [hln] at hlt
  rw [hln] at hx
  exact pred_mod_of_succ_mod _ _ _ hlt hx

/-- An alphabet character is determined by its longitude and latitude digits. -/
theorem digits_injective :
    ∀ cat, cat ∈ [0, 1] → ∀ c, c ∈ base32 → ∀ d, d ∈ base32 →
      xDigit cat c = xDigit cat d → yDigit cat c = yDigit cat d → c = d := by
  decide!

/-- A number written as a high part and a low digit determines both. -/
theorem high_low_unique (A B a b K : Nat) (ha : a < K) (hb : b < K)
    (h : A * K + a = B * K + b) : A = B ∧ a = b := by
  have h1 : (A * K + a) / K = A := by
    rw [Nat.mul_comm, Nat.mul_add_div (by omega), Nat.div_eq_of_lt ha, Nat.add_zero]
  have h2 : (B * K + b) / K = B := by
    rw [Nat.mul_comm, Nat.mul_add_div (by omega), Nat.div_eq_of_lt hb, Nat.add_zero]
  have hAB : A = B := by rw [← h1, ← h2, h]
  subst hAB
  exact ⟨rfl, by omega⟩

/-- A hash text of alphabet characters is determined by its length, its
longitude index and its latitude index. -/
theorem index_injective :
    ∀ a b : List Char, Valid a → Valid b → a.length = b.length →
      lngIndex a = lngIndex b → latIndex a = latIndex b → a = b := by
  intro a
  induction a using List.reverseRecOn with
  | nil =>
    intro b _ _ hl _ _
    exact (List.length_eq_zero.mp hl.symm).symm
  | append_singleton p c ih =>
    intro b hva hvb hl hx hy
    rcases List.eq_nil_or_concat b with hb | ⟨q, d, hb⟩
    · subst hb; simp at hl
    · subst hb
      rw [List.concat_eq_append] at hvb hl hx hy ⊢
      obtain ⟨hvp, hvc⟩ := Valid_append.mp hva
      obtain ⟨hvq, hvd⟩ := Valid_append.mp hvb
      have hc : c ∈ base32 := Valid_singleton.mp hvc
      have hd : d ∈ base32 := Valid_singleton.mp hvd
      have hlen : p.length = q.length := by simpa using hl
      have hcat : (p.length + 1) % 2 ∈ [0, 1] := by
        rcases Nat.mod_two_eq_zero_or_one (p.length + 1) with h | h <;> simp [h]
      rw [lngIndex_snoc, lngIndex_snoc, ← hlen] at hx
      rw [latIndex_snoc, latIndex_snoc, ← hlen] at hy
      obtain ⟨hx1, hx2⟩ := high_low_unique _ _ _ _ _ (xDigit_lt _ hcat c hc)
        (xDigit_lt _ hcat d hd) hx
      obtain ⟨hy1, hy2⟩ := high_low_unique _ _ _ _ _ (yDigit_lt _ hcat c hc)
        (yDigit_lt _ hcat d hd) hy
      rw [ih q hvp hvq hlen hx1 hy1, digits_injective _ hcat c hc d hd hx2 hy2]

/-! ## NewHash: the text of a hash -/

/-- Five iterations of the text loop of `NewHash` that start a group emit the
character of that group. -/
theorem NewHashLoop_group (bits n g : Nat) (str : List Char) :
    NewHashLoop bits (n + 5) (5 * g) 0 str =
      NewHashLoop bits n (5 * g + 5) 0 (str ++ [groupChar bits g]) := by
  have h : 60 - 5 * g - 1 = 59 - 5 * g := by omega
  have h2 : 5 * g + 1 + 1 + 1 + 1 + 1 = 5 * g + 5 := rfl
  simp [NewHashLoop, groupChar, h, h2]

/-- Fewer than five iterations of the text loop of `NewHash` that start a group
emit nothing. -/
theorem NewHashLoop_rest (bits r i : Nat) (str : List Char) (hr : r < 5) :
    NewHashLoop bits r i 0 str = str := by
  interval_cases r <;> simp [NewHashLoop]

theorem NewHashLoop_groups (bits r : Nat) (hr : r < 5) :
    ∀ (k g : Nat) (str : List Char),
      NewHashLoop bits (5 * k + r) (5 * g) 0 str =
        str ++ (List.range' g k).map (groupChar bits) := by
  intro k
  induction k with
  | zero => intro g str; simp [NewHashLoop_rest bits r _ str hr]
  | succ k ih =>
    intro g str
    have h1 : 5 * (k + 1) + r = (5 * k + r) + 5 := by ring
    have h2 : 5 * g + 5 = 5 * (g + 1) := by ring
    rw [h1, NewHashLoop_group, h2, ih, List.range'_succ]
    simp

/-- The text of a hash: one character per complete group of five bits. -/
theorem NewHash_str (bits size : Nat) :
    (NewHash bits size).str = (List.range (min size 60 / 5)).map (groupChar bits) := by
  have h := NewHashLoop_groups bits (min size 60 % 5) (Nat.mod_lt _ (by decide))
    (min size 60 / 5) 0 []
  rw [Nat.div_add_mod] at h
  simp only [NewHash, MaxHashBits]
  rw [h, List.range_eq_range']
  simp

theorem groupChar_mem (bits g : Nat) : groupChar bits g ∈ base32 := by
  have h : (bits >>> (59 - 5 * g)) &&& bitMask < 32 := by
    have : bitMask = 2 ^ 5 - 1 := rfl
    rw [this, Nat.and_pow_two_sub_one_eq_mod]
    exact Nat.mod_lt _ (by decide)
  have hall : ∀ w, w < 32 → base32.getD w '0' ∈ base32 := by decide
  exact hall _ h

/-- The text of a hash consists of alphabet characters. -/
theorem NewHash_str_valid (bits size : Nat) : Valid (NewHash bits size).str := by
  rw [NewHash_str]
  intro ch hch
  rw [List.mem_map] at hch
  obtain ⟨g, _, rfl⟩ := hch
  exact groupChar_mem bits g

theorem NewHash_str_length (bits size : Nat) :
    (NewHash bits size).str.length = min size 60 / 5 := by
  rw [NewHash_str]; simp

/-! ## ReverseHash on the text of a hash -/

theorem Index_base32_getD : ∀ w, w < 32 → Index base32 (base32.getD w '0') = some w := by
  decide

/-- One iteration of the bit loop of `ReverseHash` is a bisection step on bit
`j` of the character index. -/
theorem ReverseHashBits_succ (index j : Nat) (e : Bool) (c : Cell) :
    ReverseHashBits index (j + 1) e c =
      ReverseHashBits index j (!e) (bisect c e (index.testBit j)) := by
  have hbit : ((index >>> j) &&& 1 = 1) ↔ index.testBit j = true := by
    rw [Nat.testBit_to_div_mod, Nat.and_one_is_mod, Nat.shiftRight_eq_div_pow]
    simp
  rw [ReverseHashBits]
  cases e
  · by_cases hb : index.testBit j = true
    · simp only [Bool.false_eq_true, if_false, hbit.mpr hb, if_true, bisect, hb]
    · simp only [Bool.false_eq_true, if_false, mt hbit.mp hb, bisect, hb]
  · by_cases hb : index.testBit j = true
    · simp only [if_true, hbit.mpr hb, bisect, hb]
    · simp only [if_true, mt hbit.mp hb, if_false, bisect, hb, Bool.false_eq_true]

/-- The bit loop of `ReverseHash` replays the five bits of a character. -/
theorem ReverseHashBits_five (w : Nat) (e : Bool) (c : Cell) :
    (ReverseHashBits w 5 e c).2 =
      replay [w.testBit 4, w.testBit 3, w.testBit 2, w.testBit 1, w.testBit 0] e c := by
  rw [ReverseHashBits_succ w 4, ReverseHashBits_succ w 3, ReverseHashBits_succ w 2,
    ReverseHashBits_succ w 1, ReverseHashBits_succ w 0]
  rfl

theorem ReverseHashBits_five_flag (w : Nat) (e : Bool) (c : Cell) :
    (ReverseHashBits w 5 e c).1 = !e := by
  rw [ReverseHashBits_succ w 4, ReverseHashBits_succ w 3, ReverseHashBits_succ w 2,
    ReverseHashBits_succ w 1, ReverseHashBits_succ w 0]
  simp [ReverseHashBits]

/-- Bit `j` of the index of the `g`-th character of a hash is bit `5g + 4 - j`
of the hash, counted from the most significant end. -/
theorem group_testBit (bits g j : Nat) (hg : g < 12) (hj : j < 5) :
    ((bits >>> (59 - 5 * g)) &&& bitMask).testBit j = bits.testBit (63 - (5 * g + 4 - j)) := by
  have h31 : bitMask = 2 ^ 5 - 1 := rfl
  rw [h31, Nat.and_pow_two_sub_one_eq_mod, Nat.testBit_mod_two_pow, Nat.testBit_shiftRight]
  have : 59 - 5 * g + j = 63 - (5 * g + 4 - j) := by omega
  simp [hj, this]

/-- The character loop of `ReverseHash`, run on the characters `g, ..., g+k-1`
of the text of a hash, replays the bits `5g, ..., 5(g+k)-1` of the hash. -/
theorem ReverseHashLoop_groups (bits : Nat) :
    ∀ (k g : Nat) (e : Bool) (c : Cell), g + k ≤ 12 →
      ∃ e2, ReverseHashLoop k ((List.range' g k).map (groupChar bits)) e c =
        some (e2, replay ((List.range' (5 * g) (5 * k)).map fun i => bits.testBit (63 - i)) e c) := by
  intro k
  induction k with
  | zero => intro g e c _; exact ⟨e, by simp [ReverseHashLoop, replay]⟩
  | succ k ih =>
    intro g e c hg
    have hw : (bits >>> (59 - 5 * g)) &&& bitMask < 32 := by
      have : bitMask = 2 ^ 5 - 1 := rfl
      rw [this, Nat.and_pow_two_sub_one_eq_mod]
      exact Nat.mod_lt _ (by decide)
    have hidx := Index_base32_getD _ hw
    have hg12 : g < 12 := by omega
    obtain ⟨e2, h2⟩ := ih (g + 1) (ReverseHashBits ((bits >>> (59 - 5 * g)) &&& bitMask) 5 e c).1
      (ReverseHashBits ((bits >>> (59 - 5 * g)) &&& bitMask) 5 e c).2 (by omega)
    refine ⟨e2, ?_⟩
    have hr : List.range' (5 * g) (5 * (k + 1)) =
        [5 * g, 5 * g + 1, 5 * g + 2, 5 * g + 3, 5 * g + 4] ++
          List.range' (5 * (g + 1)) (5 * k) := by
      have : 5 * (k + 1) = 5 * k + 1 + 1 + 1 + 1 + 1 := by ring
      rw [this]
      simp only [List.range'_succ, List.cons_append, List.nil_append]
      have h5 : 5 * g + 1 + 1 + 1 + 1 + 1 = 5 * (g + 1) := by ring
      rw [h5]
    rw [List.range'_succ, List.map_cons, ReverseHashLoop]
    simp only [groupChar, hidx]
    rw [h2, ReverseHashBits_five, hr, List.map_append]
    have t4 := group_testBit bits g 4 hg12 (by decide)
    have t3 := group_testBit bits g 3 hg12 (by decide)
    have t2 := group_testBit bits g 2 hg12 (by decide)
    have t1 := group_testBit bits g 1 hg12 (by decide)
    have t0 := group_testBit bits g 0 hg12 (by decide)
    have e4 : 5 * g + 4 - 4 = 5 * g := by omega
    have e3 : 5 * g + 4 - 3 = 5 * g + 1 := by omega
    have e2 : 5 * g + 4 - 2 = 5 * g + 2 := by omega
    have e1 : 5 * g + 4 - 1 = 5 * g + 3 := by omega
    have e0 : 5 * g + 4 - 0 = 5 * g + 4 := by omega
    rw [e4] at t4; rw [e3] at t3; rw [e2] at t2; rw [e1] at t1; rw [e0] at t0
    rw [t4, t3, t2, t1, t0, ReverseHashBits_five_flag]
    simp [replay]

/-- Function `ReverseHash` applied to the text of a hash: the first
`5 * (size / 5)` bits of the hash are replayed and the midpoint of the
resulting rectangle is normalised by `NewPoint`. -/
theorem ReverseHash_NewHash (bits size : Nat) (hsize : 5 ≤ min size 60) :
    ReverseHash (NewHash bits size).str =
      some (NewPoint
        (((replay ((List.range (5 * (min size 60 / 5))).map
            fun i => bits.testBit (63 - i)) true fullCell).minLat +
          (replay ((List.range (5 * (min size 60 / 5))).map
            fun i => bits.testBit (63 - i)) true fullCell).maxLat) / 2)
        (((replay ((List.range (5 * (min size 60 / 5))).map
            fun i => bits.testBit (63 - i)) true fullCell).minLng +
          (replay ((List.range (5 * (min size 60 / 5))).map
            fun i => bits.testBit (63 - i)) true fullCell).maxLng) / 2)) := by
  have hle : min size 60 ≤ 60 := Nat.min_le_right _ _
  have hk : min size 60 / 5 ≤ 12 := by omega
  have hk1 : 1 ≤ min size 60 / 5 := by omega
  obtain ⟨e2, h2⟩ := ReverseHashLoop_groups bits (min size 60 / 5) 0 true fullCell (by omega)
  have hlen : (NewHash bits size).str.length ≠ 0 := by
    rw [NewHash_str_length]; omega
  have hlow := ToLower_valid _ (NewHash_str_valid bits size)
  rw [ReverseHash, if_neg hlen]
  simp only [hlow]
  rw [NewHash_str_length, NewHash_str, List.range_eq_range', h2, List.range_eq_range']

/-! ## Rectangles: nesting, widths, and points that encode to given bits -/

/-- A bisection step keeps the bounds ordered and stays within the rectangle. -/
theorem bisect_nested (c : Cell) (e b : Bool)
    (h1 : c.minLng ≤ c.maxLng) (h2 : c.minLat ≤ c.maxLat) :
    c.minLng ≤ (bisect c e b).minLng ∧ (bisect c e b).minLng ≤ (bisect c e b).maxLng ∧
    (bisect c e b).maxLng ≤ c.maxLng ∧
    c.minLat ≤ (bisect c e b).minLat ∧ (bisect c e b).minLat ≤ (bisect c e b).maxLat ∧
    (bisect c e b).maxLat ≤ c.maxLat := by
  cases e <;> cases b <;> simp only [bisect, Bool.false_eq_true, if_false, if_true] <;>
    refine ⟨?_, ?_, ?_, ?_, ?_, ?_⟩ <;> linarith

/-- Replaying bits keeps the bounds ordered and stays within the rectangle. -/
theorem replay_nested :
    ∀ (L : List Bool) (e : Bool) (c : Cell), c.minLng ≤ c.maxLng → c.minLat ≤ c.maxLat →
      c.minLng ≤ (replay L e c).minLng ∧ (replay L e c).minLng ≤ (replay L e c).maxLng ∧
      (replay L e c).maxLng ≤ c.maxLng ∧
      c.minLat ≤ (replay L e c).minLat ∧ (replay L e c).minLat ≤ (replay L e c).maxLat ∧
      (replay L e c).maxLat ≤ c.maxLat := by
  intro L
  induction L with
  | nil => intro e c h1 h2; simp [replay, h1, h2]
  | cons b bs ih =>
    intro e c h1 h2
    obtain ⟨a1, a2, a3, a4, a5, a6⟩ := bisect_nested c e b h1 h2
    obtain ⟨b1, b2, b3, b4, b5, b6⟩ := ih (!e) (bisect c e b) a2 a5
    rw [replay]
    exact ⟨le_trans a1 b1, b2, le_trans b3 a3, le_trans a4 b4, b5, le_trans b6 a6⟩

/-- A point that lies in the rectangle obtained by replaying the bits `L`,
strictly above its lower bounds, is encoded by `GetHash` with the bits `L`. -/
theorem encodeBits_of_inside (q : Point) :
    ∀ (L : List Bool) (e : Bool) (c : Cell), c.minLng ≤ c.maxLng → c.minLat ≤ c.maxLat →
      (replay L e c).minLng < q.longitude → q.longitude ≤ (replay L e c).maxLng →
      (replay L e c).minLat < q.latitude → q.latitude ≤ (replay L e c).maxLat →
      encodeBits q L.length e c = L := by
  intro L
  induction L with
  | nil => intro e c _ _ _ _ _ _; rfl
  | cons b bs ih =>
    intro e c h1 h2 g1 g2 g3 g4
    rw [replay] at g1 g2 g3 g4
    obtain ⟨a1, a2, a3, a4, a5, a6⟩ := bisect_nested c e b h1 h2
    obtain ⟨b1, b2, b3, b4, b5, b6⟩ := replay_nested bs (!e) (bisect c e b) a2 a5
    have hfirst : firstBit q e c = b := by
      generalize replay bs (!e) (bisect c e b) = r at g1 g2 g3 g4 b1 b3 b4 b6
      cases e <;> cases b <;>
        simp only [bisect, Bool.false_eq_true, if_false, if_true] at b1 b3 b4 b6 <;>
        simp only [firstBit, Bool.false_eq_true, if_false, if_true, decide_eq_true_eq,
          decide_eq_false_iff_not, not_lt, gt_iff_lt] <;>
        linarith
    rw [List.length_cons, encodeBits_succ, hfirst, ih (!e) (bisect c e b) a2 a5 g1 g2 g3 g4]

/-- The decisions of `GetHash` for `a + b` bits start with those for `a` bits. -/
theorem encodeBits_take (q : Point) :
    ∀ (a b : Nat) (e : Bool) (c : Cell),
      (encodeBits q (a + b) e c).take a = encodeBits q a e c := by
  intro a
  induction a with
  | zero => intro b e c; simp [encodeBits]
  | succ a ih =>
    intro b e c
    have : a + 1 + b = (a + b) + 1 := by ring
    rw [this, encodeBits_succ, encodeBits_succ, List.take_succ_cons, ih]

/-- The widths of the rectangle obtained by replaying bits. -/
theorem replay_width :
    ∀ (L : List Bool) (e : Bool) (c : Cell),
      (replay L e c).maxLng - (replay L e c).minLng =
        (c.maxLng - c.minLng) / 2 ^ (if e then (L.length + 1) / 2 else L.length / 2) ∧
      (replay L e c).maxLat - (replay L e c).minLat =
        (c.maxLat - c.minLat) / 2 ^ (if e then L.length / 2 else (L.length + 1) / 2) := by
  intro L
  induction L with
  | nil => intro e c; cases e <;> simp [replay]
  | cons b bs ih =>
    intro e c
    obtain ⟨i1, i2⟩ := ih (!e) (bisect c e b)
    rw [replay, i1, i2]
    have hs : (bs.length + 1 + 1) / 2 = bs.length / 2 + 1 := by omega
    cases e <;> cases b <;>
      simp only [bisect, Bool.false_eq_true, if_false, if_true, Bool.not_true, Bool.not_false,
        List.length_cons, hs, pow_succ] <;>
      constructor <;> field_simp <;> ring

/-! ## NewPoint on a point in the interior of the domain -/

/-- Rounding to 8 decimal places moves a value by at most `0.000000005`. -/
theorem Round_near (x : ℚ) :
    x - 1 / 200000000 ≤ Round x DecimalPlaces RoundOn ∧
    Round x DecimalPlaces RoundOn ≤ x + 1 / 200000000 := by
  have hpow : ((10 : ℚ) ^ DecimalPlaces) = 100000000 := by norm_num [DecimalPlaces]
  have hfl := Int.floor_le ((100000000 : ℚ) * x)
  have hlt := Int.lt_floor_add_one ((100000000 : ℚ) * x)
  unfold Round
  simp only [hpow, RoundOn]
  split_ifs with h
  · constructor
    · rw [le_div_iff₀ (by norm_num)]; linarith
    · rw [div_le_iff₀ (by norm_num)]; linarith
  · have h' := not_le.mp h
    constructor
    · rw [le_div_iff₀ (by norm_num)]; linarith
    · rw [div_le_iff₀ (by norm_num)]; linarith

/-- The remainder `math.Mod x 360` of a value strictly between -360 and 360. -/
theorem Mod_small (x : ℚ) (h1 : -360 < x) (h2 : x < 360) : Mod x TotalLongitude = x := by
  unfold Mod TotalLongitude
  split_ifs with h
  · have hf : ⌊x / 360⌋ = 0 := by
      rw [Int.floor_eq_iff]
      constructor
      · simpa using h
      · rw [div_lt_iff₀ (by norm_num)]; simpa using h2
    rw [hf]; simp
  · have h' := not_le.mp h
    have hc : ⌈x / 360⌉ = 0 := by
      rw [Int.ceil_eq_iff]
      constructor
      · rw [lt_div_iff₀ (by norm_num)]; simpa using h1
      · simpa using le_of_lt h'
    rw [hc]; simp

/-- Function `NewPoint` only rounds a point that is in the interior of the
domain, away from the poles. -/
theorem NewPoint_interior (lat lng : ℚ)
    (h1 : -90 + 1 / 200000000 < lat) (h2 : lat < 90 - 1 / 200000000)
    (h3 : -180 < lng) (h4 : lng < 180) :
    NewPoint lat lng =
      { latitude := Round lat DecimalPlaces RoundOn,
        longitude := Round lng DecimalPlaces RoundOn } := by
  have hlat0 : (if lat > 0 then min lat NorthPoleLat else max lat SouthPoleLat) = lat := by
    unfold NorthPoleLat SouthPoleLat
    split_ifs
    · exact min_eq_left (by linarith)
    · exact max_eq_left (by linarith)
  obtain ⟨r1, r2⟩ := Round_near lat
  have hpole : ¬ |Round lat DecimalPlaces RoundOn| = NorthPoleLat := by
    unfold NorthPoleLat
    intro h
    rcases abs_eq (by norm_num : (0 : ℚ) ≤ 90) |>.mp h with h | h <;> linarith
  have hmod := Mod_small lng (by linarith) (by linarith)
  unfold NewPoint
  simp only [hlat0, hpole, if_false, hmod]
  have hn1 : ¬ lng ≤ -HalfLongitude := by unfold HalfLongitude; linarith
  have hn2 : ¬ lng > HalfLongitude := by unfold HalfLongitude; linarith
  simp only [hn1, hn2, if_false]

/-! ## Re-encoding the decoded midpoint -/

/-- The `g`-th character of a hash depends only on the bits `5g, ..., 5g+4`. -/
theorem groupChar_congr (B B2 g : Nat) (hg : g < 12)
    (h : ∀ i, i < 5 * g + 5 → B.testBit (63 - i) = B2.testBit (63 - i)) :
    groupChar B g = groupChar B2 g := by
  unfold groupChar
  congr 1
  apply Nat.eq_of_testBit_eq
  intro j
  by_cases hj : j < 5
  · rw [group_testBit B g j hg hj, group_testBit B2 g j hg hj]
    exact h _ (by omega)
  · have h31 : bitMask = 2 ^ 5 - 1 := rfl
    rw [h31, Nat.and_pow_two_sub_one_eq_mod, Nat.and_pow_two_sub_one_eq_mod,
      Nat.testBit_mod_two_pow, Nat.testBit_mod_two_pow]
    simp [hj]

/-- Two hashes of the same size whose first `5 * (size / 5)` bits agree have
the same text. -/
theorem NewHash_str_congr (B B2 size : Nat)
    (h : ∀ i, i < 5 * (min size 60 / 5) → B.testBit (63 - i) = B2.testBit (63 - i)) :
    (NewHash B size).str = (NewHash B2 size).str := by
  have hle : min size 60 ≤ 60 := Nat.min_le_right _ _
  rw [NewHash_str, NewHash_str]
  apply List.map_congr_left
  intro g hg
  have hg' : g < min size 60 / 5 := List.mem_range.mp hg
  exact groupChar_congr B B2 g (by omega) (fun i hi => h i (by omega))

/-- The margin by which the midpoint of a cell of at most 30 bisections per
axis stays inside the cell exceeds the rounding error. -/
theorem half_width_bound (w : ℚ) (k : Nat) (hk : k ≤ 30) (hw : 180 ≤ w) :
    1 / 200000000 < w / 2 ^ k / 2 := by
  have h1 : (2 : ℚ) ^ k ≤ 2 ^ 30 := pow_le_pow_right₀ (by norm_num) hk
  have h2 : (0 : ℚ) < 2 ^ k := by positivity
  rw [div_div, lt_div_iff₀ (by positivity)]
  have h3 : (2 : ℚ) ^ 30 = 1073741824 := by norm_num
  nlinarith

/-- The text of the hash of any point decodes to a point whose hash, at the
same precision, has the same text. -/
theorem roundtrip (pt : Point) (p : Nat) (hp : 5 ≤ min p 60) :
    ∃ h m h2, GetHash (some pt) p = some h ∧ ReverseHash h.str = some m ∧
      GetHash (some m) p = some h2 ∧ h2.str = h.str := by
  have hle : min p 60 ≤ 60 := Nat.min_le_right _ _
  have hmm : min (min p 60) 60 = min p 60 := Nat.min_eq_left hle
  generalize hB : toNum (encodeBits pt (min p 60) true fullCell) * 2 ^ (64 - min p 60) = B
  have hrev := ReverseHash_NewHash B (min p 60) (by rw [hmm]; exact hp)
  rw [hmm] at hrev
  generalize hL : ((List.range (5 * (min p 60 / 5))).map fun i => B.testBit (63 - i)) = L
    at hrev
  have hLlen : L.length = 5 * (min p 60 / 5) := by rw [← hL]; simp
  have hn60 : L.length ≤ 60 := by omega
  -- the decoded rectangle
  have hfull1 : fullCell.minLng ≤ fullCell.maxLng := by
    norm_num [fullCell, HalfLongitude]
  have hfull2 : fullCell.minLat ≤ fullCell.maxLat := by
    norm_num [fullCell, SouthPoleLat, NorthPoleLat]
  obtain ⟨n1, n2, n3, n4, n5, n6⟩ := replay_nested L true fullCell hfull1 hfull2
  obtain ⟨w1, w2⟩ := replay_width L true fullCell
  simp only [if_true] at w1 w2
  have hwl : fullCell.maxLng - fullCell.minLng = 360 := by
    norm_num [fullCell, HalfLongitude]
  have hwa : fullCell.maxLat - fullCell.minLat = 180 := by
    norm_num [fullCell, SouthPoleLat, NorthPoleLat]
  rw [hwl] at w1
  rw [hwa] at w2
  have b1 := half_width_bound 360 ((L.length + 1) / 2) (by omega) (by norm_num)
  have b2 := half_width_bound 180 (L.length / 2) (by omega) (by norm_num)
  rw [← w1] at b1
  rw [← w2] at b2
  have f1 : fullCell.minLng = -180 := by norm_num [fullCell, HalfLongitude]
  have f2 : fullCell.maxLng = 180 := by norm_num [fullCell, HalfLongitude]
  have f3 : fullCell.minLat = -90 := by norm_num [fullCell, SouthPoleLat]
  have f4 : fullCell.maxLat = 90 := by norm_num [fullCell, NorthPoleLat]
  rw [f1] at n1
  rw [f2] at n3
  rw [f3] at n4
  rw [f4] at n6
  generalize hC : replay L true fullCell = C at hrev n1 n2 n3 n4 n5 n6 b1 b2
  -- the decoded point
  have hpt := NewPoint_interior ((C.minLat + C.maxLat) / 2) ((C.minLng + C.maxLng) / 2)
    (by linarith) (by linarith) (by linarith) (by linarith)
  rw [hpt] at hrev
  obtain ⟨r1, r2⟩ := Round_near ((C.minLat + C.maxLat) / 2)
  obtain ⟨r3, r4⟩ := Round_near ((C.minLng + C.maxLng) / 2)
  obtain ⟨m, hrev, hmlat, hmlng⟩ : ∃ m : Point,
      ReverseHash (NewHash B (min p 60)).str = some m ∧
      m.latitude = Round ((C.minLat + C.maxLat) / 2) DecimalPlaces RoundOn ∧
      m.longitude = Round ((C.minLng + C.maxLng) / 2) DecimalPlaces RoundOn :=
    ⟨_, hrev, rfl, rfl⟩
  -- it encodes to the same leading bits
  have henc : encodeBits m L.length true fullCell = L := by
    apply encodeBits_of_inside m L true fullCell hfull1 hfull2
    · rw [hC, hmlng]; linarith
    · rw [hC, hmlng]; linarith
    · rw [hC, hmlat]; linarith
    · rw [hC, hmlat]; linarith
  have hsplit : min p 60 = L.length + min p 60 % 5 := by
    rw [hLlen]; exact (Nat.div_add_mod _ _).symm
  have htake : (encodeBits m (min p 60) true fullCell).take L.length = L := by
    have := encodeBits_take m L.length (min p 60 % 5) true fullCell
    rw [← hsplit, henc] at this
    exact this
  refine ⟨_, m, _, GetHash_eq pt p, ?_, GetHash_eq m p, ?_⟩
  · rw [hB]; exact hrev
  · rw [hB]
    apply NewHash_str_congr
    intro i hi
    rw [hmm, ← hLlen] at hi
    have hlen2 := encodeBits_length m (min p 60) true fullCell
    have hi2 : i < (encodeBits m (min p 60) true fullCell).length := by omega
    have t := testBit_leftJustified (encodeBits m (min p 60) true fullCell) (by omega) i hi2
    rw [hlen2] at t
    rw [t]
    have hi3 : i < (List.take L.length (encodeBits m (min p 60) true fullCell)).length := by
      rw [htake]; exact hi
    have e1 : (encodeBits m (min p 60) true fullCell)[i] =
        (List.take L.length (encodeBits m (min p 60) true fullCell))[i] := by
      rw [List.getElem_take]
    rw [e1]
    simp only [htake]
    simp [← hL]

/-! ## GetHashAndNeighbours -/

theorem GetHashFromString_isSome (h : List Char) (hne : h ≠ []) :
    (GetHashFromString h).isSome = true := by
  have : (ToLower h).length ≠ 0 :=
    fun h0 => ToLower_ne_nil h hne (List.length_eq_zero.mp h0)
  simp [GetHashFromString, this]

theorem quadrantList_length (pt m : Point) (c : Hash) (n s e w ne nw se sw : List Char) :
    1 ≤ (quadrantList pt m c n s e w ne nw se sw).length ∧
    (quadrantList pt m c n s e w ne nw se sw).length ≤ 4 := by
  unfold quadrantList
  split_ifs <;> simp

/-- Every entry of the list is a hash when the neighbour texts are not empty. -/
theorem quadrantList_isSome (pt m : Point) (c : Hash) (n s e w ne nw se sw : List Char)
    (hn : n ≠ []) (hs : s ≠ []) (he : e ≠ []) (hw : w ≠ [])
    (hne : ne ≠ []) (hnw : nw ≠ []) (hse : se ≠ []) (hsw : sw ≠ []) :
    ∀ x, x ∈ quadrantList pt m c n s e w ne nw se sw → x.isSome = true := by
  have a1 := GetHashFromString_isSome n hn
  have a2 := GetHashFromString_isSome s hs
  have a3 := GetHashFromString_isSome e he
  have a4 := GetHashFromString_isSome w hw
  have a5 := GetHashFromString_isSome ne hne
  have a6 := GetHashFromString_isSome nw hnw
  have a7 := GetHashFromString_isSome se hse
  have a8 := GetHashFromString_isSome sw hsw
  intro x hx
  unfold quadrantList at hx
  split_ifs at hx <;>
    simp only [List.cons_append, List.nil_append, List.mem_cons, List.mem_singleton,
      List.not_mem_nil, or_false] at hx <;>
    aesop

/-- The result of `GetHashAndNeighbours` for a point and a precision of at
least five bits, in terms of the centre hash, its decoded midpoint and the
neighbours of its text. -/
theorem GetHashAndNeighbours_eq (pt : Point) (p : Nat) (hp : 5 ≤ min p 60) :
    ∃ (c : Hash) (m : Point) (n s e w ne nw se sw : List Char),
      GetHash (some pt) p = some c ∧ ReverseHash c.str = some m ∧
      GetNeighbour c.str North = some n ∧ GetNeighbour c.str South = some s ∧
      GetNeighbour c.str East = some e ∧ GetNeighbour c.str West = some w ∧
      GetNeighbour n East = some ne ∧ GetNeighbour n West = some nw ∧
      GetNeighbour s East = some se ∧ GetNeighbour s West = some sw ∧
      n.length = c.str.length ∧ s.length = c.str.length ∧
      e.length = c.str.length ∧ w.length = c.str.length ∧
      ne.length = c.str.length ∧ nw.length = c.str.length ∧
      se.length = c.str.length ∧ sw.length = c.str.length ∧
      c.str.length = min p 60 / 5 ∧
      GetHashAndNeighbours (some pt) p =
        some (quadrantList pt m c n s e w ne nw se sw) := by
  have hle : min p 60 ≤ 60 := Nat.min_le_right _ _
  have hmm : min (min p 60) 60 = min p 60 := Nat.min_eq_left hle
  obtain ⟨c, m, _, hc, hm, _, _⟩ := roundtrip pt p hp
  have hceq := GetHash_eq pt p
  rw [hc] at hceq
  have hcv : Valid c.str := by
    rw [Option.some.inj hceq]; exact NewHash_str_valid _ _
  have hclen : c.str.length = min p 60 / 5 := by
    rw [Option.some.inj hceq, NewHash_str_length, hmm]
  have hN : North = North ∨ North = East ∨ North = South ∨ North = West := by decide
  have hS : South = North ∨ South = East ∨ South = South ∨ South = West := by decide
  have hE : East = North ∨ East = East ∨ East = South ∨ East = West := by decide
  have hW : West = North ∨ West = East ∨ West = South ∨ West = West := by decide
  obtain ⟨n, hn, hnv, hnl, _⟩ := GetNeighbour_opposite North hN c.str hcv
  obtain ⟨s, hs, hsv, hsl, _⟩ := GetNeighbour_opposite South hS c.str hcv
  obtain ⟨e, he, _, hel, _⟩ := GetNeighbour_opposite East hE c.str hcv
  obtain ⟨w, hw, _, hwl, _⟩ := GetNeighbour_opposite West hW c.str hcv
  obtain ⟨ne, hne, _, hnel, _⟩ := GetNeighbour_opposite East hE n hnv
  obtain ⟨nw, hnw, _, hnwl, _⟩ := GetNeighbour_opposite West hW n hnv
  obtain ⟨se, hse, _, hsel, _⟩ := GetNeighbour_opposite East hE s hsv
  obtain ⟨sw, hsw, _, hswl, _⟩ := GetNeighbour_opposite West hW s hsv
  refine ⟨c, m, n, s, e, w, ne, nw, se, sw, hc, hm, hn, hs, he, hw, hne, hnw, hse, hsw,
    hnl, hsl, hel, hwl, by rw [hnel, hnl], by rw [hnwl, hnl], by rw [hsel, hsl],
    by rw [hswl, hsl], hclen, ?_⟩
  have hc2 : GetHash (some pt) (min p 60) = some c := by
    rw [GetHash_eq, hmm, ← GetHash_eq]; exact hc
  have hlen0 : ¬ c.str.length = 0 := by rw [hclen]; omega
  unfold GetHashAndNeighbours quadrantList
  simp only [MaxHashBits, hc2, hlen0, if_false, hm]
  by_cases h1 : pt.latitude > m.latitude
  · by_cases h2 : pt.longitude > m.longitude
    · simp [h1, h2, hn, hne, he]
    · by_cases h3 : pt.longitude < m.longitude
      · simp [h1, h2, h3, hn, hnw, hw]
      · simp [h1, h2, h3, hn]
  · by_cases h4 : pt.latitude < m.latitude
    · by_cases h2 : pt.longitude > m.longitude
      · simp [h1, h4, h2, hs, hse, he]
      · by_cases h3 : pt.longitude < m.longitude
        · simp [h1, h4, h2, h3, hs, hsw, hw]
        · simp [h1, h4, h2, h3, hs]
    · by_cases h2 : pt.longitude > m.longitude
      · simp [h1, h4, h2, he]
      · by_cases h3 : pt.longitude < m.longitude
        · simp [h1, h4, h2, h3, hw]
        · simp [h1, h4, h2, h3]

/-! ## The fields of a hash -/

theorem NewHash_size (bits size : Nat) : (NewHash bits size).size = min size 60 := rfl

theorem NewHash_bits (bits size : Nat) : (NewHash bits size).bits = bits := rfl

theorem NewHash_val (bits size : Nat) :
    (NewHash bits size).val = bits >>> (64 - min size 60) := rfl

/-- The characters of the text of a hash, by position. -/
theorem NewHash_str_getElem (bits size k : Nat) (hk : k < min size 60 / 5) :
    (NewHash bits size).str[k]? = some (groupChar bits k) := by
  rw [NewHash_str]
  simp [hk]

/-- The index of a group of five bits is a position of the alphabet. -/
theorem group_index_lt (bits k : Nat) : (bits >>> (59 - 5 * k)) &&& 31 < 32 := by
  have : (31 : Nat) = 2 ^ 5 - 1 := rfl
  rw [this, Nat.and_pow_two_sub_one_eq_mod]
  exact Nat.mod_lt _ (by decide)

theorem base32_getElem_eq_getD : ∀ w, w < 32 → base32[w]? = some (base32.getD w '0') := by
  decide

/-- Shifting the left-justified decisions back gives their number. -/
theorem leftJustified_shiftRight (l : List Bool) :
    (toNum l * 2 ^ (64 - l.length)) >>> (64 - l.length) = toNum l := by
  rw [Nat.shiftRight_eq_div_pow, Nat.mul_div_cancel _ (by positivity)]

/-! ## GetHashFromString -/

theorem indexWord_lt : ∀ c, c ∈ base32 → indexWord c < 32 := by decide

theorem base32_getD_indexWord : ∀ c, c ∈ base32 → base32.getD (indexWord c) '0' = c := by
  decide

theorem base32Value_lt : ∀ u : List Char, Valid u → base32Value u < 32 ^ u.length := by
  intro u
  induction u with
  | nil => intro _; simp [base32Value]
  | cons c cs ih =>
    intro hv
    have hc : indexWord c < 32 := indexWord_lt c (hv c (List.mem_cons_self _ _))
    have hcs := ih (fun x hx => hv x (List.mem_cons_of_mem _ hx))
    have h1 : indexWord c * 32 ^ cs.length ≤ 31 * 32 ^ cs.length :=
      Nat.mul_le_mul_right _ (by omega)
    simp only [base32Value, List.length_cons, pow_succ]
    omega

/-- Appending a character to a word that has room for five more bits. -/
theorem shl64_five_or (acc d : Nat) (hacc : 32 * acc + 32 ≤ 2 ^ 64) (hd : d < 32) :
    shl64 acc 5 ||| d = 32 * acc + d := by
  have h1 : shl64 acc 5 = 32 * acc := by
    unfold shl64
    rw [Nat.shiftLeft_eq, Nat.mod_eq_of_lt (by omega)]
    omega
  rw [h1]
  have := Nat.mul_add_lt_is_or (i := 5) (b := d) (by simpa using hd) acc
  simpa using this.symm

/-- The loop of `GetHashFromString` appends the base-32 digits of the text. -/
theorem GetHashFromStringLoop_eq :
    ∀ (u : List Char) (acc : Nat), Valid u → (acc + 1) * 32 ^ u.length ≤ 2 ^ 64 →
      GetHashFromStringLoop u acc = acc * 32 ^ u.length + base32Value u := by
  intro u
  induction u with
  | nil => intro acc _ _; simp [GetHashFromStringLoop, base32Value]
  | cons c cs ih =>
    intro acc hv hroom
    have hc : indexWord c < 32 := indexWord_lt c (hv c (List.mem_cons_self _ _))
    have hcs : Valid cs := fun x hx => hv x (List.mem_cons_of_mem _ hx)
    have hp : 0 < 32 ^ cs.length := by positivity
    have hexp : (acc + 1) * 32 ^ (c :: cs).length = (32 * acc + 32) * 32 ^ cs.length := by
      rw [List.length_cons, pow_succ]; ring
    rw [hexp] at hroom
    have hacc : 32 * acc + 32 ≤ 2 ^ 64 :=
      le_trans (Nat.le_mul_of_pos_right _ hp) hroom
    have hroom2 : (32 * acc + indexWord c + 1) * 32 ^ cs.length ≤ 2 ^ 64 :=
      le_trans (Nat.mul_le_mul_right _ (by omega)) hroom
    rw [GetHashFromStringLoop, shl64_five_or acc _ hacc hc, ih _ hcs hroom2, base32Value,
      List.length_cons, pow_succ]
    ring

/-- The digit of position `k` of a base-32 number. -/
theorem base32Value_digit :
    ∀ (u : List Char) (A k : Nat) (hk : k < u.length), Valid u →
      (A * 32 ^ u.length + base32Value u) / 32 ^ (u.length - 1 - k) % 32 = indexWord u[k] := by
  intro u
  induction u with
  | nil => intro A k hk; simp at hk
  | cons c cs ih =>
    intro A k hk hv
    have hc : indexWord c < 32 := indexWord_lt c (hv c (List.mem_cons_self _ _))
    have hcs : Valid cs := fun x hx => hv x (List.mem_cons_of_mem _ hx)
    have hlt := base32Value_lt cs hcs
    have hre : A * 32 ^ (c :: cs).length + base32Value (c :: cs) =
        (A * 32 + indexWord c) * 32 ^ cs.length + base32Value cs := by
      rw [List.length_cons, pow_succ, base32Value]; ring
    rw [hre]
    cases k with
    | zero =>
      have h0 : (c :: cs).length - 1 - 0 = cs.length := by simp
      rw [h0, Nat.mul_comm, Nat.mul_add_div (by positivity), Nat.div_eq_of_lt hlt,
        Nat.add_zero, Nat.mul_comm, Nat.mul_add_mod, Nat.mod_eq_of_lt hc]
      rfl
    | succ k =>
      have hk2 : k < cs.length := by simpa using hk
      have h1 : (c :: cs).length - 1 - (k + 1) = cs.length - 1 - k := by
        simp only [List.length_cons]; omega
      rw [h1, ih (A * 32 + indexWord c) k hk2 hcs]
      rfl

/-- The `k`-th character of the hash built from the left-justified base-32
number of a text is the `k`-th character of the text. -/
theorem groupChar_base32Value (u : List Char) (hv : Valid u) (hn : u.length ≤ 12)
    (k : Nat) (hk : k < u.length) :
    groupChar (base32Value u * 2 ^ (64 - 5 * u.length)) k = u[k] := by
  have hdig := base32Value_digit u 0 k hk hv
  rw [Nat.zero_mul, Nat.zero_add] at hdig
  have hsplit : (2 : Nat) ^ (59 - 5 * k) = 2 ^ (64 - 5 * u.length) * 32 ^ (u.length - 1 - k) := by
    have : (32 : Nat) = 2 ^ 5 := rfl
    rw [this, ← pow_mul, ← pow_add]
    congr 1
    omega
  have hidx : (base32Value u * 2 ^ (64 - 5 * u.length)) >>> (59 - 5 * k) &&& bitMask =
      indexWord u[k] := by
    have h31 : bitMask = 2 ^ 5 - 1 := rfl
    rw [h31, Nat.and_pow_two_sub_one_eq_mod, Nat.shiftRight_eq_div_pow, hsplit,
      Nat.mul_comm (base32Value u), Nat.mul_div_mul_left _ _ (by positivity)]
    exact hdig
  unfold groupChar
  rw [hidx]
  exact base32_getD_indexWord _ (hv _ (List.getElem_mem _))

/-- Function `GetHashFromString` on a text whose lower-cased form has 1 to 12
bytes, all of them alphabet characters. -/
theorem GetHashFromString_eq (t : List Char) (hv : Valid (ToLower t))
    (h1 : 1 ≤ (ToLower t).length) (h12 : (ToLower t).length ≤ 12) :
    GetHashFromString t =
      some (NewHash (base32Value (ToLower t) * 2 ^ (64 - 5 * (ToLower t).length))
        (5 * (ToLower t).length)) := by
  have hroom : (0 + 1) * 32 ^ (ToLower t).length ≤ 2 ^ 64 := by
    rw [Nat.zero_add, Nat.one_mul]
    have : (32 : Nat) = 2 ^ 5 := rfl
    rw [this, ← pow_mul]
    exact Nat.pow_le_pow_right (by decide) (by omega)
  have hloop := GetHashFromStringLoop_eq (ToLower t) 0 hv hroom
  rw [Nat.zero_mul, Nat.zero_add] at hloop
  have hlt := base32Value_lt (ToLower t) hv
  have hsize : (ToLower t).length * 5 % 256 = 5 * (ToLower t).length := by omega
  have hshift : (64 + 256 - 5 * (ToLower t).length) % 256 = 64 - 5 * (ToLower t).length := by
    omega
  have hshl : shl64 (base32Value (ToLower t)) (64 - 5 * (ToLower t).length) =
      base32Value (ToLower t) * 2 ^ (64 - 5 * (ToLower t).length) := by
    unfold shl64
    rw [Nat.shiftLeft_eq]
    apply Nat.mod_eq_of_lt
    calc base32Value (ToLower t) * 2 ^ (64 - 5 * (ToLower t).length)
        < 32 ^ (ToLower t).length * 2 ^ (64 - 5 * (ToLower t).length) :=
          Nat.mul_lt_mul_of_pos_right hlt (by positivity)
      _ = 2 ^ 64 := by
          have : (32 : Nat) = 2 ^ 5 := rfl
          rw [this, ← pow_mul, ← pow_add]
          congr 1
          omega
  unfold GetHashFromString
  simp only [hloop, hsize, hshift, hshl]
  rw [if_neg (by omega)]

/-! ## ReverseHash on a text of alphabet characters -/

theorem Index_base32_indexWord :
    ∀ c, c ∈ base32 → Index base32 c = some (indexWord c) := by
  decide

/-- The character loop of `ReverseHash` replays the bits of a text of alphabet
characters. -/
theorem ReverseHashLoop_valid :
    ∀ (t : List Char) (e : Bool) (c : Cell), Valid t →
      ∃ e2, ReverseHashLoop t.length t e c = some (e2, replay (textBits t) e c) := by
  intro t
  induction t with
  | nil => intro e c _; exact ⟨e, rfl⟩
  | cons ch rest ih =>
    intro e c hv
    have hch : ch ∈ base32 := hv ch (List.mem_cons_self _ _)
    have hrest : Valid rest := fun x hx => hv x (List.mem_cons_of_mem _ hx)
    obtain ⟨e2, h2⟩ := ih (ReverseHashBits (indexWord ch) 5 e c).1
      (ReverseHashBits (indexWord ch) 5 e c).2 hrest
    refine ⟨e2, ?_⟩
    rw [List.length_cons, ReverseHashLoop, Index_base32_indexWord ch hch]
    simp only []
    rw [h2, ReverseHashBits_five, ReverseHashBits_five_flag, textBits, charBits]
    simp [replay]

/-- The midpoint of a rectangle of at most 60 bisections stays away from the
bounds of the rectangle and of the domain by more than the rounding error. -/
theorem replay_mid_bounds (L : List Bool) (hL : L.length ≤ 60) :
    -180 ≤ (replay L true fullCell).minLng ∧ (replay L true fullCell).maxLng ≤ 180 ∧
    -90 ≤ (replay L true fullCell).minLat ∧ (replay L true fullCell).maxLat ≤ 90 ∧
    1 / 200000000 <
      ((replay L true fullCell).maxLng - (replay L true fullCell).minLng) / 2 ∧
    1 / 200000000 <
      ((replay L true fullCell).maxLat - (replay L true fullCell).minLat) / 2 := by
  have hfull1 : fullCell.minLng ≤ fullCell.maxLng := by
    norm_num [fullCell, HalfLongitude]
  have hfull2 : fullCell.minLat ≤ fullCell.maxLat := by
    norm_num [fullCell, SouthPoleLat, NorthPoleLat]
  obtain ⟨n1, _, n3, n4, _, n6⟩ := replay_nested L true fullCell hfull1 hfull2
  obtain ⟨w1, w2⟩ := replay_width L true fullCell
  simp only [if_true] at w1 w2
  have hwl : fullCell.maxLng - fullCell.minLng = 360 := by
    norm_num [fullCell, HalfLongitude]
  have hwa : fullCell.maxLat - fullCell.minLat = 180 := by
    norm_num [fullCell, SouthPoleLat, NorthPoleLat]
  rw [hwl] at w1
  rw [hwa] at w2
  have b1 := half_width_bound 360 ((L.length + 1) / 2) (by omega) (by norm_num)
  have b2 := half_width_bound 180 (L.length / 2) (by omega) (by norm_num)
  rw [← w1] at b1
  rw [← w2] at b2
  have f1 : fullCell.minLng = -180 := by norm_num [fullCell, HalfLongitude]
  have f2 : fullCell.maxLng = 180 := by norm_num [fullCell, HalfLongitude]
  have f3 : fullCell.minLat = -90 := by norm_num [fullCell, SouthPoleLat]
  have f4 : fullCell.maxLat = 90 := by norm_num [fullCell, NorthPoleLat]
  rw [f1] at n1
  rw [f2] at n3
  rw [f3] at n4
  rw [f4] at n6
  exact ⟨n1, n3, n4, n6, b1, b2⟩

/-- Function `ReverseHash` on a text of 1 to 12 alphabet characters: the
midpoint of the rectangle of the text, rounded to 8 decimal places. -/
theorem ReverseHash_valid (t : List Char) (hv : Valid t)
    (h1 : 1 ≤ t.length) (h12 : t.length ≤ 12) :
    ReverseHash t =
      some { latitude :=
               Round (((cellOfText t).minLat + (cellOfText t).maxLat) / 2)
                 DecimalPlaces RoundOn,
             longitude :=
               Round (((cellOfText t).minLng + (cellOfText t).maxLng) / 2)
                 DecimalPlaces RoundOn } ∧
    NewPoint (((cellOfText t).minLat + (cellOfText t).maxLat) / 2)
        (((cellOfText t).minLng + (cellOfText t).maxLng) / 2) =
      { latitude :=
          Round (((cellOfText t).minLat + (cellOfText t).maxLat) / 2) DecimalPlaces RoundOn,
        longitude :=
          Round (((cellOfText t).minLng + (cellOfText t).maxLng) / 2)
            DecimalPlaces RoundOn } := by
  have hlen : (textBits t).length ≤ 60 := by rw [textBits_length]; omega
  obtain ⟨n1, n3, n4, n6, b1, b2⟩ := replay_mid_bounds (textBits t) hlen
  obtain ⟨e2, h2⟩ := ReverseHashLoop_valid t true fullCell hv
  have hne : ¬ t.length = 0 := by omega
  have hpt := NewPoint_interior
    (((cellOfText t).minLat + (cellOfText t).maxLat) / 2)
    (((cellOfText t).minLng + (cellOfText t).maxLng) / 2)
    (by unfold cellOfText; linarith) (by unfold cellOfText; linarith)
    (by unfold cellOfText; linarith) (by unfold cellOfText; linarith)
  refine ⟨?_, hpt⟩
  rw [ReverseHash, if_neg hne]
  simp only [ToLower_valid t hv, h2]
  rw [← hpt]
  rfl

/-! ## Empty results of GetNeighbour and GetHashAndNeighbours -/

/-- Function `GetNeighbour` returns the empty text for a direction that is not
one of the four. -/
theorem GetNeighbour_invalid (h : List Char) (d : Nat)
    (hd : ¬ (d = North ∨ d = East ∨ d = South ∨ d = West)) :
    GetNeighbour h d = some [] := by
  rw [GetNeighbour, GetNeighbourFuel]
  simp only [hd, not_false_eq_true, if_true]
  split_ifs <;> rfl

/-- Function `GetHashAndNeighbours` returns the empty list when the precision
gives no complete character. -/
theorem GetHashAndNeighbours_low (pt : Point) (p : Nat) (hp : min p 60 < 5) :
    GetHashAndNeighbours (some pt) p = some [] := by
  have hle : min p 60 ≤ 60 := Nat.min_le_right _ _
  have hmm : min (min p 60) 60 = min p 60 := Nat.min_eq_left hle
  have hc2 := GetHash_eq pt (min p 60)
  rw [hmm] at hc2
  have hlen := NewHash_str_length
    (toNum (encodeBits pt (min p 60) true fullCell) * 2 ^ (64 - min p 60)) (min p 60)
  rw [hmm] at hlen
  have h0 : min p 60 / 5 = 0 := by omega
  rw [h0] at hlen
  simp only [GetHashAndNeighbours, MaxHashBits, hc2, hlen, if_true]

/-! ## NewPoint: the range of the coordinates -/

/-- Rounding to 8 decimal places gives a multiple of 0.00000001. -/
theorem Round_multiple (x : ℚ) :
    ∃ a : Int, Round x DecimalPlaces RoundOn = (a : ℚ) / 100000000 := by
  have hpow : ((10 : ℚ) ^ DecimalPlaces) = 100000000 := by norm_num [DecimalPlaces]
  unfold Round
  simp only [hpow]
  split_ifs
  · exact ⟨⌊(100000000 : ℚ) * x⌋ + 1, by push_cast; rfl⟩
  · exact ⟨⌊(100000000 : ℚ) * x⌋, rfl⟩

/-- Rounding does not cross an integer from below. -/
theorem Round_le_of_le (x : ℚ) (n : Int) (h : x ≤ n) :
    Round x DecimalPlaces RoundOn ≤ n := by
  have hpow : ((10 : ℚ) ^ DecimalPlaces) = 100000000 := by norm_num [DecimalPlaces]
  have hfl := Int.floor_le ((100000000 : ℚ) * x)
  unfold Round
  simp only [hpow, RoundOn]
  split_ifs with hc
  · have hlt : ⌊(100000000 : ℚ) * x⌋ < 100000000 * n := by
      have h1 : ((⌊(100000000 : ℚ) * x⌋ : Int) : ℚ) < ((100000000 * n : Int) : ℚ) := by
        push_cast; linarith
      exact_mod_cast h1
    have h2 : ⌊(100000000 : ℚ) * x⌋ + 1 ≤ 100000000 * n := hlt
    have h3 : ((⌊(100000000 : ℚ) * x⌋ : Int) : ℚ) + 1 ≤ 100000000 * (n : ℚ) := by
      exact_mod_cast h2
    rw [div_le_iff₀ (by norm_num)]; linarith
  · rw [div_le_iff₀ (by norm_num)]; linarith

/-- Rounding does not cross an integer from above. -/
theorem Round_ge_of_ge (x : ℚ) (n : Int) (h : (n : ℚ) ≤ x) :
    (n : ℚ) ≤ Round x DecimalPlaces RoundOn := by
  have hpow : ((10 : ℚ) ^ DecimalPlaces) = 100000000 := by norm_num [DecimalPlaces]
  have hle : (100000000 * n : Int) ≤ ⌊(100000000 : ℚ) * x⌋ := by
    apply Int.le_floor.mpr
    push_cast; linarith
  have h3 : 100000000 * (n : ℚ) ≤ ((⌊(100000000 : ℚ) * x⌋ : Int) : ℚ) := by
    exact_mod_cast hle
  unfold Round
  simp only [hpow, RoundOn]
  split_ifs
  · rw [le_div_iff₀ (by norm_num)]; linarith
  · rw [le_div_iff₀ (by norm_num)]; linarith

theorem Round_zero : Round 0 DecimalPlaces RoundOn = 0 := by
  unfold Round
  simp [RoundOn]

/-- The remainder `math.Mod x 360` lies strictly between -360 and 360. -/
theorem Mod_bounds (x : ℚ) : -360 < Mod x TotalLongitude ∧ Mod x TotalLongitude < 360 := by
  have hx : x = 360 * (x / 360) := by ring
  unfold Mod TotalLongitude
  split_ifs with h
  · have h1 := Int.floor_le (x / 360)
    have h2 := Int.lt_floor_add_one (x / 360)
    constructor <;> linarith
  · have h1 := Int.le_ceil (x / 360)
    have h2 := Int.ceil_lt_add_one (x / 360)
    constructor <;> linarith

theorem Round_bounds_90 (x : ℚ) (h1 : -90 ≤ x) (h2 : x ≤ 90) :
    -90 ≤ Round x DecimalPlaces RoundOn ∧ Round x DecimalPlaces RoundOn ≤ 90 := by
  have a := Round_ge_of_ge x (-90) (by push_cast; exact h1)
  have b := Round_le_of_le x 90 (by push_cast; exact h2)
  push_cast at a b
  exact ⟨a, b⟩

theorem Round_bounds_180 (x : ℚ) (h1 : -180 ≤ x) (h2 : x ≤ 180) :
    -180 ≤ Round x DecimalPlaces RoundOn ∧ Round x DecimalPlaces RoundOn ≤ 180 := by
  have a := Round_ge_of_ge x (-180) (by push_cast; exact h1)
  have b := Round_le_of_le x 180 (by push_cast; exact h2)
  push_cast at a b
  exact ⟨a, b⟩

/-- The longitude `NewPoint` computes before rounding lies in (-180, 180]. -/
theorem wrap_bounds (r : ℚ) (m1 : -360 < r) (m2 : r < 360) :
    -180 < (if r ≤ -HalfLongitude then r + TotalLongitude
      else if r > HalfLongitude then r - TotalLongitude else r) ∧
    (if r ≤ -HalfLongitude then r + TotalLongitude
      else if r > HalfLongitude then r - TotalLongitude else r) ≤ 180 := by
  unfold HalfLongitude TotalLongitude
  split_ifs with h1 h2
  · constructor <;> linarith
  · constructor <;> linarith
  · constructor <;> linarith [not_le.mp h1, not_lt.mp h2]

/-- The coordinates `NewPoint` returns: the latitude lies in [-90, 90], the
longitude in [-180, 180] (the value -180 included), the longitude is 0 at the
poles and both are multiples of 0.00000001. -/
theorem NewPoint_contract (latitude longitude : ℚ) :
    -90 ≤ (NewPoint latitude longitude).latitude ∧
    (NewPoint latitude longitude).latitude ≤ 90 ∧
    -180 ≤ (NewPoint latitude longitude).longitude ∧
    (NewPoint latitude longitude).longitude ≤ 180 ∧
    (|(NewPoint latitude longitude).latitude| = 90 →
      (NewPoint latitude longitude).longitude = 0) ∧
    (∃ a : Int, (NewPoint latitude longitude).latitude = (a : ℚ) / 100000000) ∧
    (∃ b : Int, (NewPoint latitude longitude).longitude = (b : ℚ) / 100000000) := by
  have hlat0 : -90 ≤ (if latitude > 0 then min latitude NorthPoleLat
      else max latitude SouthPoleLat) ∧
      (if latitude > 0 then min latitude NorthPoleLat else max latitude SouthPoleLat) ≤ 90 := by
    unfold NorthPoleLat SouthPoleLat
    split_ifs with h
    · exact ⟨le_min (by linarith) (by norm_num), min_le_right _ _⟩
    · exact ⟨le_max_right _ _, max_le (by linarith [not_lt.mp h]) (by norm_num)⟩
  obtain ⟨m1, m2⟩ := Mod_bounds longitude
  obtain ⟨w1, w2⟩ := wrap_bounds (Mod longitude TotalLongitude) m1 m2
  obtain ⟨a1, a2⟩ := Round_bounds_90 _ hlat0.1 hlat0.2
  obtain ⟨b1, b2⟩ := Round_bounds_180 _ (le_of_lt w1) w2
  unfold NewPoint
  simp only []
  refine ⟨a1, a2, ?_, ?_, ?_, Round_multiple _, Round_multiple _⟩
  · by_cases hp : |Round (if latitude > 0 then min latitude NorthPoleLat
        else max latitude SouthPoleLat) DecimalPlaces RoundOn| = NorthPoleLat
    · rw [if_pos hp, Round_zero]; norm_num
    · rw [if_neg hp]; exact b1
  · by_cases hp : |Round (if latitude > 0 then min latitude NorthPoleLat
        else max latitude SouthPoleLat) DecimalPlaces RoundOn| = NorthPoleLat
    · rw [if_pos hp, Round_zero]; norm_num
    · rw [if_neg hp]; exact b2
  · intro hpole
    have hp : |Round (if latitude > 0 then min latitude NorthPoleLat
        else max latitude SouthPoleLat) DecimalPlaces RoundOn| = NorthPoleLat := by
      unfold NorthPoleLat at hpole ⊢
      exact hpole
    rw [if_pos hp, Round_zero]

/-! ## NewPoint on inputs with 8 decimal places -/

/-- Rounding to 8 decimal places leaves a multiple of 0.00000001 unchanged. -/
theorem Round_fixed (x : ℚ) (a : Int) (ha : x = (a : ℚ) / 100000000) :
    Round x DecimalPlaces RoundOn = x := by
  have hpow : ((10 : ℚ) ^ DecimalPlaces) = 100000000 := by norm_num [DecimalPlaces]
  have hd : (100000000 : ℚ) * x = (a : ℚ) := by rw [ha]; field_simp
  unfold Round
  simp only [hpow, RoundOn, hd, Int.floor_intCast, sub_self]
  rw [if_neg (by norm_num)]
  exact ha.symm

/-- The two branches by which `NewPoint` caps the latitude are the clamp to
[-90, 90]. -/
theorem clamp_eq (lat : ℚ) :
    (if lat > 0 then min lat NorthPoleLat else max lat SouthPoleLat) =
      min (max lat (-90)) 90 := by
  unfold NorthPoleLat SouthPoleLat
  split_ifs with h
  · rw [max_eq_left (by linarith)]
  · have h2 : max lat (-90) ≤ 90 := max_le (by linarith [not_lt.mp h]) (by norm_num)
    rw [min_eq_left h2]

/-- The clamp of a multiple of 0.00000001 is a multiple of 0.00000001. -/
theorem clamp_multiple (lat : ℚ) (a : Int) (ha : lat = (a : ℚ) / 100000000) :
    ∃ c : Int, min (max lat (-90)) 90 = (c : ℚ) / 100000000 := by
  rcases le_total (max lat (-90)) 90 with h | h
  · rw [min_eq_left h]
    rcases le_total lat (-90) with h2 | h2
    · rw [max_eq_right h2]
      exact ⟨-9000000000, by norm_num⟩
    · rw [max_eq_left h2]
      exact ⟨a, ha⟩
  · rw [min_eq_right h]
    exact ⟨9000000000, by norm_num⟩

/-- The remainder `math.Mod x 360` differs from `x` by a multiple of 360. -/
theorem Mod_eq_sub (x : ℚ) : ∃ k : Int, Mod x TotalLongitude = x - 360 * (k : ℚ) := by
  unfold Mod TotalLongitude
  split_ifs
  · exact ⟨⌊x / 360⌋, rfl⟩
  · exact ⟨⌈x / 360⌉, rfl⟩

/-- The longitude `NewPoint` computes before rounding differs from the input by
a multiple of 360. -/
theorem wrap_eq_add (x : ℚ) :
    ∃ k : Int,
      (if Mod x TotalLongitude ≤ -HalfLongitude then Mod x TotalLongitude + TotalLongitude
        else if Mod x TotalLongitude > HalfLongitude then Mod x TotalLongitude - TotalLongitude
        else Mod x TotalLongitude) = x + 360 * (k : ℚ) := by
  obtain ⟨k, hk⟩ := Mod_eq_sub x
  rw [hk]
  unfold TotalLongitude
  split_ifs
  · exact ⟨1 - k, by push_cast; ring⟩
  · exact ⟨-1 - k, by push_cast; ring⟩
  · exact ⟨-k, by push_cast; ring⟩

/-- Function `NewPoint` on inputs that are multiples of 0.00000001: the
latitude is clamped, and away from the poles the longitude is wrapped. -/
theorem NewPoint_multiple (lat lng : ℚ) (a b : Int)
    (ha : lat = (a : ℚ) / 100000000) (hb : lng = (b : ℚ) / 100000000) :
    (NewPoint lat lng).latitude = min (max lat (-90)) 90 ∧
    (|min (max lat (-90)) 90| = 90 → (NewPoint lat lng).longitude = 0) ∧
    (¬ |min (max lat (-90)) 90| = 90 →
      (NewPoint lat lng).longitude =
        (if Mod lng TotalLongitude ≤ -HalfLongitude then Mod lng TotalLongitude + TotalLongitude
          else if Mod lng TotalLongitude > HalfLongitude then
            Mod lng TotalLongitude - TotalLongitude
          else Mod lng TotalLongitude)) := by
  obtain ⟨c, hc⟩ := clamp_multiple lat a ha
  have hlat : Round (if lat > 0 then min lat NorthPoleLat else max lat SouthPoleLat)
      DecimalPlaces RoundOn = min (max lat (-90)) 90 := by
    rw [clamp_eq, Round_fixed _ c hc]
  obtain ⟨k, hk⟩ := wrap_eq_add lng
  have hw : Round (if Mod lng TotalLongitude ≤ -HalfLongitude then
        Mod lng TotalLongitude + TotalLongitude
      else if Mod lng TotalLongitude > HalfLongitude then
        Mod lng TotalLongitude - TotalLongitude
      else Mod lng TotalLongitude) DecimalPlaces RoundOn =
      (if Mod lng TotalLongitude ≤ -HalfLongitude then
        Mod lng TotalLongitude + TotalLongitude
      else if Mod lng TotalLongitude > HalfLongitude then
        Mod lng TotalLongitude - TotalLongitude
      else Mod lng TotalLongitude) := by
    apply Round_fixed _ (b + 36000000000 * k)
    rw [hk, hb]
    push_cast
    ring
  unfold NewPoint
  simp only [hlat]
  refine ⟨trivial, ?_, ?_⟩
  · intro hp
    have hp2 : |min (max lat (-90)) 90| = NorthPoleLat := hp
    rw [if_pos hp2, Round_zero]
  · intro hp
    have hp2 : ¬ |min (max lat (-90)) 90| = NorthPoleLat := hp
    rw [if_neg hp2, hw]

/-! ## NewBoundary -/

/-- Function `NewPoint` returns a point in normal form unchanged, also with the
longitude replaced by 0. -/
theorem NewPoint_fixed (lat lng : ℚ) (a b : Int)
    (ha : lat = (a : ℚ) / 100000000) (hb : lng = (b : ℚ) / 100000000)
    (h1 : -90 ≤ lat) (h2 : lat ≤ 90) (h3 : -180 < lng) (h4 : lng ≤ 180)
    (hpole : |lat| = 90 → lng = 0) :
    NewPoint lat lng = { latitude := lat, longitude := lng } := by
  obtain ⟨e1, e2, e3⟩ := NewPoint_multiple lat lng a b ha hb
  have hclamp : min (max lat (-90)) 90 = lat := by
    rw [max_eq_left h1, min_eq_left h2]
  rw [hclamp] at e1 e2 e3
  have hlng : (NewPoint lat lng).longitude = lng := by
    by_cases hp : |lat| = 90
    · rw [e2 hp, hpole hp]
    · have hmod := Mod_small lng (by linarith) (by linarith)
      rw [e3 hp, hmod]
      unfold HalfLongitude
      rw [if_neg (by linarith), if_neg (by linarith)]
  cases hnp : NewPoint lat lng with
  | mk la lo =>
    rw [hnp] at e1 hlng
    simp only at e1 hlng
    rw [e1, hlng]

/-- Every step keeps the state among those a call can be in. -/
theorem BoundaryInv_step (pl pu : Point) (s : BoundaryState) (t : Thread)
    (h : BoundaryInv pl pu s) : BoundaryInv pl pu (step s t) := by
  obtain ⟨a, b, c, d, e, f⟩ := s
  obtain ⟨h1, h2⟩ := h
  simp only [InTransit] at h1 h2
  cases t <;>
    rcases h1 with ⟨rfl, rfl, rfl⟩ | ⟨rfl, rfl, rfl⟩ | ⟨rfl, rfl, rfl⟩ <;>
    rcases h2 with ⟨rfl, rfl, rfl⟩ | ⟨rfl, rfl, rfl⟩ | ⟨rfl, rfl, rfl⟩ <;>
    simp [BoundaryInv, InTransit, step]

theorem BoundaryInv_run (pl pu : Point) (schedule : List Thread) :
    ∀ s : BoundaryState, BoundaryInv pl pu s → BoundaryInv pl pu (schedule.foldl step s) := by
  induction schedule with
  | nil => intro s h; exact h
  | cons t ts ih => intro s h; exact ih _ (BoundaryInv_step pl pu s t h)

/-- Once both goroutines, in either order, and then the caller, twice, have
taken a step, the caller has received both points. -/
theorem BoundaryInv_finish (pl pu : Point) (s : BoundaryState) (h : BoundaryInv pl pu s) :
    ([Thread.sendLower, Thread.sendUpper, Thread.caller, Thread.caller].foldl step s).lower =
      some pl ∧
    ([Thread.sendLower, Thread.sendUpper, Thread.caller, Thread.caller].foldl step s).upper =
      some pu ∧
    ([Thread.sendUpper, Thread.sendLower, Thread.caller, Thread.caller].foldl step s).lower =
      some pl ∧
    ([Thread.sendUpper, Thread.sendLower, Thread.caller, Thread.caller].foldl step s).upper =
      some pu := by
  obtain ⟨a, b, c, d, e, f⟩ := s
  obtain ⟨h1, h2⟩ := h
  simp only [InTransit] at h1 h2
  rcases h1 with ⟨rfl, rfl, rfl⟩ | ⟨rfl, rfl, rfl⟩ | ⟨rfl, rfl, rfl⟩ <;>
    rcases h2 with ⟨rfl, rfl, rfl⟩ | ⟨rfl, rfl, rfl⟩ | ⟨rfl, rfl, rfl⟩ <;>
    simp [step]

/-- The result of `NewBoundary` under every schedule: as long as the caller has
not received both points there is none, and otherwise it is `corners`; it is
`corners` once both goroutines, in either order, and then the caller, twice,
have taken a step. -/
theorem NewBoundary_eq (schedule : List Thread) (lower upper : Point) :
    (NewBoundary schedule lower upper = none ∨
      NewBoundary schedule lower upper = some (corners lower upper)) ∧
    NewBoundary (schedule ++ [Thread.sendLower, Thread.sendUpper, Thread.caller, Thread.caller])
      lower upper = some (corners lower upper) ∧
    NewBoundary (schedule ++ [Thread.sendUpper, Thread.sendLower, Thread.caller, Thread.caller])
      lower upper = some (corners lower upper) := by
  have h0 : BoundaryInv (corners lower upper).lower (corners lower upper).upper
      { pendingLower := some (corners lower upper).lower,
        pendingUpper := some (corners lower upper).upper,
        chLower := none, chUpper := none, lower := none, upper := none } := by
    simp [BoundaryInv, InTransit]
  have hstart : ∀ sch : List Thread, NewBoundary sch lower upper =
      (match (sch.foldl step
          { pendingLower := some (corners lower upper).lower,
            pendingUpper := some (corners lower upper).upper,
            chLower := none, chUpper := none, lower := none, upper := none }).lower,
        (sch.foldl step
          { pendingLower := some (corners lower upper).lower,
            pendingUpper := some (corners lower upper).upper,
            chLower := none, chUpper := none, lower := none, upper := none }).upper with
      | some l, some u => some { lower := l, upper := u }
      | _, _ => none) := by
    intro sch
    unfold NewBoundary corners
    split_ifs <;> rfl
  refine ⟨?_, ?_, ?_⟩
  · rw [hstart]
    have hinv := BoundaryInv_run _ _ schedule _ h0
    generalize schedule.foldl step _ = s at hinv
    obtain ⟨a, b, c, d, e, f⟩ := s
    obtain ⟨h1, h2⟩ := hinv
    simp only [InTransit] at h1 h2
    rcases h1 with ⟨rfl, rfl, rfl⟩ | ⟨rfl, rfl, rfl⟩ | ⟨rfl, rfl, rfl⟩ <;>
      rcases h2 with ⟨rfl, rfl, rfl⟩ | ⟨rfl, rfl, rfl⟩ | ⟨rfl, rfl, rfl⟩ <;>
      simp
  · rw [hstart, List.foldl_append]
    have hinv := BoundaryInv_run _ _ schedule _ h0
    obtain ⟨e1, e2, _, _⟩ := BoundaryInv_finish _ _ _ hinv
    rw [e1, e2]
  · rw [hstart, List.foldl_append]
    have hinv := BoundaryInv_run _ _ schedule _ h0
    obtain ⟨_, _, e1, e2⟩ := BoundaryInv_finish _ _ _ hinv
    rw [e1, e2]

/-! ## GetNeighbour on texts in upper or lower case -/

theorem Valid_take (l : List Char) (n : Nat) (hv : Valid l) : Valid (l.take n) :=
  fun c hc => hv c (List.mem_of_mem_take hc)

/-- On a text of alphabet characters a budget above the length of the text is
never exhausted: the result is the one of `GetNeighbour`. -/
theorem GetNeighbourFuel_valid :
    ∀ (fuel : Nat) (v : List Char) (d : Nat), Valid v → v.length < fuel →
      GetNeighbourFuel fuel v d = GetNeighbour v d := by
  intro fuel
  induction fuel using Nat.strong_induction_on with
  | _ n ih =>
    intro v d hv hlt
    cases n with
    | zero => omega
    | succ m =>
      unfold GetNeighbour
      have hlow := ToLower_valid v hv
      by_cases h0 : v.length = 0
      · simp only [GetNeighbourFuel, hlow, h0, if_true]
      · have hvp := Valid_take v (v.length - 1) hv
        have hpl : (v.take (v.length - 1)).length < v.length := by
          rw [List.length_take]; omega
        have key : GetNeighbourFuel m (v.take (v.length - 1)) d =
            GetNeighbourFuel v.length (v.take (v.length - 1)) d := by
          rw [ih m (Nat.lt_succ_self m) _ d hvp (by omega), ih v.length hlt _ d hvp hpl]
        simp only [GetNeighbourFuel, hlow, key]

/-- The first statement of `GetNeighbour` lower-cases the text: when the
lower-cased text is made of alphabet characters, every budget above its length
gives the neighbour of the lower-cased text. -/
theorem GetNeighbourFuel_lower (fuel : Nat) (h : List Char) (d : Nat)
    (hv : Valid (ToLower h)) (hlt : (ToLower h).length < fuel) :
    GetNeighbourFuel fuel h d = GetNeighbour (ToLower h) d := by
  obtain ⟨m, rfl⟩ : ∃ m, fuel = m + 1 := ⟨fuel - 1, by omega⟩
  have hlow := ToLower_valid _ hv
  unfold GetNeighbour
  by_cases h0 : (ToLower h).length = 0
  · simp only [GetNeighbourFuel, hlow, h0, if_true]
  · have hvp := Valid_take (ToLower h) ((ToLower h).length - 1) hv
    have hpl : ((ToLower h).take ((ToLower h).length - 1)).length < (ToLower h).length := by
      rw [List.length_take]; omega
    have key : GetNeighbourFuel m ((ToLower h).take ((ToLower h).length - 1)) d =
        GetNeighbourFuel (ToLower h).length ((ToLower h).take ((ToLower h).length - 1)) d := by
      rw [GetNeighbourFuel_valid m _ d hvp (by omega),
        GetNeighbourFuel_valid (ToLower h).length _ d hvp hpl]
    simp only [GetNeighbourFuel, hlow, key]

theorem GetNeighbour_lower (h : List Char) (d : Nat) (hv : Valid (ToLower h)) :
    GetNeighbour h d = GetNeighbour (ToLower h) d := by
  have hle := ToLower_length_le h hv
  exact GetNeighbourFuel_lower (h.length + 1) h d hv (by omega)

/-- Every table of `neighbours` is a rearrangement of the alphabet. -/
theorem neighbours_perm :
    ∀ d, d ∈ [North, East, South, West] → ∀ cat, cat ∈ [0, 1] →
      ((neighbours d).getD cat []).Perm base32 := by
  decide!

/-- The lookup of an alphabet character in a table of `neighbours` gives a
position below 32, at which the alphabet has a character. -/
theorem neighbours_lookup :
    ∀ d, d ∈ [North, East, South, West] → ∀ cat, cat ∈ [0, 1] → ∀ c, c ∈ base32 →
      ∃ k, Index ((neighbours d).getD cat []) c = some k ∧ k < 32 ∧
        ∃ ch, base32.get? k = some ch ∧ ch ∈ base32 := by
  decide!

/-! ## Hashes of one point at two precisions -/

/-- The decisions of the loop of `GetHash` at a precision are the first
decisions at every larger precision. -/
theorem encodeBits_split (pt : Point) (m b : Nat) :
    ∃ r : List Bool, r.length = b ∧
      encodeBits pt (m + b) true fullCell = encodeBits pt m true fullCell ++ r := by
  refine ⟨(encodeBits pt (m + b) true fullCell).drop m, ?_, ?_⟩
  · rw [List.length_drop, encodeBits_length]; omega
  · rw [← encodeBits_take pt m b true fullCell, List.take_append_drop]

/-- The top `m` bits of the words at precisions `m` and `m + b` agree. -/
theorem encodeBits_testBit (pt : Point) (m b : Nat) (hn : m + b ≤ 60) (i : Nat) (hi : i < m) :
    (toNum (encodeBits pt m true fullCell) * 2 ^ (64 - m)).testBit (63 - i) =
      (toNum (encodeBits pt (m + b) true fullCell) * 2 ^ (64 - (m + b))).testBit (63 - i) := by
  have hlm := encodeBits_length pt m true fullCell
  have hln := encodeBits_length pt (m + b) true fullCell
  have h1 := testBit_leftJustified (encodeBits pt m true fullCell) (by rw [hlm]; omega) i
    (by rw [hlm]; exact hi)
  have h2 := testBit_leftJustified (encodeBits pt (m + b) true fullCell) (by rw [hln]; omega) i
    (by rw [hln]; omega)
  have e1 : 64 - m = 64 - (encodeBits pt m true fullCell).length := by rw [hlm]
  have e2 : 64 - (m + b) = 64 - (encodeBits pt (m + b) true fullCell).length := by rw [hln]
  rw [e1, e2, h1, h2]
  have ht := encodeBits_take pt m b true fullCell
  have : (encodeBits pt m true fullCell)[i]? = (encodeBits pt (m + b) true fullCell)[i]? := by
    rw [← ht, List.getElem?_take_of_lt hi]
  rw [List.getElem?_eq_getElem (by rw [hlm]; exact hi),
    List.getElem?_eq_getElem (by rw [hln]; omega)] at this
  exact Option.some.inj this

/-- The hashes of one point at the precisions `m` and `m + b`, up to 60 bits:
word, value and text of the first are the top part of the second. -/
theorem GetHash_truncate (pt : Point) (m b : Nat) (hn : m + b ≤ 60) :
    ∃ hm hn, GetHash (some pt) m = some hm ∧ GetHash (some pt) (m + b) = some hn ∧
      hm.size = m ∧ hn.size = m + b ∧
      hm.bits = hn.bits / 2 ^ (64 - m) * 2 ^ (64 - m) ∧
      hm.val = hn.val >>> b ∧
      hm.str = hn.str.take (m / 5) ∧ hm.str.length = m / 5 := by
  have hm60 : min m 60 = m := Nat.min_eq_left (by omega)
  have hn60 : min (m + b) 60 = m + b := Nat.min_eq_left hn
  have hlm := encodeBits_length pt m true fullCell
  have hln := encodeBits_length pt (m + b) true fullCell
  obtain ⟨r, hr, hsplit⟩ := encodeBits_split pt m b
  have hrlt := toNum_lt r
  rw [hr] at hrlt
  have e1 := GetHash_eq pt m
  have e2 := GetHash_eq pt (m + b)
  rw [hm60] at e1
  rw [hn60] at e2
  refine ⟨_, _, e1, e2, ?_, ?_, ?_, ?_, ?_, ?_⟩
  · rw [NewHash_size, hm60]
  · rw [NewHash_size, hn60]
  · rw [NewHash_bits, NewHash_bits, hsplit, toNum_append, hr]
    have hpow : (2 : Nat) ^ (64 - m) = 2 ^ b * 2 ^ (64 - (m + b)) := by
      rw [← pow_add]; congr 1; omega
    have hlow : toNum r * 2 ^ (64 - (m + b)) < 2 ^ (64 - m) := by
      rw [hpow]
      exact Nat.mul_lt_mul_of_pos_right hrlt (by positivity)
    have hsum : (toNum (encodeBits pt m true fullCell) * 2 ^ b + toNum r) * 2 ^ (64 - (m + b)) =
        toNum r * 2 ^ (64 - (m + b)) + 2 ^ (64 - m) * toNum (encodeBits pt m true fullCell) := by
      rw [hpow]; ring
    rw [hsum, Nat.add_mul_div_left _ _ (by positivity), Nat.div_eq_of_lt hlow, Nat.zero_add]
  · rw [NewHash_val, NewHash_val, hm60, hn60]
    have a1 := leftJustified_shiftRight (encodeBits pt m true fullCell)
    have a2 := leftJustified_shiftRight (encodeBits pt (m + b) true fullCell)
    rw [hlm] at a1
    rw [hln] at a2
    rw [a1, a2, hsplit, toNum_append, hr, Nat.shiftRight_eq_div_pow,
      Nat.add_comm, Nat.mul_comm, Nat.add_mul_div_left _ _ (by positivity),
      Nat.div_eq_of_lt hrlt, Nat.zero_add]
  · rw [NewHash_str, NewHash_str, hm60, hn60, ← List.map_take, List.take_range,
      Nat.min_eq_left (Nat.div_le_div_right (by omega))]
    apply List.map_congr_left
    intro g hg
    have hg2 : g < m / 5 := List.mem_range.mp hg
    have hg3 : 5 * g + 5 ≤ m := by omega
    exact groupChar_congr _ _ g (by omega)
      (fun i hi => encodeBits_testBit pt m b hn i (by omega))
  · rw [NewHash_str_length, hm60]

/-! ## Steps as shifts of the two indices -/

theorem cast_emod_self (a M : Nat) (h : a < M) : (a : Int) = ((a : Int) + 0) % (M : Int) := by
  rw [Int.add_zero, Int.emod_eq_of_lt (by positivity) (by exact_mod_cast h)]

/-- A step in one of the four directions gives a text of alphabet characters of
the same length whose longitude and latitude indices are those of the text,
shifted by the step modulo the numbers of columns and rows. -/
theorem GetNeighbour_shift (d : Nat) (hd : d = North ∨ d = East ∨ d = South ∨ d = West)
    (h : List Char) (hv : Valid h) :
    ∃ n, GetNeighbour h d = some n ∧ Valid n ∧ n.length = h.length ∧
      (lngIndex n : Int) = ((lngIndex h : Int) + dLng d) % ((2 ^ lngBits h.length : Nat) : Int) ∧
      (latIndex n : Int) = ((latIndex h : Int) + dLat d) % ((2 ^ latBits h.length : Nat) : Int) := by
  have hx := lngIndex_lt h
  have hy := latIndex_lt h
  rcases hd with rfl | rfl | rfl | rfl
  · obtain ⟨n, hn, hvn, hl, h1, h2⟩ := GetNeighbour_north h hv
    refine ⟨n, hn, hvn, hl, ?_, ?_⟩
    · rw [h1]; exact cast_emod_self _ _ hx
    · exact succ_mod_cast _ _ _ h2
  · obtain ⟨n, hn, hvn, hl, h1, h2⟩ := GetNeighbour_east h hv
    refine ⟨n, hn, hvn, hl, ?_, ?_⟩
    · exact succ_mod_cast _ _ _ h2
    · rw [h1]; exact cast_emod_self _ _ hy
  · obtain ⟨n, hn, hvn, hl, h1, h2⟩ := GetNeighbour_south h hv
    refine ⟨n, hn, hvn, hl, ?_, ?_⟩
    · rw [h1]; exact cast_emod_self _ _ hx
    · exact h2
  · obtain ⟨n, hn, hvn, hl, h1, h2⟩ := GetNeighbour_west h hv
    refine ⟨n, hn, hvn, hl, ?_, ?_⟩
    · exact h2
    · rw [h1]; exact cast_emod_self _ _ hy

/-- Two steps, in any two of the four directions, lead to the same text in
either order. -/
theorem GetNeighbour_commute (d1 d2 : Nat)
    (hd1 : d1 = North ∨ d1 = East ∨ d1 = South ∨ d1 = West)
    (hd2 : d2 = North ∨ d2 = East ∨ d2 = South ∨ d2 = West)
    (h : List Char) (hv : Valid h) :
    ∃ a, Valid a ∧ a.length = h.length ∧
      (∃ n, GetNeighbour h d1 = some n ∧ GetNeighbour n d2 = some a) ∧
      (∃ e, GetNeighbour h d2 = some e ∧ GetNeighbour e d1 = some a) := by
  obtain ⟨n, hn, hvn, hln, hnx, hny⟩ := GetNeighbour_shift d1 hd1 h hv
  obtain ⟨a, ha, hva, hla, hax, hay⟩ := GetNeighbour_shift d2 hd2 n hvn
  obtain ⟨e, he, hve, hle, hex, hey⟩ := GetNeighbour_shift d2 hd2 h hv
  obtain ⟨a2, ha2, hva2, hla2, ha2x, ha2y⟩ := GetNeighbour_shift d1 hd1 e hve
  rw [hln, hnx, Int.emod_add_emod] at hax
  rw [hln, hny, Int.emod_add_emod] at hay
  rw [hle, hex, Int.emod_add_emod] at ha2x
  rw [hle, hey, Int.emod_add_emod] at ha2y
  have hx : lngIndex a = lngIndex a2 := by
    have : (lngIndex a : Int) = (lngIndex a2 : Int) := by
      rw [hax, ha2x, add_right_comm]
    exact_mod_cast this
  have hy : latIndex a = latIndex a2 := by
    have : (latIndex a : Int) = (latIndex a2 : Int) := by
      rw [hay, ha2y, add_right_comm]
    exact_mod_cast this
  have heq : a = a2 :=
    index_injective a a2 hva hva2 (by rw [hla, hln, hla2, hle]) hx hy
  subst heq
  exact ⟨a, hva, by rw [hla, hln], ⟨n, hn, ha⟩, ⟨e, he, ha2⟩⟩

/-! ## Texts around a centre -/

theorem Offset_self (c : List Char) (hv : Valid c) : Offset c c 0 0 :=
  ⟨hv, rfl, cast_emod_self _ _ (lngIndex_lt c), cast_emod_self _ _ (latIndex_lt c)⟩

/-- A step from a text at an offset leads to the text at the shifted offset. -/
theorem Offset_step (c t t2 : List Char) (a b : Int) (d : Nat)
    (hd : d = North ∨ d = East ∨ d = South ∨ d = West) (h : Offset c t a b)
    (h2 : GetNeighbour t d = some t2) : Offset c t2 (a + dLng d) (b + dLat d) := by
  obtain ⟨hv, hl, hx, hy⟩ := h
  obtain ⟨n, hn, hvn, hln, hnx, hny⟩ := GetNeighbour_shift d hd t hv
  rw [h2] at hn
  have : t2 = n := Option.some.inj hn
  subst this
  rw [hl, hx, Int.emod_add_emod, add_assoc] at hnx
  rw [hl, hy, Int.emod_add_emod, add_assoc] at hny
  exact ⟨hvn, by rw [hln, hl], hnx, hny⟩

/-- A non-empty text has at least four columns and four rows. -/
theorem four_le_grid (len : Nat) (h : 1 ≤ len) :
    (4 : Int) ≤ ((2 ^ lngBits len : Nat) : Int) ∧ (4 : Int) ≤ ((2 ^ latBits len : Nat) : Int) := by
  have h1 : 2 ≤ lngBits len := by unfold lngBits; omega
  have h2 : 2 ≤ latBits len := by unfold latBits; omega
  have p1 : 2 ^ 2 ≤ 2 ^ lngBits len := Nat.pow_le_pow_right (by decide) h1
  have p2 : 2 ^ 2 ≤ 2 ^ latBits len := Nat.pow_le_pow_right (by decide) h2
  constructor
  · exact_mod_cast p1
  · exact_mod_cast p2

theorem emod_shift_eq (X a a2 M : Int) (hM : 4 ≤ M) (h1 : a - a2 ≤ 2) (h2 : a2 - a ≤ 2)
    (h : (X + a) % M = (X + a2) % M) : a = a2 := by
  have hd : M ∣ (X + a) - (X + a2) := Int.ModEq.dvd h.symm
  have hd2 : M ∣ a - a2 := by
    have : (X + a) - (X + a2) = a - a2 := by ring
    rwa [this] at hd
  have habs : |a - a2| < M := by
    rw [abs_lt]; constructor <;> linarith
  have := Int.eq_zero_of_abs_lt_dvd hd2 habs
  linarith

/-- Texts at two different offsets that are at most two columns and two rows
apart are different. -/
theorem Offset_ne (c t u : List Char) (a b a2 b2 : Int) (hc : c ≠ [])
    (h1 : Offset c t a b) (h2 : Offset c u a2 b2)
    (hr : a - a2 ≤ 2 ∧ a2 - a ≤ 2 ∧ b - b2 ≤ 2 ∧ b2 - b ≤ 2)
    (hne : a ≠ a2 ∨ b ≠ b2) : t ≠ u := by
  intro heq
  subst heq
  obtain ⟨_, _, hx, hy⟩ := h1
  obtain ⟨_, _, hx2, hy2⟩ := h2
  have hlen : 1 ≤ c.length := Nat.pos_of_ne_zero (fun h0 => hc (List.length_eq_zero.mp h0))
  obtain ⟨g1, g2⟩ := four_le_grid c.length hlen
  rw [hx] at hx2
  rw [hy] at hy2
  rcases hne with h | h
  · exact h (emod_shift_eq _ _ _ _ g1 hr.1 hr.2.1 hx2)
  · exact h (emod_shift_eq _ _ _ _ g2 hr.2.2.1 hr.2.2.2 hy2)

/-- A step from a non-empty text of alphabet characters never returns the text
itself. -/
theorem GetNeighbour_ne_self (h : List Char) (d : Nat) (hne : h ≠ []) (hv : Valid h)
    (hd : d = North ∨ d = East ∨ d = South ∨ d = West) :
    ∃ n, GetNeighbour h d = some n ∧ n ≠ h := by
  obtain ⟨n, hn, _⟩ := GetNeighbour_shift d hd h hv
  have h0 := Offset_self h hv
  have h1 := Offset_step h h n 0 0 d hd h0 hn
  refine ⟨n, hn, ?_⟩
  rcases hd with rfl | rfl | rfl | rfl
  · exact Offset_ne h n h _ _ _ _ hne h1 h0 (by decide) (Or.inr (by decide))
  · exact Offset_ne h n h _ _ _ _ hne h1 h0 (by decide) (Or.inl (by decide))
  · exact Offset_ne h n h _ _ _ _ hne h1 h0 (by decide) (Or.inr (by decide))
  · exact Offset_ne h n h _ _ _ _ hne h1 h0 (by decide) (Or.inl (by decide))

/-- The text of the hash `GetHashFromString` returns for a text of 1 to 12
alphabet characters is the text. -/
theorem GetHashFromString_str (t : List Char) (hv : Valid t)
    (h1 : 1 ≤ t.length) (h12 : t.length ≤ 12) :
    (GetHashFromString t).map (fun h => h.str) = some t := by
  have hlow := ToLower_valid t hv
  have hv2 : Valid (ToLower t) := by rw [hlow]; exact hv
  have hmin : min (5 * t.length) 60 = 5 * t.length := Nat.min_eq_left (by omega)
  rw [GetHashFromString_eq t hv2 (by rw [hlow]; exact h1) (by rw [hlow]; exact h12), hlow,
    Option.map_some']
  congr 1
  apply List.ext_getElem
  · rw [NewHash_str_length, hmin]; omega
  · intro k hk1 hk2
    have hg := groupChar_base32Value t hv h12 k hk2
    simp only [NewHash_str, List.getElem_map, List.getElem_range]
    exact hg

/-! ## The texts GetHashAndNeighbours returns -/

/-- The texts of the list of the specification, for neighbour texts that
`GetHashFromString` reads back. -/
theorem texts_quadrantList (pt m : Point) (c : Hash) (n s e w ne nw se sw : List Char)
    (hn : (GetHashFromString n).map (fun h => h.str) = some n)
    (hs : (GetHashFromString s).map (fun h => h.str) = some s)
    (he : (GetHashFromString e).map (fun h => h.str) = some e)
    (hw : (GetHashFromString w).map (fun h => h.str) = some w)
    (hne : (GetHashFromString ne).map (fun h => h.str) = some ne)
    (hnw : (GetHashFromString nw).map (fun h => h.str) = some nw)
    (hse : (GetHashFromString se).map (fun h => h.str) = some se)
    (hsw : (GetHashFromString sw).map (fun h => h.str) = some sw) :
    texts (quadrantList pt m c n s e w ne nw se sw) =
      (if pt.latitude > m.latitude then
          some n ::
            (if pt.longitude > m.longitude then [some ne]
             else if pt.longitude < m.longitude then [some nw]
             else [])
        else if pt.latitude < m.latitude then
          some s ::
            (if pt.longitude > m.longitude then [some se]
             else if pt.longitude < m.longitude then [some sw]
             else [])
        else []) ++
      (if pt.longitude > m.longitude then [some e]
       else if pt.longitude < m.longitude then [some w]
       else []) ++
      [some c.str] := by
  unfold texts quadrantList
  split_ifs <;>
    simp only [List.cons_append, List.nil_append, List.map_cons, List.map_nil, hn, hs, he, hw,
      hne, hnw, hse, hsw, Option.map_some']

/-- The texts of the hashes `GetHashAndNeighbours` returns are pairwise
distinct and have the length of the text of the centre. -/
theorem GetHashAndNeighbours_texts (pt : Point) (p : Nat) (hp : 5 ≤ min p 60) :
    ∃ l, GetHashAndNeighbours (some pt) p = some l ∧ (texts l).Nodup ∧
      ∀ x, x ∈ texts l → ∃ t, x = some t ∧ t.length = min p 60 / 5 := by
  obtain ⟨c, m, n, s, e, w, ne, nw, se, sw, h1, _, h3, h4, h5, h6, h7, h8, h9, h10,
    l1, l2, l3, l4, l5, l6, l7, l8, l0, h11⟩ := GetHashAndNeighbours_eq pt p hp
  have hle : min p 60 ≤ 60 := Nat.min_le_right _ _
  have hceq := GetHash_eq pt p
  rw [h1] at hceq
  have hcv : Valid c.str := by
    rw [Option.some.inj hceq]; exact NewHash_str_valid _ _
  have hlen1 : 1 ≤ c.str.length := by rw [l0]; omega
  have hlen12 : c.str.length ≤ 12 := by rw [l0]; omega
  have hcne : c.str ≠ [] := by
    intro h0
    rw [h0] at hlen1
    simp at hlen1
  have hN : North = North ∨ North = East ∨ North = South ∨ North = West := by decide
  have hS : South = North ∨ South = East ∨ South = South ∨ South = West := by decide
  have hE : East = North ∨ East = East ∨ East = South ∨ East = West := by decide
  have hW : West = North ∨ West = East ∨ West = South ∨ West = West := by decide
  have kc : Offset c.str c.str 0 0 := Offset_self c.str hcv
  have kn : Offset c.str n 0 1 := Offset_step _ _ _ 0 0 North hN kc h3
  have ks : Offset c.str s 0 (-1) := Offset_step _ _ _ 0 0 South hS kc h4
  have ke : Offset c.str e 1 0 := Offset_step _ _ _ 0 0 East hE kc h5
  have kw : Offset c.str w (-1) 0 := Offset_step _ _ _ 0 0 West hW kc h6
  have kne : Offset c.str ne 1 1 := Offset_step _ _ _ 0 1 East hE kn h7
  have knw : Offset c.str nw (-1) 1 := Offset_step _ _ _ 0 1 West hW kn h8
  have kse : Offset c.str se 1 (-1) := Offset_step _ _ _ 0 (-1) East hE ks h9
  have ksw : Offset c.str sw (-1) (-1) := Offset_step _ _ _ 0 (-1) West hW ks h10
  have rd : ∀ t : List Char, ∀ a b : Int, Offset c.str t a b →
      (GetHashFromString t).map (fun h => h.str) = some t := by
    intro t a b ht
    exact GetHashFromString_str t ht.1 (by rw [ht.2.1]; exact hlen1)
      (by rw [ht.2.1]; exact hlen12)
  have ht := texts_quadrantList pt m c n s e w ne nw se sw (rd _ _ _ kn) (rd _ _ _ ks)
    (rd _ _ _ ke) (rd _ _ _ kw) (rd _ _ _ kne) (rd _ _ _ knw) (rd _ _ _ kse) (rd _ _ _ ksw)
  have d1 : n ≠ ne := Offset_ne _ _ _ _ _ _ _ hcne kn kne (by decide) (Or.inl (by decide))
  have d2 : n ≠ e := Offset_ne _ _ _ _ _ _ _ hcne kn ke (by decide) (Or.inl (by decide))
  have d3 : n ≠ c.str := Offset_ne _ _ _ _ _ _ _ hcne kn kc (by decide) (Or.inr (by decide))
  have d4 : ne ≠ e := Offset_ne _ _ _ _ _ _ _ hcne kne ke (by decide) (Or.inr (by decide))
  have d5 : ne ≠ c.str := Offset_ne _ _ _ _ _ _ _ hcne kne kc (by decide) (Or.inl (by decide))
  have d6 : e ≠ c.str := Offset_ne _ _ _ _ _ _ _ hcne ke kc (by decide) (Or.inl (by decide))
  have d7 : n ≠ nw := Offset_ne _ _ _ _ _ _ _ hcne kn knw (by decide) (Or.inl (by decide))
  have d8 : n ≠ w := Offset_ne _ _ _ _ _ _ _ hcne kn kw (by decide) (Or.inl (by decide))
  have d9 : nw ≠ w := Offset_ne _ _ _ _ _ _ _ hcne knw kw (by decide) (Or.inr (by decide))
  have d10 : nw ≠ c.str := Offset_ne _ _ _ _ _ _ _ hcne knw kc (by decide) (Or.inl (by decide))
  have d11 : w ≠ c.str := Offset_ne _ _ _ _ _ _ _ hcne kw kc (by decide) (Or.inl (by decide))
  have d12 : s ≠ se := Offset_ne _ _ _ _ _ _ _ hcne ks kse (by decide) (Or.inl (by decide))
  have d13 : s ≠ e := Offset_ne _ _ _ _ _ _ _ hcne ks ke (by decide) (Or.inl (by decide))
  have d14 : s ≠ c.str := Offset_ne _ _ _ _ _ _ _ hcne ks kc (by decide) (Or.inr (by decide))
  have d15 : se ≠ e := Offset_ne _ _ _ _ _ _ _ hcne kse ke (by decide) (Or.inr (by decide))
  have d16 : se ≠ c.str := Offset_ne _ _ _ _ _ _ _ hcne kse kc (by decide) (Or.inl (by decide))
  have d17 : s ≠ sw := Offset_ne _ _ _ _ _ _ _ hcne ks ksw (by decide) (Or.inl (by decide))
  have d18 : s ≠ w := Offset_ne _ _ _ _ _ _ _ hcne ks kw (by decide) (Or.inl (by decide))
  have d19 : sw ≠ w := Offset_ne _ _ _ _ _ _ _ hcne ksw kw (by decide) (Or.inr (by decide))
  have d20 : sw ≠ c.str := Offset_ne _ _ _ _ _ _ _ hcne ksw kc (by decide) (Or.inl (by decide))
  refine ⟨_, h11, ?_, ?_⟩
  · rw [ht]
    split_ifs <;>
      simp [d1, d2, d3, d4, d5, d6, d7, d8, d9, d10, d11, d12, d13, d14, d15, d16, d17, d18,
        d19, d20]
  · rw [ht, ← l0]
    split_ifs <;> simp [l1, l2, l3, l4, l5, l6, l7, l8]

/-! ## The number of loop tests of GetNeededPrecision -/

theorem roundEven_nonneg (x : ℚ) (hx : 0 ≤ x) : 0 ≤ roundEven x := by
  have hf : 0 ≤ ⌊x⌋ := Int.floor_nonneg.mpr hx
  unfold roundEven
  simp only
  split_ifs <;> omega

theorem roundEven_le_add_half (x : ℚ) : (roundEven x : ℚ) ≤ x + 1 / 2 := by
  have hf : (⌊x⌋ : ℚ) ≤ x := Int.floor_le x
  unfold roundEven
  simp only
  split_ifs with h1 h2 h3
  · linarith
  · push_cast; linarith
  · linarith
  · push_cast; linarith

theorem roundEven_le_int (x : ℚ) (N : Int) (h : x ≤ N) : roundEven x ≤ N := by
  have hf : (⌊x⌋ : ℚ) ≤ x := Int.floor_le x
  have hfN : ⌊x⌋ ≤ N := by exact_mod_cast le_trans hf h
  have hstep : ¬ x - ⌊x⌋ < 1 / 2 → ⌊x⌋ + 1 ≤ N := by
    intro hn
    have : (⌊x⌋ : ℚ) < N := by linarith [not_lt.mp hn]
    have : ⌊x⌋ < N := by exact_mod_cast this
    omega
  unfold roundEven
  simp only
  split_ifs with h1 h2 h3
  · exact hfN
  · exact hstep h1
  · exact hfN
  · exact hstep h1

/-- Half of a positive whole number rounds to less than the number. -/
theorem roundEven_half_nat (m : Nat) (hm : 1 ≤ m) :
    roundEven ((m : ℚ) / 2) ≤ (m : Int) - 1 := by
  rcases Nat.lt_or_ge m 3 with h3 | h3
  · interval_cases m
    · decide!
    · decide!
  · have h := roundEven_le_add_half ((m : ℚ) / 2)
    have hm3 : (3 : ℚ) ≤ m := by exact_mod_cast h3
    have : (roundEven ((m : ℚ) / 2) : ℚ) ≤ ((m : Int) - 1 : Int) := by
      push_cast; linarith
    exact_mod_cast this

/-- The least normal number is `2^52` steps of `2^-1074`. -/
theorem normal_steps : (1 : ℚ) / 2 ^ 1022 * 2 ^ 1074 = 2 ^ 52 := by
  have h : (2 : ℚ) ^ 1074 = 2 ^ 52 * 2 ^ 1022 := by rw [← pow_add]
  rw [h]
  field_simp

/-- Halving below the normal numbers: the result is a multiple of `2^-1074`
at most half a step above the exact quotient. -/
theorem half64_subnormal (d : ℚ) (h0 : 0 ≤ d) (hlt : d / 2 < 1 / 2 ^ 1022) :
    half64 d = (roundEven (d / 2 * 2 ^ 1074) : ℚ) / 2 ^ 1074 ∧
    (∃ m : Nat, half64 d = (m : ℚ) / 2 ^ 1074) ∧
    half64 d ≤ d / 2 + 1 / 2 / 2 ^ 1074 ∧
    half64 d ≤ 1 / 2 ^ 1022 := by
  have hh : half64 d = (roundEven (d / 2 * 2 ^ 1074) : ℚ) / 2 ^ 1074 := by
    unfold half64
    rw [abs_of_nonneg (by positivity), if_neg (not_le.mpr hlt)]
  have hy0 : (0 : ℚ) ≤ d / 2 * 2 ^ 1074 := by positivity
  have hR0 := roundEven_nonneg _ hy0
  have hR1 := roundEven_le_add_half (d / 2 * 2 ^ 1074)
  have hcast : (((2 : Int) ^ 52 : Int) : ℚ) = (2 : ℚ) ^ 52 := by norm_cast
  have hy52 : d / 2 * 2 ^ 1074 ≤ (((2 : Int) ^ 52 : Int) : ℚ) := by
    have h1 : d / 2 * 2 ^ 1074 ≤ 1 / 2 ^ 1022 * 2 ^ 1074 :=
      mul_le_mul_of_nonneg_right hlt.le (by positivity)
    rw [normal_steps] at h1
    rw [hcast]
    exact h1
  have hR2 := roundEven_le_int _ _ hy52
  refine ⟨hh, ⟨(roundEven (d / 2 * 2 ^ 1074)).toNat, ?_⟩, ?_, ?_⟩
  · rw [hh]
    congr 1
    generalize roundEven (d / 2 * 2 ^ 1074) = R at hR0
    have : (R.toNat : Int) = R := Int.toNat_of_nonneg hR0
    exact_mod_cast this.symm
  · rw [hh, div_le_iff₀ (by positivity)]
    have : (d / 2 + 1 / 2 / 2 ^ 1074) * 2 ^ 1074 = d / 2 * 2 ^ 1074 + 1 / 2 := by
      field_simp
      ring
    rw [this]
    exact hR1
  · rw [hh, div_le_iff₀ (by positivity), normal_steps, ← hcast]
    exact Int.cast_le.mpr hR2

/-- One halving keeps the value either exact or a multiple of `2^-1074` less
than one step above the exact value. -/
theorem half64_inv_step (d e : ℚ) (he : 0 < e)
    (h : d = e ∨ ((∃ m : Nat, d = (m : ℚ) / 2 ^ 1074) ∧ d < e + 1 / 2 ^ 1074 ∧
      d ≤ 1 / 2 ^ 1022)) :
    half64 d = e / 2 ∨ ((∃ m : Nat, half64 d = (m : ℚ) / 2 ^ 1074) ∧
      half64 d < e / 2 + 1 / 2 ^ 1074 ∧ half64 d ≤ 1 / 2 ^ 1022) := by
  have hu : (0 : ℚ) < 1 / 2 ^ 1074 := by positivity
  have hN : (0 : ℚ) < 1 / 2 ^ 1022 := by positivity
  have huu : (1 : ℚ) / 2 / 2 ^ 1074 = 1 / 2 ^ 1074 / 2 := by ring
  rcases h with rfl | ⟨⟨m, hm⟩, hlt, hle⟩
  · by_cases hn : 1 / 2 ^ 1022 ≤ d / 2
    · exact Or.inl (half64_exact d hn)
    · obtain ⟨_, hm, hb, hc⟩ := half64_subnormal d he.le (not_le.mp hn)
      refine Or.inr ⟨hm, ?_, hc⟩
      rw [huu] at hb
      linarith
  · have h0 : 0 ≤ d := by rw [hm]; positivity
    obtain ⟨_, hm2, hb, hc⟩ := half64_subnormal d h0 (by linarith)
    refine Or.inr ⟨hm2, ?_, hc⟩
    rw [huu] at hb
    linarith

/-- The values of `d` in the loop of `GetNeededPrecision`: after `j` halvings in
the loop the value is the exact one, or a multiple of `2^-1074` less than one
step above it. -/
theorem halving_inv (j : Nat) :
    half64^[j] (half64 EarthRadiusInKM) = EarthRadiusInKM / 2 ^ (j + 1) ∨
    ((∃ m : Nat, half64^[j] (half64 EarthRadiusInKM) = (m : ℚ) / 2 ^ 1074) ∧
      half64^[j] (half64 EarthRadiusInKM) < EarthRadiusInKM / 2 ^ (j + 1) + 1 / 2 ^ 1074 ∧
      half64^[j] (half64 EarthRadiusInKM) ≤ 1 / 2 ^ 1022) := by
  induction j with
  | zero =>
    left
    rw [Function.iterate_zero_apply, half64_earthRadius]
    norm_num
  | succ j ih =>
    have he : (0 : ℚ) < EarthRadiusInKM / 2 ^ (j + 1) := div_pos earthRadius_pos (by positivity)
    have e : EarthRadiusInKM / 2 ^ (j + 1) / 2 = EarthRadiusInKM / 2 ^ (j + 1 + 1) := by
      rw [div_div, ← pow_succ]
    have := half64_inv_step _ _ he ih
    rw [e] at this
    rw [Function.iterate_succ_apply']
    exact this

theorem halving_nonneg (j : Nat) : 0 ≤ half64^[j] (half64 EarthRadiusInKM) := by
  rcases halving_inv j with h | ⟨⟨m, hm⟩, _, _⟩
  · rw [h]; exact (div_pos earthRadius_pos (by positivity)).le
  · rw [hm]; positivity

/-- The halvings stay exact as long as the exact values are normal numbers. -/
theorem halving_exact (j : Nat) (h : 1 / 2 ^ 1022 ≤ EarthRadiusInKM / 2 ^ (j + 1)) :
    half64^[j] (half64 EarthRadiusInKM) = EarthRadiusInKM / 2 ^ (j + 1) := by
  have h1 : (1 : ℚ) / 2 ^ 1022 ≤ EarthRadiusInKM / 2 / 2 ^ j := by
    rw [half_div_pow]; exact h
  rw [half64_earthRadius, half64_iterate_exact _ j h1, half_div_pow]

/-- Once the exact value is below the radius, the loop ends after at most one
more halving. -/
theorem halving_stops (r : ℚ) (hr : 0 < r) (k : Nat)
    (hk : EarthRadiusInKM / 2 ^ (k + 1) < r) :
    ∃ n, n ≤ k + 1 ∧ half64^[n] (half64 EarthRadiusInKM) < r := by
  rcases halving_inv k with h | ⟨⟨m, hm⟩, hlt, hle⟩
  · exact ⟨k, Nat.le_succ k, by rw [h]; exact hk⟩
  · by_cases hs : half64^[k] (half64 EarthRadiusInKM) < r
    · exact ⟨k, Nat.le_succ k, hs⟩
    · refine ⟨k + 1, le_rfl, ?_⟩
      have hge : r ≤ (m : ℚ) / 2 ^ 1074 := by rw [← hm]; exact not_lt.mp hs
      have hm1 : 1 ≤ m := by
        rcases Nat.eq_zero_or_pos m with h0 | h0
        · rw [h0] at hge
          norm_num at hge
          linarith
        · exact h0
      have hN : (0 : ℚ) < 1 / 2 ^ 1022 := by positivity
      have h0 : (0 : ℚ) ≤ (m : ℚ) / 2 ^ 1074 := by positivity
      obtain ⟨hh, _, _, _⟩ := half64_subnormal ((m : ℚ) / 2 ^ 1074) h0
        (by rw [← hm]; linarith)
      have hy : (m : ℚ) / 2 ^ 1074 / 2 * 2 ^ 1074 = (m : ℚ) / 2 := by
        field_simp
        ring
      rw [hy] at hh
      have hR := roundEven_half_nat m hm1
      have hRq : (roundEven ((m : ℚ) / 2) : ℚ) ≤ (m : ℚ) - 1 := by exact_mod_cast hR
      rw [Function.iterate_succ_apply', hm, hh]
      have hstep : (roundEven ((m : ℚ) / 2) : ℚ) / 2 ^ 1074 ≤ ((m : ℚ) - 1) / 2 ^ 1074 :=
        div_le_div_of_nonneg_right hRq (by positivity)
      have hsub : ((m : ℚ) - 1) / 2 ^ 1074 = (m : ℚ) / 2 ^ 1074 - 1 / 2 ^ 1074 := by ring
      rw [hm] at hlt
      linarith

/-- The run of `GetNeededPrecision` for a positive radius whose least halving
count is `k`: the loop ends after `n` halvings, with `n` at most `k + 1`, and
`n = k` when the radius is at least `2^-1021`. -/
theorem GetNeededPrecision_halts (r : ℚ) (hr : 0 < r) (k : Nat)
    (hk : EarthRadiusInKM / 2 ^ (k + 1) < r)
    (hmin : ∀ j, j < k → ¬ EarthRadiusInKM / 2 ^ (j + 1) < r) :
    ∃ n, n ≤ k + 1 ∧ (2 / 2 ^ 1022 ≤ r → n = k) ∧
      (∀ fuel, n < fuel → GetNeededPrecision fuel r = some ((2 * n) % 256)) ∧
      ∀ fuel, fuel ≤ n → GetNeededPrecision fuel r = none := by
  classical
  obtain ⟨n1, hn1, hP1⟩ := halving_stops r hr k hk
  have hex : ∃ n, half64^[n] (half64 EarthRadiusInKM) < r := ⟨n1, hP1⟩
  have hfind := Nat.find_spec hex
  have hbefore : ∀ i, i < Nat.find hex → r ≤ half64^[i] (half64 EarthRadiusInKM) :=
    fun i hi => not_lt.mp (Nat.find_min hex hi)
  refine ⟨Nat.find hex, le_trans (Nat.find_min' hex hP1) hn1, ?_, ?_, ?_⟩
  · intro hbig
    have hnormal : (1 : ℚ) / 2 ^ 1022 ≤ EarthRadiusInKM / 2 ^ (k + 1) := by
      rcases Nat.eq_zero_or_pos k with h0 | h0
      · rw [h0]; exact earthRadius_normal (by norm_num)
      · have h1 : r ≤ EarthRadiusInKM / 2 ^ (k - 1 + 1) := not_lt.mp (hmin (k - 1) (by omega))
        have h2 : k - 1 + 1 = k := by omega
        rw [h2] at h1
        have h3 : EarthRadiusInKM / 2 ^ (k + 1) = EarthRadiusInKM / 2 ^ k / 2 := by
          rw [div_div, ← pow_succ]
        rw [h3]
        have : (2 : ℚ) / 2 ^ 1022 ≤ EarthRadiusInKM / 2 ^ k := le_trans hbig h1
        linarith
    have hexact : ∀ j, j ≤ k →
        half64^[j] (half64 EarthRadiusInKM) = EarthRadiusInKM / 2 ^ (j + 1) := by
      intro j hj
      exact halving_exact j (le_trans hnormal (earthRadius_div_anti (by omega)))
    rw [Nat.find_eq_iff]
    refine ⟨by rw [hexact k le_rfl]; exact hk, ?_⟩
    intro j hj
    rw [hexact j hj.le]
    exact hmin j hj
  · intro fuel hf
    have := GetNeededPrecisionLoop_iterate r (Nat.find hex) fuel (half64 EarthRadiusInKM) 0
      (by norm_num) hbefore hfind hf
    simpa [GetNeededPrecision] using this
  · intro fuel hf
    unfold GetNeededPrecision
    exact GetNeededPrecisionLoop_none r fuel _ 0 (fun i hi => hbefore i (by omega))

/-- Every positive radius is above some halving of the earth radius, so it has
a least halving count. -/
theorem exists_least_halving_pos (r : ℚ) (hr : 0 < r) :
    ∃ k, EarthRadiusInKM / 2 ^ (k + 1) < r ∧
      ∀ j, j < k → ¬ EarthRadiusInKM / 2 ^ (j + 1) < r := by
  classical
  have hE := earthRadius_pos
  obtain ⟨n, hn⟩ := exists_pow_lt_of_lt_one (div_pos hr hE) (by norm_num : (1 / 2 : ℚ) < 1)
  have h1 : EarthRadiusInKM / 2 ^ n < r := by
    rw [lt_div_iff₀ hE] at hn
    have : EarthRadiusInKM / 2 ^ n = (1 / 2) ^ n * EarthRadiusInKM := by
      rw [one_div, inv_pow]; field_simp
    rw [this]; exact hn
  have hex : ∃ k, EarthRadiusInKM / 2 ^ (k + 1) < r :=
    ⟨n, lt_trans (earthRadius_div_lt (Nat.lt_succ_self n)) h1⟩
  exact ⟨Nat.find hex, Nat.find_spec hex, fun j hj => Nat.find_min hex hj⟩

/-! ## Claim C1 -/

/-- C1: for every point built by `NewPoint` and every precision `p` with
`min p 60 ≥ 5`, the text `t` of `GetHash point p` decodes with `ReverseHash` to a
point, and the hash of that point at the same precision has the text `t` again. -/
theorem GetHash_ReverseHash_roundtrip (lat lng : ℚ) (p : Nat) (hp : 5 ≤ min p 60) :
    ∃ h m h2, GetHash (some (NewPoint lat lng)) p = some h ∧
      ReverseHash h.str = some m ∧
      GetHash (some m) p = some h2 ∧ h2.str = h.str :=
  roundtrip (NewPoint lat lng) p hp

/-- Instance of C1 at the point (45.12345678, 35.87654321) and precision 60. -/
theorem GetHash_ReverseHash_roundtrip_witness :
    5 ≤ min 60 60 ∧
    ∃ h m h2, GetHash (some (NewPoint (4512345678 / 100000000) (3587654321 / 100000000))) 60
        = some h ∧
      ReverseHash h.str = some m ∧
      GetHash (some m) 60 = some h2 ∧ h2.str = h.str :=
  ⟨by decide, GetHash_ReverseHash_roundtrip _ _ 60 (by decide)⟩

/-! ## Claim C2 -/

/-- C2: for every point with latitude in [-90, 90] and longitude in [-180, 180]
and every precision `p`, `GetHash` returns a hash of `min p 60` bits, and
replaying these bits from the full domain gives the rectangle the loop ended
with, which contains the point: each coordinate lies between the bounds, and
strictly above the lower bound unless that bound is the domain minimum. -/
theorem GetHash_cell_contains (pt : Point) (p : Nat)
    (hlat : -90 ≤ pt.latitude ∧ pt.latitude ≤ 90)
    (hlng : -180 ≤ pt.longitude ∧ pt.longitude ≤ 180) :
    ∃ h, GetHash (some pt) p = some h ∧ h.size = min p 60 ∧
      cellOfHash h = (GetHashLoop pt (min p 60) 0 true fullCell).2.2 ∧
      (cellOfHash h).minLng ≤ pt.longitude ∧ pt.longitude ≤ (cellOfHash h).maxLng ∧
      (cellOfHash h).minLat ≤ pt.latitude ∧ pt.latitude ≤ (cellOfHash h).maxLat ∧
      ((cellOfHash h).minLng < pt.longitude ∨ (cellOfHash h).minLng = -180) ∧
      ((cellOfHash h).minLat < pt.latitude ∨ (cellOfHash h).minLat = -90) := by
  refine ⟨_, GetHash_eq pt p, ?_⟩
  obtain ⟨hsize, hbits⟩ := hashBits_GetHash pt p _ (GetHash_eq pt p)
  have hfull : Inside pt fullCell := by
    refine ⟨Or.inr ?_, ?_, Or.inr ?_, ?_⟩
    · simp [fullCell, HalfLongitude]
    · simpa [fullCell, HalfLongitude] using hlng.2
    · simp [fullCell, SouthPoleLat]
    · simpa [fullCell, NorthPoleLat] using hlat.2
  have hin := Inside_replay pt (min p 60) true fullCell hfull
  have hcell : cellOfHash (NewHash
      (toNum (encodeBits pt (min p 60) true fullCell) * 2 ^ (64 - min p 60)) (min p 60)) =
      replay (encodeBits pt (min p 60) true fullCell) true fullCell := by
    rw [cellOfHash, hbits]
  rw [hcell]
  obtain ⟨h1, h2, h3, h4⟩ := hin
  refine ⟨hsize, (GetHashLoop_cell pt _ 0 true fullCell).symm, ?_, h2, ?_, h4, h1, h3⟩
  · rcases h1 with h | h
    · exact le_of_lt h
    · rw [h]; exact hlng.1
  · rcases h3 with h | h
    · exact le_of_lt h
    · rw [h]; exact hlat.1

/-- Instance of C2 at the point (0, 23) and precision 5. -/
theorem GetHash_cell_contains_witness :
    ((-90 : ℚ) ≤ (Point.mk 0 23).latitude ∧ (Point.mk 0 23).latitude ≤ 90) ∧
    ((-180 : ℚ) ≤ (Point.mk 0 23).longitude ∧ (Point.mk 0 23).longitude ≤ 180) ∧
    ∃ h, GetHash (some (Point.mk 0 23)) 5 = some h ∧ h.size = min 5 60 ∧
      cellOfHash h = (GetHashLoop (Point.mk 0 23) (min 5 60) 0 true fullCell).2.2 ∧
      (cellOfHash h).minLng ≤ (Point.mk 0 23).longitude ∧
      (Point.mk 0 23).longitude ≤ (cellOfHash h).maxLng ∧
      (cellOfHash h).minLat ≤ (Point.mk 0 23).latitude ∧
      (Point.mk 0 23).latitude ≤ (cellOfHash h).maxLat ∧
      ((cellOfHash h).minLng < (Point.mk 0 23).longitude ∨ (cellOfHash h).minLng = -180) ∧
      ((cellOfHash h).minLat < (Point.mk 0 23).latitude ∨ (cellOfHash h).minLat = -90) :=
  ⟨by norm_num, by norm_num,
    GetHash_cell_contains (Point.mk 0 23) 5 (by norm_num) (by norm_num)⟩

/-! ## Claims C3 and C4 -/

/-- C3: for every non-empty hash `h` of alphabet characters, with longitude
index `x` (its bits at even positions) and latitude index `y` (its bits at odd
positions), `GetNeighbour` returns a hash of alphabet characters of the same
length that encodes `(x, y+1)` for North, `(x, y-1)` for South, `(x+1, y)` for
East and `(x-1, y)` for West, each modulo the number of cells on that axis:
`2^ceil(5*len/2)` for the longitude and `2^floor(5*len/2)` for the latitude. -/
theorem GetNeighbour_adjacent (h : List Char) (_hne : h ≠ []) (hv : Valid h) :
    (∃ n, GetNeighbour h North = some n ∧ Valid n ∧ n.length = h.length ∧
      lngIndex n = lngIndex h ∧
      (latIndex n : Int) = ((latIndex h : Int) + 1) % 2 ^ (5 * h.length / 2)) ∧
    (∃ n, GetNeighbour h South = some n ∧ Valid n ∧ n.length = h.length ∧
      lngIndex n = lngIndex h ∧
      (latIndex n : Int) = ((latIndex h : Int) - 1) % 2 ^ (5 * h.length / 2)) ∧
    (∃ n, GetNeighbour h East = some n ∧ Valid n ∧ n.length = h.length ∧
      latIndex n = latIndex h ∧
      (lngIndex n : Int) = ((lngIndex h : Int) + 1) % 2 ^ ((5 * h.length + 1) / 2)) ∧
    (∃ n, GetNeighbour h West = some n ∧ Valid n ∧ n.length = h.length ∧
      latIndex n = latIndex h ∧
      (lngIndex n : Int) = ((lngIndex h : Int) - 1) % 2 ^ ((5 * h.length + 1) / 2)) := by
  refine ⟨?_, ?_, ?_, ?_⟩
  · obtain ⟨n, h1, h2, h3, h4, h5⟩ := GetNeighbour_north h hv
    refine ⟨n, h1, h2, h3, h4, ?_⟩
    have := succ_mod_cast _ _ _ h5
    simpa [latBits] using this
  · obtain ⟨n, h1, h2, h3, h4, h5⟩ := GetNeighbour_south h hv
    refine ⟨n, h1, h2, h3, h4, ?_⟩
    simpa [latBits] using h5
  · obtain ⟨n, h1, h2, h3, h4, h5⟩ := GetNeighbour_east h hv
    refine ⟨n, h1, h2, h3, h4, ?_⟩
    have := succ_mod_cast _ _ _ h5
    simpa [lngBits] using this
  · obtain ⟨n, h1, h2, h3, h4, h5⟩ := GetNeighbour_west h hv
    refine ⟨n, h1, h2, h3, h4, ?_⟩
    simpa [lngBits] using h5

/-- Instance of C3 at the hash "ub188qkx0". -/
theorem GetNeighbour_adjacent_witness :
    "ub188qkx0".toList ≠ [] ∧ Valid "ub188qkx0".toList ∧
    (∃ n, GetNeighbour "ub188qkx0".toList North = some n ∧ Valid n ∧
      n.length = "ub188qkx0".toList.length ∧ lngIndex n = lngIndex "ub188qkx0".toList ∧
      (latIndex n : Int) =
        ((latIndex "ub188qkx0".toList : Int) + 1) % 2 ^ (5 * "ub188qkx0".toList.length / 2)) ∧
    (∃ n, GetNeighbour "ub188qkx0".toList South = some n ∧ Valid n ∧
      n.length = "ub188qkx0".toList.length ∧ lngIndex n = lngIndex "ub188qkx0".toList ∧
      (latIndex n : Int) =
        ((latIndex "ub188qkx0".toList : Int) - 1) % 2 ^ (5 * "ub188qkx0".toList.length / 2)) ∧
    (∃ n, GetNeighbour "ub188qkx0".toList East = some n ∧ Valid n ∧
      n.length = "ub188qkx0".toList.length ∧ latIndex n = latIndex "ub188qkx0".toList ∧
      (lngIndex n : Int) =
        ((lngIndex "ub188qkx0".toList : Int) + 1) % 2 ^ ((5 * "ub188qkx0".toList.length + 1) / 2)) ∧
    (∃ n, GetNeighbour "ub188qkx0".toList West = some n ∧ Valid n ∧
      n.length = "ub188qkx0".toList.length ∧ latIndex n = latIndex "ub188qkx0".toList ∧
      (lngIndex n : Int) =
        ((lngIndex "ub188qkx0".toList : Int) - 1) % 2 ^ ((5 * "ub188qkx0".toList.length + 1) / 2)) :=
  ⟨by decide, by decide, GetNeighbour_adjacent "ub188qkx0".toList (by decide) (by decide)⟩

/-- C4: for every non-empty lower-case hash `h` of alphabet characters, stepping
North and then South returns `h`, and likewise South then North, East then
West, and West then East. -/
theorem GetNeighbour_symmetry (h : List Char) (_hne : h ≠ []) (hv : Valid h) :
    (∃ n, GetNeighbour h North = some n ∧ GetNeighbour n South = some h) ∧
    (∃ n, GetNeighbour h South = some n ∧ GetNeighbour n North = some h) ∧
    (∃ n, GetNeighbour h East = some n ∧ GetNeighbour n West = some h) ∧
    (∃ n, GetNeighbour h West = some n ∧ GetNeighbour n East = some h) := by
  refine ⟨?_, ?_, ?_, ?_⟩
  · obtain ⟨n, h1, _, _, h2⟩ := GetNeighbour_opposite North (by decide) h hv
    exact ⟨n, h1, h2⟩
  · obtain ⟨n, h1, _, _, h2⟩ := GetNeighbour_opposite South (by decide) h hv
    exact ⟨n, h1, h2⟩
  · obtain ⟨n, h1, _, _, h2⟩ := GetNeighbour_opposite East (by decide) h hv
    exact ⟨n, h1, h2⟩
  · obtain ⟨n, h1, _, _, h2⟩ := GetNeighbour_opposite West (by decide) h hv
    exact ⟨n, h1, h2⟩

/-- Instance of C4 at the hash "ub188qkx0". -/
theorem GetNeighbour_symmetry_witness :
    "ub188qkx0".toList ≠ [] ∧ Valid "ub188qkx0".toList ∧
    (∃ n, GetNeighbour "ub188qkx0".toList North = some n ∧
      GetNeighbour n South = some "ub188qkx0".toList) ∧
    (∃ n, GetNeighbour "ub188qkx0".toList South = some n ∧
      GetNeighbour n North = some "ub188qkx0".toList) ∧
    (∃ n, GetNeighbour "ub188qkx0".toList East = some n ∧
      GetNeighbour n West = some "ub188qkx0".toList) ∧
    (∃ n, GetNeighbour "ub188qkx0".toList West = some n ∧
      GetNeighbour n East = some "ub188qkx0".toList) :=
  ⟨by decide, by decide, GetNeighbour_symmetry "ub188qkx0".toList (by decide) (by decide)⟩

/-! ## Claim C5 -/

/-- C5, failing input: the Kelvin sign U+212A, the three bytes E2 84 AA.
Lower-casing turns it into the one byte "k", an alphabet character, and
`ReverseHash "k"` is the point (-22.5, 22.5); but `ReverseHash` takes the length
3 before it lower-cases, its loop goes on after the first character and reads
`hash[1]` of a text of one byte, and the call fails where the claim has a point.
In general `ReverseHash` gives no point exactly when the string is empty, or
one of the first `len(hash)` bytes of the lower-cased text is outside the
alphabet, or the lower-cased text is shorter than the string; for a string of
ASCII bytes that is the claim: empty, or a character outside the alphabet after
lower-casing. -/
theorem ReverseHash_length_before_lowering :
    EncodeRune 0x212A = [Char.ofNat 0xE2, Char.ofNat 0x84, Char.ofNat 0xAA] ∧
    ToLower [Char.ofNat 0xE2, Char.ofNat 0x84, Char.ofNat 0xAA] = ['k'] ∧
    Valid (ToLower [Char.ofNat 0xE2, Char.ofNat 0x84, Char.ofNat 0xAA]) ∧
    ReverseHash ['k'] = some { latitude := -45 / 2, longitude := 45 / 2 } ∧
    (ReverseHashLoop 1 (ToLower [Char.ofNat 0xE2, Char.ofNat 0x84, Char.ofNat 0xAA])
      true fullCell).isSome = true ∧
    ReverseHashLoop 2 (ToLower [Char.ofNat 0xE2, Char.ofNat 0x84, Char.ofNat 0xAA])
      true fullCell = none ∧
    ReverseHash [Char.ofNat 0xE2, Char.ofNat 0x84, Char.ofNat 0xAA] = none ∧
    (∀ hash : List Char, ReverseHash hash = none ↔
      hash = [] ∨ (∃ ch, ch ∈ (ToLower hash).take hash.length ∧ ch ∉ base32) ∨
        (ToLower hash).length < hash.length) ∧
    (∀ hash : List Char, (∀ c, c ∈ hash → c.toNat < 0x80) →
      (ReverseHash hash = none ↔
        hash = [] ∨
          ∃ ch, ch ∈ ToLower hash ∧ ch ∉ "0123456789bcdefghjkmnpqrstuvwxyz".toList)) ∧
    ReverseHash "".toList = none ∧ ReverseHash "a".toList = none := by
  have hgen : ∀ hash : List Char, ReverseHash hash = none ↔
      hash = [] ∨ (∃ ch, ch ∈ (ToLower hash).take hash.length ∧ ch ∉ base32) ∨
        (ToLower hash).length < hash.length := by
    intro hash
    by_cases h0 : hash = []
    · subst h0
      simp [ReverseHash]
    · have hlen : hash.length ≠ 0 := fun h => h0 (List.length_eq_zero.mp h)
      rw [← ReverseHashLoop_eq_none_iff hash.length (ToLower hash) true fullCell]
      simp only [ReverseHash, hlen, if_false, h0, false_or]
      cases ReverseHashLoop hash.length (ToLower hash) true fullCell with
      | none => simp
      | some st => simp
  refine ⟨by decide!, by decide!, by decide!, by decide!, by decide!, by decide!, by decide!,
    hgen, ?_, by decide, by decide⟩
  intro hash hascii
  have hall : hash.all (fun c => decide (c.toNat < 0x80)) = true := by
    rw [List.all_eq_true]
    intro c hc
    exact decide_eq_true (hascii c hc)
  have hlow : ToLower hash = hash.map Char.toLower := by
    unfold ToLower
    rw [if_pos hall]
  have hlen : (ToLower hash).length = hash.length := by rw [hlow, List.length_map]
  have hbase : "0123456789bcdefghjkmnpqrstuvwxyz".toList = base32 := rfl
  rw [hgen hash, hbase]
  have htake : (ToLower hash).take hash.length = ToLower hash := by
    rw [← hlen, List.take_length]
  rw [htake, hlen]
  simp

/-! ## Claims C6 and C7 -/

/-- C6: for every point and precision `p` with `min p 60 ≥ 5`, with `c` the hash
of the point, `m` the point decoded from its text and `n`, `s`, `e`, `w`, `ne`,
`nw`, `se`, `sw` the neighbouring texts, `GetHashAndNeighbours` returns exactly
the list of the specification: the vertical neighbour on the side of the point,
then the diagonal one, then the horizontal one, then `c` last, with no
neighbour for an axis on which the point equals `m`; the list has between 1 and
4 entries, all of them hashes, and ends with the centre hash. -/
theorem GetHashAndNeighbours_quadrant (pt : Point) (p : Nat) (hp : 5 ≤ min p 60) :
    ∃ (c : Hash) (m : Point) (n s e w ne nw se sw : List Char),
      GetHash (some pt) p = some c ∧ ReverseHash c.str = some m ∧
      GetNeighbour c.str North = some n ∧ GetNeighbour c.str South = some s ∧
      GetNeighbour c.str East = some e ∧ GetNeighbour c.str West = some w ∧
      GetNeighbour n East = some ne ∧ GetNeighbour n West = some nw ∧
      GetNeighbour s East = some se ∧ GetNeighbour s West = some sw ∧
      GetHashAndNeighbours (some pt) p =
        some (quadrantList pt m c n s e w ne nw se sw) ∧
      1 ≤ (quadrantList pt m c n s e w ne nw se sw).length ∧
      (quadrantList pt m c n s e w ne nw se sw).length ≤ 4 ∧
      (quadrantList pt m c n s e w ne nw se sw).getLast? = some (some c) ∧
      ∀ x, x ∈ quadrantList pt m c n s e w ne nw se sw → x.isSome = true := by
  obtain ⟨c, m, n, s, e, w, ne, nw, se, sw, h1, h2, h3, h4, h5, h6, h7, h8, h9, h10,
    l1, l2, l3, l4, l5, l6, l7, l8, l0, h11⟩ := GetHashAndNeighbours_eq pt p hp
  have hpos : 0 < c.str.length := by rw [l0]; omega
  have hne : ∀ t : List Char, t.length = c.str.length → t ≠ [] := by
    intro t ht h0
    rw [h0] at ht
    simp at ht
    omega
  refine ⟨c, m, n, s, e, w, ne, nw, se, sw, h1, h2, h3, h4, h5, h6, h7, h8, h9, h10, h11,
    (quadrantList_length _ _ _ _ _ _ _ _ _ _ _).1,
    (quadrantList_length _ _ _ _ _ _ _ _ _ _ _).2, ?_,
    quadrantList_isSome _ _ _ _ _ _ _ _ _ _ _ (hne _ l1) (hne _ l2) (hne _ l3) (hne _ l4)
      (hne _ l5) (hne _ l6) (hne _ l7) (hne _ l8)⟩
  unfold quadrantList
  rw [List.getLast?_append]
  rfl

/-- Instance of C6 at the point (45.12354, 35.8766) and precision 40. -/
theorem GetHashAndNeighbours_quadrant_witness :
    5 ≤ min 40 60 ∧
    ∃ (c : Hash) (m : Point) (n s e w ne nw se sw : List Char),
      GetHash (some (NewPoint (4512354 / 100000) (358766 / 10000))) 40 = some c ∧
      ReverseHash c.str = some m ∧
      GetNeighbour c.str North = some n ∧ GetNeighbour c.str South = some s ∧
      GetNeighbour c.str East = some e ∧ GetNeighbour c.str West = some w ∧
      GetNeighbour n East = some ne ∧ GetNeighbour n West = some nw ∧
      GetNeighbour s East = some se ∧ GetNeighbour s West = some sw ∧
      GetHashAndNeighbours (some (NewPoint (4512354 / 100000) (358766 / 10000))) 40 =
        some (quadrantList (NewPoint (4512354 / 100000) (358766 / 10000)) m c
          n s e w ne nw se sw) ∧
      1 ≤ (quadrantList (NewPoint (4512354 / 100000) (358766 / 10000)) m c
          n s e w ne nw se sw).length ∧
      (quadrantList (NewPoint (4512354 / 100000) (358766 / 10000)) m c
          n s e w ne nw se sw).length ≤ 4 ∧
      (quadrantList (NewPoint (4512354 / 100000) (358766 / 10000)) m c
          n s e w ne nw se sw).getLast? = some (some c) ∧
      ∀ x, x ∈ quadrantList (NewPoint (4512354 / 100000) (358766 / 10000)) m c
          n s e w ne nw se sw → x.isSome = true :=
  ⟨by decide, GetHashAndNeighbours_quadrant _ 40 (by decide)⟩

/-- The result of `GetHashAndNeighbours` never has more than four entries. -/
theorem GetHashAndNeighbours_length_le (point : Option Point) (p : Nat)
    (l : List (Option Hash)) (h : GetHashAndNeighbours point p = some l) : l.length ≤ 4 := by
  cases point with
  | none =>
    simp only [GetHashAndNeighbours, Option.some.injEq] at h
    rw [← h]; simp
  | some pt =>
    by_cases hp : 5 ≤ min p 60
    · obtain ⟨c, m, n, s, e, w, ne, nw, se, sw, _, _, _, _, _, _, _, _, _, _,
        _, _, _, _, _, _, _, _, _, h11⟩ := GetHashAndNeighbours_eq pt p hp
      rw [h11] at h
      rw [← Option.some.inj h]
      exact (quadrantList_length _ _ _ _ _ _ _ _ _ _ _).2
    · have hle : min p 60 ≤ 60 := Nat.min_le_right _ _
      have hmm : min (min p 60) 60 = min p 60 := Nat.min_eq_left hle
      have hc2 := GetHash_eq pt (min p 60)
      rw [hmm] at hc2
      have hlen := NewHash_str_length
        (toNum (encodeBits pt (min p 60) true fullCell) * 2 ^ (64 - min p 60)) (min p 60)
      rw [hmm] at hlen
      have h0 : min p 60 / 5 = 0 := by omega
      rw [h0] at hlen
      simp only [GetHashAndNeighbours, MaxHashBits, hc2, hlen, if_true,
        Option.some.injEq] at h
      rw [← h]; simp

/-- C7: at the point (45.12354, 35.8766) and precision 40 `GetHashAndNeighbours`
returns four hashes, the cells "ub188qs8" (north), "ub188qs2" (north-west),
"ub188qkr" (west) and the centre "ub188qkx", not the nine hashes of the centre
cell and its eight neighbours; for no input does it return more than four. -/
theorem GetHashAndNeighbours_four :
    (GetHashAndNeighbours (some (NewPoint (4512354 / 100000) (358766 / 10000))) 40).map
        (List.map (Option.map Hash.str)) =
      some [some "ub188qs8".toList, some "ub188qs2".toList, some "ub188qkr".toList,
        some "ub188qkx".toList] ∧
    ∀ (point : Option Point) (p : Nat) (l : List (Option Hash)),
      GetHashAndNeighbours point p = some l → l.length ≠ 9 := by
  refine ⟨by decide!, ?_⟩
  intro point p l h
  have := GetHashAndNeighbours_length_le point p l h
  omega

/-! ## Claims C8, C9, C10 -/

/-- C8: every radius `r` above `EarthRadiusInKM / 2^128` has a least `k` with
`EarthRadiusInKM / 2^(k+1) < r`, and `GetNeededPrecision r` returns `2 * k` (the
loop ends after `k` halvings, so any budget above `k` suffices); in particular
the radius `EarthRadiusInKM / 2^j` gives `2 * j` for every `j` from 0 to 32. -/
theorem GetNeededPrecision_least (r : ℚ) (hr : EarthRadiusInKM / 2 ^ 128 < r) :
    ∃ k, EarthRadiusInKM / 2 ^ (k + 1) < r ∧
      (∀ j, j < k → ¬ EarthRadiusInKM / 2 ^ (j + 1) < r) ∧
      (∀ fuel, k < fuel → GetNeededPrecision fuel r = some (2 * k)) ∧
      ∀ j f, j ≤ 32 → j < f →
        GetNeededPrecision f (EarthRadiusInKM / 2 ^ j) = some (2 * j) := by
  obtain ⟨k, hk, hmin⟩ := exists_least_halving r hr
  refine ⟨k, hk, hmin, ?_, ?_⟩
  · intro fuel hf
    have hk128 := least_halving_lt r k hr hmin
    rw [GetNeededPrecision_mod r k fuel hk (fun j hj => not_lt.mp (hmin j hj)) hf (by omega)]
    congr 1
    omega
  · intro j f hj hf
    rw [GetNeededPrecision_mod _ j f (earthRadius_div_lt (Nat.lt_succ_self j))
      (fun i hi => earthRadius_div_anti (by omega)) hf (by omega)]
    congr 1
    omega

/-- Instance of C8 at the radius of 1 km. -/
theorem GetNeededPrecision_least_witness :
    EarthRadiusInKM / 2 ^ 128 < 1 ∧
    ∃ k, EarthRadiusInKM / 2 ^ (k + 1) < 1 ∧
      (∀ j, j < k → ¬ EarthRadiusInKM / 2 ^ (j + 1) < 1) ∧
      (∀ fuel, k < fuel → GetNeededPrecision fuel 1 = some (2 * k)) ∧
      ∀ j f, j ≤ 32 → j < f →
        GetNeededPrecision f (EarthRadiusInKM / 2 ^ j) = some (2 * j) :=
  ⟨by unfold EarthRadiusInKM; norm_num,
    GetNeededPrecision_least 1 (by unfold EarthRadiusInKM; norm_num)⟩

/-- C9: the 8-bit counter of `GetNeededPrecision` wraps around: the radius
`EarthRadiusInKM / 2^128` needs 128 halvings and gives `256 mod 256 = 0`, while
the larger radius `EarthRadiusInKM / 2` gives 2. -/
theorem GetNeededPrecision_wraps :
    EarthRadiusInKM / 2 ^ 128 ≤ EarthRadiusInKM / 2 ∧
    0 < EarthRadiusInKM / 2 ^ 128 ∧
    GetNeededPrecision 130 (EarthRadiusInKM / 2 ^ 128) = some 0 ∧
    GetNeededPrecision 130 (EarthRadiusInKM / 2) = some 2 := by
  refine ⟨?_, ?_, ?_, ?_⟩
  · simpa using earthRadius_div_anti (i := 1) (j := 128) (by decide)
  · exact div_pos earthRadius_pos (by positivity)
  · rw [GetNeededPrecision_mod _ 128 130 (earthRadius_div_lt (by decide))
      (fun i hi => earthRadius_div_anti (by omega)) (by decide) (by decide)]
  · have := GetNeededPrecision_mod (EarthRadiusInKM / 2 ^ 1) 1 130
      (earthRadius_div_lt (by decide)) (fun i hi => earthRadius_div_anti (by omega)) (by decide)
      (by decide)
    simpa using this

/-- C10, counterexample: at the radius `EarthRadiusInKM` the least `n` with
`EarthRadiusInKM / 2^n < r` is 1 and the algorithm of the spec returns 2, but
the code returns 0, because its loop starts from `EarthRadiusInKM / 2`. -/
theorem GetNeededPrecision_ne_spec :
    EarthRadiusInKM / 2 ^ 1 < EarthRadiusInKM ∧
    ¬ EarthRadiusInKM / 2 ^ 0 < EarthRadiusInKM ∧
    GetNeededPrecision 2 EarthRadiusInKM = some 0 ∧
    specNeededPrecision 2 EarthRadiusInKM = some (2 * 1) ∧
    GetNeededPrecision 2 EarthRadiusInKM ≠ specNeededPrecision 2 EarthRadiusInKM := by
  have h1 : GetNeededPrecision 2 EarthRadiusInKM = some 0 := by
    have := GetNeededPrecision_mod (EarthRadiusInKM / 2 ^ 0) 0 2
      (earthRadius_div_lt (by decide)) (fun i hi => absurd hi (Nat.not_lt_zero i)) (by decide)
      (by decide)
    simpa using this
  have h2 : specNeededPrecision 2 EarthRadiusInKM = some (2 * 1) := by
    have := specPrecisionLoop_eq EarthRadiusInKM 1 2 EarthRadiusInKM 0
      (fun i hi => by
        have : i = 0 := by omega
        subst this; simp)
      (by simpa using earthRadius_div_lt (i := 0) (j := 1) (by decide)) (by decide)
    simpa [specNeededPrecision] using this
  refine ⟨?_, ?_, h1, h2, ?_⟩
  · simpa using earthRadius_div_lt (i := 0) (j := 1) (by decide)
  · simp
  · rw [h1, h2]
    decide

/-- C10, amended: for every radius `r` above `EarthRadiusInKM / 2^128`, with `k`
the least number such that `EarthRadiusInKM / 2^(k+1) < r`, `GetNeededPrecision r`
is the result of the loop of the spec started from `d = EarthRadiusInKM / 2`
instead of `d = EarthRadiusInKM`, which is `2 * k`. -/
theorem GetNeededPrecision_refines_half (r : ℚ) (hr : EarthRadiusInKM / 2 ^ 128 < r) :
    ∃ k, EarthRadiusInKM / 2 ^ (k + 1) < r ∧
      (∀ j, j < k → ¬ EarthRadiusInKM / 2 ^ (j + 1) < r) ∧
      ∀ fuel, k < fuel →
        GetNeededPrecision fuel r = specPrecisionLoop r fuel (EarthRadiusInKM / 2) 0 ∧
        specPrecisionLoop r fuel (EarthRadiusInKM / 2) 0 = some (2 * k) := by
  obtain ⟨k, hk, hmin⟩ := exists_least_halving r hr
  refine ⟨k, hk, hmin, ?_⟩
  intro fuel hf
  have hstep := half_div_pow EarthRadiusInKM
  have hspec : specPrecisionLoop r fuel (EarthRadiusInKM / 2) 0 = some (2 * k) := by
    have := specPrecisionLoop_eq r k fuel (EarthRadiusInKM / 2) 0
      (fun i hi => by rw [hstep]; exact not_lt.mp (hmin i hi)) (by rw [hstep]; exact hk) hf
    simpa using this
  have hk128 := least_halving_lt r k hr hmin
  refine ⟨?_, hspec⟩
  rw [hspec, GetNeededPrecision_mod r k fuel hk (fun j hj => not_lt.mp (hmin j hj)) hf
    (by omega)]
  congr 1
  omega

/-- Instance of the amended C10 at the radius `EarthRadiusInKM / 4`. -/
theorem GetNeededPrecision_refines_half_witness :
    EarthRadiusInKM / 2 ^ 128 < EarthRadiusInKM / 2 ^ 2 ∧
    ∃ k, EarthRadiusInKM / 2 ^ (k + 1) < EarthRadiusInKM / 2 ^ 2 ∧
      (∀ j, j < k → ¬ EarthRadiusInKM / 2 ^ (j + 1) < EarthRadiusInKM / 2 ^ 2) ∧
      ∀ fuel, k < fuel →
        GetNeededPrecision fuel (EarthRadiusInKM / 2 ^ 2) =
          specPrecisionLoop (EarthRadiusInKM / 2 ^ 2) fuel (EarthRadiusInKM / 2) 0 ∧
        specPrecisionLoop (EarthRadiusInKM / 2 ^ 2) fuel (EarthRadiusInKM / 2) 0 =
          some (2 * k) :=
  ⟨earthRadius_div_lt (by decide),
    GetNeededPrecision_refines_half (EarthRadiusInKM / 2 ^ 2) (earthRadius_div_lt (by decide))⟩

/-! ## Claims C11, C12, C13 -/

/-- C11: for every point and every precision `p`, with `s = min p 60`, the hash
`GetHash` returns has size `s`, a 64-bit word whose low `64 - s` bits are zero,
the value `bits >> (64 - s)`, which is below `2^s`, and a text of `s / 5`
characters; every precision above 60 gives the hash of precision 60, and
precision 0 gives bits 0, value 0 and the empty text. -/
theorem GetHash_shape (pt : Point) (p : Nat) :
    ∃ h, GetHash (some pt) p = some h ∧
      h.size = min p 60 ∧
      h.bits < 2 ^ 64 ∧ h.bits % 2 ^ (64 - min p 60) = 0 ∧
      h.val = h.bits >>> (64 - min p 60) ∧ h.val < 2 ^ min p 60 ∧
      h.str.length = min p 60 / 5 ∧
      (60 < p → GetHash (some pt) p = GetHash (some pt) 60) ∧
      GetHash (some pt) 0 = some { str := [], val := 0, bits := 0, size := 0 } := by
  have hle : min p 60 ≤ 60 := Nat.min_le_right _ _
  have hmm : min (min p 60) 60 = min p 60 := Nat.min_eq_left hle
  have hlen := encodeBits_length pt (min p 60) true fullCell
  generalize hl : encodeBits pt (min p 60) true fullCell = l at hlen
  have hlt := toNum_lt l
  rw [hlen] at hlt
  have hval : (toNum l * 2 ^ (64 - min p 60)) >>> (64 - min p 60) = toNum l := by
    have := leftJustified_shiftRight l
    rw [hlen] at this
    exact this
  refine ⟨_, GetHash_eq pt p, ?_, ?_, ?_, ?_, ?_, ?_, ?_, ?_⟩
  · rw [NewHash_size, hmm]
  · rw [NewHash_bits, hl]
    calc toNum l * 2 ^ (64 - min p 60) < 2 ^ min p 60 * 2 ^ (64 - min p 60) :=
          Nat.mul_lt_mul_of_pos_right hlt (by positivity)
      _ = 2 ^ 64 := by rw [← pow_add]; congr 1; omega
  · rw [NewHash_bits]
    exact Nat.mul_mod_left _ _
  · rw [NewHash_val, NewHash_bits, hmm]
  · rw [NewHash_val, hmm, hl, hval]
    exact hlt
  · rw [NewHash_str_length, hmm]
  · intro h60
    have h1 : min p 60 = 60 := Nat.min_eq_right (le_of_lt h60)
    rw [GetHash_eq pt p, GetHash_eq pt 60, h1, Nat.min_self]
  · rw [GetHash_eq]
    simp [encodeBits, toNum, NewHash, NewHashLoop, MaxHashBits]

/-- C12: for every word `bits` and every size, with `s = min size 60`, the text
of `NewHash bits size` has `s / 5` characters and its `k`-th character is the
alphabet character with index `(bits >> (59 - 5k)) & 31`; for example the text
of `NewHash 0xaf777bbb00000000 32` is "pxvrrf". -/
theorem NewHash_text (bits size : Nat) :
    (NewHash bits size).str.length = min size 60 / 5 ∧
    (∀ k, k < min size 60 / 5 →
      (bits >>> (59 - 5 * k)) &&& 31 < 32 ∧
      (NewHash bits size).str[k]? =
        "0123456789bcdefghjkmnpqrstuvwxyz".toList[(bits >>> (59 - 5 * k)) &&& 31]?) ∧
    (NewHash 0xaf777bbb00000000 32).str = "pxvrrf".toList := by
  refine ⟨NewHash_str_length bits size, ?_, by decide⟩
  intro k hk
  refine ⟨group_index_lt bits k, ?_⟩
  have hbase : "0123456789bcdefghjkmnpqrstuvwxyz".toList = base32 := rfl
  rw [hbase, NewHash_str_getElem bits size k hk,
    base32_getElem_eq_getD _ (group_index_lt bits k)]
  rfl

/-- C13: for every 64-bit word `bits` and every size, `NewHash bits size` has
the size `min size 60`, the word `bits` unchanged and the value
`bits >> (64 - min size 60)`, which is 0 when the size is 0; for example
`NewHash 0xaf777bbb00000000 32` has size 32 and value `0xaf777bbb`, and size 0
gives the empty text. -/
theorem NewHash_fields (bits size : Nat) (hb : bits < 2 ^ 64) :
    (NewHash bits size).size = min size 60 ∧
    (NewHash bits size).bits = bits ∧
    (NewHash bits size).val = bits >>> (64 - (NewHash bits size).size) ∧
    ((NewHash bits size).size = 0 → (NewHash bits size).val = 0) ∧
    (NewHash bits 0).str = [] ∧ (NewHash bits 0).val = 0 ∧
    (NewHash 0xaf777bbb00000000 32).size = 32 ∧
    (NewHash 0xaf777bbb00000000 32).val = 0xaf777bbb := by
  have h64 : bits >>> 64 = 0 := by
    rw [Nat.shiftRight_eq_div_pow]
    exact Nat.div_eq_of_lt hb
  refine ⟨rfl, rfl, rfl, ?_, rfl, ?_, by decide, by decide⟩
  · intro h0
    rw [NewHash_val, ← NewHash_size bits size, h0]
    exact h64
  · rw [NewHash_val]
    exact h64

/-- Instance of C13 at the word `0xaf777bbb00000000` and size 32. -/
theorem NewHash_fields_witness :
    0xaf777bbb00000000 < 2 ^ 64 ∧
    (NewHash 0xaf777bbb00000000 32).size = min 32 60 ∧
    (NewHash 0xaf777bbb00000000 32).bits = 0xaf777bbb00000000 ∧
    (NewHash 0xaf777bbb00000000 32).val =
      0xaf777bbb00000000 >>> (64 - (NewHash 0xaf777bbb00000000 32).size) ∧
    ((NewHash 0xaf777bbb00000000 32).size = 0 → (NewHash 0xaf777bbb00000000 32).val = 0) ∧
    (NewHash 0xaf777bbb00000000 0).str = [] ∧ (NewHash 0xaf777bbb00000000 0).val = 0 ∧
    (NewHash 0xaf777bbb00000000 32).size = 32 ∧
    (NewHash 0xaf777bbb00000000 32).val = 0xaf777bbb :=
  ⟨by decide, NewHash_fields 0xaf777bbb00000000 32 (by decide)⟩

/-! ## Claim C14 -/

/-- C14: for every text `t` of 1 to 12 characters that are alphabet characters
in upper or lower case, `GetHashFromString t` is a hash whose text is the
lower-cased `t`, whose size is `5 * len t`, whose value is `t` read as a base-32
number and whose word is the value shifted left by `64 - 5 * len t`; it equals
`NewHash` of its word and size.  For example `GetHashFromString "pxvrrf"` is
`NewHash 0xaf777bb800000000 30`. -/
theorem GetHashFromString_roundtrip (t : List Char) (hv : Valid (t.map Char.toLower))
    (h1 : 1 ≤ t.length) (h12 : t.length ≤ 12) :
    ∃ h, GetHashFromString t = some h ∧
      h.str = ToLower t ∧ h.size = 5 * t.length ∧
      h.val = base32Value (ToLower t) ∧
      h.bits = shl64 h.val (64 - 5 * t.length) ∧
      h.bits = h.val * 2 ^ (64 - 5 * t.length) ∧
      h = NewHash h.bits (5 * t.length) ∧
      GetHashFromString "pxvrrf".toList = some (NewHash 0xaf777bb800000000 30) := by
  have hlow := ToLower_of_map_valid t hv
  have hlen : (ToLower t).length = t.length := by rw [hlow, List.length_map]
  rw [← hlow] at hv
  have hmin : min (5 * t.length) 60 = 5 * t.length := Nat.min_eq_left (by omega)
  have hlt := base32Value_lt (ToLower t) hv
  rw [hlen] at hlt
  have hval : (base32Value (ToLower t) * 2 ^ (64 - 5 * t.length)) >>> (64 - 5 * t.length) =
      base32Value (ToLower t) := by
    rw [Nat.shiftRight_eq_div_pow, Nat.mul_div_cancel _ (by positivity)]
  have hshl : shl64 (base32Value (ToLower t)) (64 - 5 * t.length) =
      base32Value (ToLower t) * 2 ^ (64 - 5 * t.length) := by
    unfold shl64
    rw [Nat.shiftLeft_eq]
    apply Nat.mod_eq_of_lt
    calc base32Value (ToLower t) * 2 ^ (64 - 5 * t.length)
        < 32 ^ t.length * 2 ^ (64 - 5 * t.length) :=
          Nat.mul_lt_mul_of_pos_right hlt (by positivity)
      _ = 2 ^ 64 := by
          have : (32 : Nat) = 2 ^ 5 := rfl
          rw [this, ← pow_mul, ← pow_add]
          congr 1
          omega
  have heq := GetHashFromString_eq t hv (by rw [hlen]; exact h1) (by rw [hlen]; exact h12)
  rw [hlen] at heq
  refine ⟨_, heq, ?_, ?_, ?_, ?_, ?_, ?_, by decide⟩
  · apply List.ext_getElem
    · rw [NewHash_str_length, hmin, hlen]; omega
    · intro k hk1 hk2
      rw [hlen] at hk2
      have hk3 : k < (ToLower t).length := by rw [hlen]; exact hk2
      have hg := groupChar_base32Value (ToLower t) hv (by rw [hlen]; exact h12) k hk3
      rw [hlen] at hg
      simp only [NewHash_str, List.getElem_map, List.getElem_range]
      exact hg
  · rw [NewHash_size, hmin]
  · rw [NewHash_val, hmin, hval]
  · rw [NewHash_bits, NewHash_val, hmin, hval, hshl]
  · rw [NewHash_bits, NewHash_val, hmin, hval]
  · rw [NewHash_bits]

/-- Instance of C14 at the text "PXvrrf". -/
theorem GetHashFromString_roundtrip_witness :
    Valid ("PXvrrf".toList.map Char.toLower) ∧ 1 ≤ "PXvrrf".toList.length ∧
    "PXvrrf".toList.length ≤ 12 ∧
    ∃ h, GetHashFromString "PXvrrf".toList = some h ∧
      h.str = ToLower "PXvrrf".toList ∧ h.size = 5 * "PXvrrf".toList.length ∧
      h.val = base32Value (ToLower "PXvrrf".toList) ∧
      h.bits = shl64 h.val (64 - 5 * "PXvrrf".toList.length) ∧
      h.bits = h.val * 2 ^ (64 - 5 * "PXvrrf".toList.length) ∧
      h = NewHash h.bits (5 * "PXvrrf".toList.length) ∧
      GetHashFromString "pxvrrf".toList = some (NewHash 0xaf777bb800000000 30) :=
  ⟨by decide, by decide, by decide,
    GetHashFromString_roundtrip "PXvrrf".toList (by decide) (by decide) (by decide)⟩

/-! ## Claim C15 -/

/-- C15: for every text `t` of 1 to 12 alphabet characters, `ReverseHash t` is
`NewPoint` of the midpoint of the rectangle obtained by replaying the `5 * len t`
bits of `t` from the full domain, longitude first; its latitude and longitude
differ from the exact midpoint by at most 0.000000005.  In particular
`ReverseHash "ub188qkx0"` is within 0.000001 of (45.123446, 35.876563). -/
theorem ReverseHash_midpoint (t : List Char) (hv : Valid t)
    (h1 : 1 ≤ t.length) (h12 : t.length ≤ 12) :
    (∃ m, ReverseHash t = some m ∧
      m = NewPoint (((cellOfText t).minLat + (cellOfText t).maxLat) / 2)
            (((cellOfText t).minLng + (cellOfText t).maxLng) / 2) ∧
      |m.latitude - ((cellOfText t).minLat + (cellOfText t).maxLat) / 2| ≤ 1 / 200000000 ∧
      |m.longitude - ((cellOfText t).minLng + (cellOfText t).maxLng) / 2| ≤ 1 / 200000000) ∧
    ∃ q, ReverseHash "ub188qkx0".toList = some q ∧
      |q.latitude - 45123446 / 1000000| ≤ 1 / 1000000 ∧
      |q.longitude - 35876563 / 1000000| ≤ 1 / 1000000 := by
  constructor
  · obtain ⟨hr, hp⟩ := ReverseHash_valid t hv h1 h12
    obtain ⟨r1, r2⟩ := Round_near (((cellOfText t).minLat + (cellOfText t).maxLat) / 2)
    obtain ⟨r3, r4⟩ := Round_near (((cellOfText t).minLng + (cellOfText t).maxLng) / 2)
    refine ⟨_, hr, hp.symm, ?_, ?_⟩
    · rw [abs_le]; constructor <;> linarith
    · rw [abs_le]; constructor <;> linarith
  · refine ⟨{ latitude := 4512344599 / 100000000, longitude := 179382813 / 5000000 },
      by decide!, ?_, ?_⟩
    · rw [abs_le]; constructor <;> norm_num
    · rw [abs_le]; constructor <;> norm_num

/-- Instance of C15 at the text "ub188qkx0". -/
theorem ReverseHash_midpoint_witness :
    Valid "ub188qkx0".toList ∧ 1 ≤ "ub188qkx0".toList.length ∧
    "ub188qkx0".toList.length ≤ 12 ∧
    (∃ m, ReverseHash "ub188qkx0".toList = some m ∧
      m = NewPoint
            (((cellOfText "ub188qkx0".toList).minLat +
              (cellOfText "ub188qkx0".toList).maxLat) / 2)
            (((cellOfText "ub188qkx0".toList).minLng +
              (cellOfText "ub188qkx0".toList).maxLng) / 2) ∧
      |m.latitude - ((cellOfText "ub188qkx0".toList).minLat +
          (cellOfText "ub188qkx0".toList).maxLat) / 2| ≤ 1 / 200000000 ∧
      |m.longitude - ((cellOfText "ub188qkx0".toList).minLng +
          (cellOfText "ub188qkx0".toList).maxLng) / 2| ≤ 1 / 200000000) ∧
    ∃ q, ReverseHash "ub188qkx0".toList = some q ∧
      |q.latitude - 45123446 / 1000000| ≤ 1 / 1000000 ∧
      |q.longitude - 35876563 / 1000000| ≤ 1 / 1000000 :=
  ⟨by decide, by decide, by decide,
    ReverseHash_midpoint "ub188qkx0".toList (by decide) (by decide) (by decide)⟩

/-! ## Claims C16, C17, C18, C19 -/

/-- C16: `GetHash` gives the reference texts of the tests and of the package
documentation: "ub188qkx0n18", "gbsuv7", "kxzxupbrg", "k", "rzzzzzzzz",
"gzzzzzzzz", and "vbgw" at the precision `GetNeededPrecision 1`. -/
theorem GetHash_reference :
    (GetHash (some (NewPoint (4512345678 / 100000000) (3587654321 / 100000000))) 60).map
        Hash.str = some "ub188qkx0n18".toList ∧
    (GetHash (some (NewPoint (486667 / 10000) (-4334 / 1000))) 30).map Hash.str =
      some "gbsuv7".toList ∧
    (GetHash (some (NewPoint 0 (3322315 / 100000))) 45).map Hash.str =
      some "kxzxupbrg".toList ∧
    (GetHash (some (NewPoint 0 23)) 5).map Hash.str = some "k".toList ∧
    (GetHash (some (NewPoint 0 (179999979 / 1000000))) 45).map Hash.str =
      some "rzzzzzzzz".toList ∧
    (GetHash (some (NewPoint 90 (33220017 / 1000000))) 45).map Hash.str =
      some "gzzzzzzzz".toList ∧
    GetNeededPrecision 13 1 = some 24 ∧
    (GetHash (some (NewPoint (50432356 / 1000000) (83873793 / 1000000))) 24).map Hash.str =
      some "vbgw".toList := by
  refine ⟨by decide!, by decide!, by decide!, by decide!, by decide!, by decide!, by decide!,
    by decide!⟩

/-- C17: the neighbours of "ub188qkx0" are "ub188qkx2" to the north, "ub188qkwb"
to the south, "ub188qkx1" to the east and "ub188qkrp" to the west, and the
diagonal steps lead to "ub188qkrr", "ub188qkx3", "ub188qkqz" and "ub188qkwc". -/
theorem GetNeighbour_reference :
    GetNeighbour "ub188qkx0".toList North = some "ub188qkx2".toList ∧
    GetNeighbour "ub188qkx0".toList South = some "ub188qkwb".toList ∧
    GetNeighbour "ub188qkx0".toList East = some "ub188qkx1".toList ∧
    GetNeighbour "ub188qkx0".toList West = some "ub188qkrp".toList ∧
    (GetNeighbour "ub188qkx0".toList North).bind (fun n => GetNeighbour n West) =
      some "ub188qkrr".toList ∧
    (GetNeighbour "ub188qkx0".toList North).bind (fun n => GetNeighbour n East) =
      some "ub188qkx3".toList ∧
    (GetNeighbour "ub188qkx0".toList South).bind (fun n => GetNeighbour n West) =
      some "ub188qkqz".toList ∧
    (GetNeighbour "ub188qkx0".toList South).bind (fun n => GetNeighbour n East) =
      some "ub188qkwc".toList := by
  refine ⟨by decide!, by decide!, by decide!, by decide!, by decide!, by decide!, by decide!,
    by decide!⟩

/-- C18: `GetNeighbour` returns the empty text for the empty hash in any
direction and for any hash when the direction is not one of North, East, South
and West, for example for "ub188qkx0" and direction 128; for a non-empty hash
of alphabet characters and one of the four directions it returns a non-empty
text.  In all these cases it returns without failure. -/
theorem GetNeighbour_empty_cases :
    (∀ d, GetNeighbour [] d = some []) ∧
    (∀ h d, ¬ (d = 0x1 ∨ d = 0x2 ∨ d = 0x8 ∨ d = 0x10) → GetNeighbour h d = some []) ∧
    GetNeighbour "ub188qkx0".toList 128 = some [] ∧
    (∀ h d, h ≠ [] → Valid h → (d = North ∨ d = East ∨ d = South ∨ d = West) →
      ∃ n, GetNeighbour h d = some n ∧ n ≠ []) := by
  refine ⟨GetNeighbour_nil, ?_, by decide, ?_⟩
  · intro h d hd
    exact GetNeighbour_invalid h d hd
  · intro h d hne hv hd
    obtain ⟨n, hn, _, hl, _⟩ := GetNeighbour_opposite d hd h hv
    refine ⟨n, hn, ?_⟩
    intro h0
    rw [h0] at hl
    exact hne (List.length_eq_zero.mp hl.symm)

/-- C19: `GetHashAndNeighbours` returns a list, and the list is empty exactly
when the point is absent or `min p 60 < 5`. -/
theorem GetHashAndNeighbours_empty_iff (point : Option Point) (p : Nat) :
    ∃ l, GetHashAndNeighbours point p = some l ∧
      (l = [] ↔ point = none ∨ min p 60 < 5) := by
  cases point with
  | none => exact ⟨[], rfl, by simp⟩
  | some pt =>
    by_cases hp : 5 ≤ min p 60
    · obtain ⟨c, m, n, s, e, w, ne, nw, se, sw, _, _, _, _, _, _, _, _, _, _,
        _, _, _, _, _, _, _, _, _, h11⟩ := GetHashAndNeighbours_eq pt p hp
      refine ⟨_, h11, ?_⟩
      have hlen := (quadrantList_length pt m c n s e w ne nw se sw).1
      constructor
      · intro h0
        rw [h0] at hlen
        simp at hlen
      · rintro (h | h)
        · exact Option.noConfusion h
        · omega
    · exact ⟨[], GetHashAndNeighbours_low pt p (by omega), by simp; omega⟩

/-! ## Claim C20 -/

/-- C20: `NewPoint 0 (-179.999999999)` has the longitude -180, which is not above
-180: the longitude is wrapped into (-180, 180] before it is rounded, and the
rounding moves it onto -180, while `NewPoint 0 (-180)` has the longitude 180. -/
theorem NewPoint_longitude_rounds_to_minus_180 :
    (NewPoint 0 (-179999999999 / 1000000000)).latitude = 0 ∧
    (NewPoint 0 (-179999999999 / 1000000000)).longitude = -180 ∧
    ¬ (-180 < (NewPoint 0 (-179999999999 / 1000000000)).longitude) ∧
    (NewPoint 0 (-180)).longitude = 180 := by
  have h1 : NewPoint 0 (-179999999999 / 1000000000) = { latitude := 0, longitude := -180 } := by
    decide!
  have h2 : NewPoint 0 (-180) = { latitude := 0, longitude := 180 } := by
    decide!
  rw [h1, h2]
  refine ⟨rfl, rfl, ?_, rfl⟩
  simp

/-! ## Claim C21 -/

/-- C21: for inputs that are multiples of 0.00000001, `NewPoint` clamps the
latitude to [-90, 90]; if the clamped latitude is 90 or -90 the longitude is 0;
otherwise the longitude differs from the input by an integer multiple of 360
and lies in (-180, 180] (200 gives -160, -200 gives 160, -180 gives 180, 360
gives 0, 380 gives 20, -380 gives -20); an input with `|lat| < 90` and
`-180 < lng ≤ 180` is returned unchanged. -/
theorem NewPoint_normalises (lat lng : ℚ) (a b : Int)
    (ha : lat = (a : ℚ) / 100000000) (hb : lng = (b : ℚ) / 100000000) :
    (NewPoint lat lng).latitude = min (max lat (-90)) 90 ∧
    (|min (max lat (-90)) 90| = 90 → (NewPoint lat lng).longitude = 0) ∧
    (¬ |min (max lat (-90)) 90| = 90 →
      (∃ k : Int, (NewPoint lat lng).longitude = lng + 360 * (k : ℚ)) ∧
      -180 < (NewPoint lat lng).longitude ∧ (NewPoint lat lng).longitude ≤ 180) ∧
    (|lat| < 90 → -180 < lng → lng ≤ 180 →
      NewPoint lat lng = { latitude := lat, longitude := lng }) ∧
    NewPoint 0 200 = { latitude := 0, longitude := -160 } ∧
    NewPoint 0 (-200) = { latitude := 0, longitude := 160 } ∧
    NewPoint 0 (-180) = { latitude := 0, longitude := 180 } ∧
    NewPoint 0 360 = { latitude := 0, longitude := 0 } ∧
    NewPoint 0 380 = { latitude := 0, longitude := 20 } ∧
    NewPoint 0 (-380) = { latitude := 0, longitude := -20 } := by
  obtain ⟨h1, h2, h3⟩ := NewPoint_multiple lat lng a b ha hb
  obtain ⟨m1, m2⟩ := Mod_bounds lng
  obtain ⟨w1, w2⟩ := wrap_bounds (Mod lng TotalLongitude) m1 m2
  obtain ⟨k, hk⟩ := wrap_eq_add lng
  refine ⟨h1, h2, ?_, ?_, by decide!, by decide!, by decide!, by decide!, by decide!,
    by decide!⟩
  · intro hp
    rw [h3 hp]
    exact ⟨⟨k, hk⟩, w1, w2⟩
  · intro hlat hl1 hl2
    obtain ⟨q1, q2⟩ := abs_lt.mp hlat
    have hclamp : min (max lat (-90)) 90 = lat := by
      rw [max_eq_left (by linarith), min_eq_left (by linarith)]
    have hp : ¬ |min (max lat (-90)) 90| = 90 := by
      rw [hclamp]; exact ne_of_lt hlat
    have hmod := Mod_small lng (by linarith) (by linarith)
    have e1 : (NewPoint lat lng).latitude = lat := by rw [h1, hclamp]
    have e2 : (NewPoint lat lng).longitude = lng := by
      rw [h3 hp, hmod]
      unfold HalfLongitude
      rw [if_neg (by linarith), if_neg (by linarith)]
    cases hnp : NewPoint lat lng with
    | mk la lo =>
      rw [hnp] at e1 e2
      simp only at e1 e2
      rw [e1, e2]

/-- Instance of C21 at the input (130, 200). -/
theorem NewPoint_normalises_witness :
    (130 : ℚ) = ((13000000000 : Int) : ℚ) / 100000000 ∧
    (200 : ℚ) = ((20000000000 : Int) : ℚ) / 100000000 ∧
    (NewPoint 130 200).latitude = min (max 130 (-90)) 90 ∧
    (|min (max (130 : ℚ) (-90)) 90| = 90 → (NewPoint 130 200).longitude = 0) ∧
    (¬ |min (max (130 : ℚ) (-90)) 90| = 90 →
      (∃ k : Int, (NewPoint 130 200).longitude = 200 + 360 * (k : ℚ)) ∧
      -180 < (NewPoint 130 200).longitude ∧ (NewPoint 130 200).longitude ≤ 180) ∧
    (|(130 : ℚ)| < 90 → -180 < (200 : ℚ) → (200 : ℚ) ≤ 180 →
      NewPoint 130 200 = { latitude := 130, longitude := 200 }) ∧
    NewPoint 0 200 = { latitude := 0, longitude := -160 } ∧
    NewPoint 0 (-200) = { latitude := 0, longitude := 160 } ∧
    NewPoint 0 (-180) = { latitude := 0, longitude := 180 } ∧
    NewPoint 0 360 = { latitude := 0, longitude := 0 } ∧
    NewPoint 0 380 = { latitude := 0, longitude := 20 } ∧
    NewPoint 0 (-380) = { latitude := 0, longitude := -20 } :=
  ⟨by norm_num, by norm_num,
    NewPoint_normalises 130 200 13000000000 20000000000 (by norm_num) (by norm_num)⟩

/-! ## Claim C22 -/

/-- C22, counterexample: `NewBoundary` passes both corners through `NewPoint`
again.  For the points (100, 0) and (0, 0) the upper latitude of the boundary is
90, not the larger latitude 100; and for the point `NewPoint 0 (-179.999999999)`,
whose longitude is -180, and the point `NewPoint 2 3` the lower longitude of the
boundary is 180. -/
theorem NewBoundary_renormalises :
    NewBoundary [Thread.sendLower, Thread.sendUpper, Thread.caller, Thread.caller]
        { latitude := 100, longitude := 0 } { latitude := 0, longitude := 0 } =
      some { lower := { latitude := 0, longitude := 0 },
             upper := { latitude := 90, longitude := 0 } } ∧
    ¬ ((90 : ℚ) = max 100 0) ∧
    (NewPoint 0 (-179999999999 / 1000000000)).longitude = -180 ∧
    NewBoundary [Thread.sendLower, Thread.sendUpper, Thread.caller, Thread.caller]
        (NewPoint 0 (-179999999999 / 1000000000)) (NewPoint 2 3) =
      some { lower := { latitude := 0, longitude := 180 },
             upper := { latitude := 2, longitude := 3 } } ∧
    ¬ ((180 : ℚ) = -180) := by
  refine ⟨by decide!, by norm_num, by decide!, by decide!, by norm_num⟩

/-- C22, amended: for all points `lower` and `upper` in normal form (latitude in
[-90, 90], longitude in (-180, 180], both multiples of 0.00000001) there is a
boundary `b` with the smaller latitude as its lower and the larger as its upper
latitude, with the longitudes of `lower` and `upper` in place, or both 0 when
either latitude is 90 or -90, such that `NewBoundary lower upper` returns `b`
whatever the order in which the goroutines and the caller take their steps:
under no schedule does the caller receive anything else, and it has received
`b` once both goroutines, in either order, and then the caller have run. -/
theorem NewBoundary_normalised (lower upper : Point)
    (hl : Normalised lower) (hu : Normalised upper) :
    ∃ b : Boundary,
      b.lower.latitude = min lower.latitude upper.latitude ∧
      b.upper.latitude = max lower.latitude upper.latitude ∧
      b.lower.latitude ≤ b.upper.latitude ∧
      (¬ (|lower.latitude| = 90 ∨ |upper.latitude| = 90) →
        b.lower.longitude = lower.longitude ∧ b.upper.longitude = upper.longitude) ∧
      (|lower.latitude| = 90 ∨ |upper.latitude| = 90 →
        b.lower.longitude = 0 ∧ b.upper.longitude = 0) ∧
      (∀ schedule : List Thread, NewBoundary schedule lower upper = none ∨
        NewBoundary schedule lower upper = some b) ∧
      (∀ schedule : List Thread,
        NewBoundary
          (schedule ++ [Thread.sendLower, Thread.sendUpper, Thread.caller, Thread.caller])
          lower upper = some b) ∧
      (∀ schedule : List Thread,
        NewBoundary
          (schedule ++ [Thread.sendUpper, Thread.sendLower, Thread.caller, Thread.caller])
          lower upper = some b) := by
  obtain ⟨l1, l2, l3, l4, ⟨la, hla⟩, ⟨lb, hlb⟩⟩ := hl
  obtain ⟨u1, u2, u3, u4, ⟨ua, hua⟩, ⟨ub, hub⟩⟩ := hu
  have hmin : ∃ a : Int, min lower.latitude upper.latitude = (a : ℚ) / 100000000 := by
    rcases le_total lower.latitude upper.latitude with h | h
    · rw [min_eq_left h]; exact ⟨la, hla⟩
    · rw [min_eq_right h]; exact ⟨ua, hua⟩
  have hmax : ∃ a : Int, max lower.latitude upper.latitude = (a : ℚ) / 100000000 := by
    rcases le_total lower.latitude upper.latitude with h | h
    · rw [max_eq_right h]; exact ⟨ua, hua⟩
    · rw [max_eq_left h]; exact ⟨la, hla⟩
  have hminp : |min lower.latitude upper.latitude| = 90 →
      |lower.latitude| = 90 ∨ |upper.latitude| = 90 := by
    rcases le_total lower.latitude upper.latitude with h | h
    · rw [min_eq_left h]; exact Or.inl
    · rw [min_eq_right h]; exact Or.inr
  have hmaxp : |max lower.latitude upper.latitude| = 90 →
      |lower.latitude| = 90 ∨ |upper.latitude| = 90 := by
    rcases le_total lower.latitude upper.latitude with h | h
    · rw [max_eq_right h]; exact Or.inr
    · rw [max_eq_left h]; exact Or.inl
  obtain ⟨mi, hmi⟩ := hmin
  obtain ⟨ma, hma⟩ := hmax
  have r1 : -90 ≤ min lower.latitude upper.latitude := le_min l1 u1
  have r2 : min lower.latitude upper.latitude ≤ 90 := le_trans (min_le_left _ _) l2
  have r3 : -90 ≤ max lower.latitude upper.latitude := le_trans l1 (le_max_left _ _)
  have r4 : max lower.latitude upper.latitude ≤ 90 := max_le l2 u2
  have hrun := fun schedule : List Thread => NewBoundary_eq schedule lower upper
  have hc : ∃ L U : ℚ, corners lower upper =
        { lower := { latitude := min lower.latitude upper.latitude, longitude := L },
          upper := { latitude := max lower.latitude upper.latitude, longitude := U } } ∧
      (¬ (|lower.latitude| = 90 ∨ |upper.latitude| = 90) →
        L = lower.longitude ∧ U = upper.longitude) ∧
      (|lower.latitude| = 90 ∨ |upper.latitude| = 90 → L = 0 ∧ U = 0) := by
    unfold corners
    by_cases hp : |lower.latitude| = 90 ∨ |upper.latitude| = 90
    · have hp2 : |lower.latitude| = NorthPoleLat ∨ |upper.latitude| = NorthPoleLat := hp
      simp only [if_pos hp2]
      rw [NewPoint_fixed _ 0 mi 0 hmi (by norm_num) r1 r2 (by norm_num) (by norm_num)
          (fun _ => rfl),
        NewPoint_fixed _ 0 ma 0 hma (by norm_num) r3 r4 (by norm_num) (by norm_num)
          (fun _ => rfl)]
      exact ⟨0, 0, rfl, fun hn => absurd hp hn, fun _ => ⟨rfl, rfl⟩⟩
    · have hp2 : ¬ (|lower.latitude| = NorthPoleLat ∨ |upper.latitude| = NorthPoleLat) := hp
      simp only [if_neg hp2]
      rw [NewPoint_fixed _ _ mi lb hmi hlb r1 r2 l3 l4 (fun h => absurd (hminp h) hp),
        NewPoint_fixed _ _ ma ub hma hub r3 r4 u3 u4 (fun h => absurd (hmaxp h) hp)]
      exact ⟨_, _, rfl, fun _ => ⟨rfl, rfl⟩, fun h => absurd h hp⟩
  obtain ⟨L, U, hceq, hkeep, hzero⟩ := hc
  refine ⟨corners lower upper, ?_, ?_, ?_, ?_, ?_, fun s => (hrun s).1, fun s => (hrun s).2.1,
    fun s => (hrun s).2.2⟩
  · rw [hceq]
  · rw [hceq]
  · rw [hceq]; exact min_le_max
  · rw [hceq]; exact hkeep
  · rw [hceq]; exact hzero

/-- Instance of the amended C22 at the points (2, 3) and (0, 1). -/
theorem NewBoundary_normalised_witness :
    Normalised { latitude := 2, longitude := 3 } ∧
    Normalised { latitude := 0, longitude := 1 } ∧
    ∃ b : Boundary,
      b.lower.latitude = min (2 : ℚ) 0 ∧
      b.upper.latitude = max (2 : ℚ) 0 ∧
      b.lower.latitude ≤ b.upper.latitude ∧
      (¬ (|(2 : ℚ)| = 90 ∨ |(0 : ℚ)| = 90) →
        b.lower.longitude = 3 ∧ b.upper.longitude = 1) ∧
      (|(2 : ℚ)| = 90 ∨ |(0 : ℚ)| = 90 →
        b.lower.longitude = 0 ∧ b.upper.longitude = 0) ∧
      (∀ schedule : List Thread,
        NewBoundary schedule { latitude := 2, longitude := 3 }
          { latitude := 0, longitude := 1 } = none ∨
        NewBoundary schedule { latitude := 2, longitude := 3 }
          { latitude := 0, longitude := 1 } = some b) ∧
      (∀ schedule : List Thread,
        NewBoundary
          (schedule ++ [Thread.sendLower, Thread.sendUpper, Thread.caller, Thread.caller])
          { latitude := 2, longitude := 3 } { latitude := 0, longitude := 1 } = some b) ∧
      (∀ schedule : List Thread,
        NewBoundary
          (schedule ++ [Thread.sendUpper, Thread.sendLower, Thread.caller, Thread.caller])
          { latitude := 2, longitude := 3 } { latitude := 0, longitude := 1 } = some b) :=
  have h1 : Normalised { latitude := 2, longitude := 3 } :=
    ⟨by norm_num, by norm_num, by norm_num, by norm_num,
      ⟨200000000, by norm_num⟩, ⟨300000000, by norm_num⟩⟩
  have h2 : Normalised { latitude := 0, longitude := 1 } :=
    ⟨by norm_num, by norm_num, by norm_num, by norm_num,
      ⟨0, by norm_num⟩, ⟨100000000, by norm_num⟩⟩
  ⟨h1, h2, NewBoundary_normalised _ _ h1 h2⟩

/-! ## Claim C23 -/

/-- C23, failing input: `GetHashFromString` returns nil only for the empty
string.  On the text "a", whose character is outside the alphabet,
`ReverseHash` returns nil, but `GetHashFromString` returns the 5-bit hash with
text "z": the index -1 of the character is converted to 64 one bits and
OR-ed into the word. -/
theorem GetHashFromString_accepts_invalid :
    (∀ t : List Char, GetHashFromString t = none ↔ t = []) ∧
    Index base32 'a' = none ∧
    ¬ Valid (ToLower ['a']) ∧
    ReverseHash ['a'] = none ∧
    GetHashFromString ['a'] = some (NewHash 0xf800000000000000 5) ∧
    (NewHash 0xf800000000000000 5).str = ['z'] := by
  refine ⟨?_, by decide!, by decide!, by decide!, by decide!, by decide!⟩
  intro t
  constructor
  · intro h
    by_contra hne
    have h2 := GetHashFromString_isSome t hne
    rw [h] at h2
    exact Bool.noConfusion h2
  · rintro rfl
    rfl

/-! ## Claim C24 -/

/-- C24, counterexample: the Kelvin sign U+212A, the three bytes E2 84 AA, is
lower-cased to the alphabet character "k"; its northern neighbour is "s", a
text of one byte, while the input has three bytes. -/
theorem GetNeighbour_shorter_than_input :
    EncodeRune 0x212A = [Char.ofNat 0xE2, Char.ofNat 0x84, Char.ofNat 0xAA] ∧
    [Char.ofNat 0xE2, Char.ofNat 0x84, Char.ofNat 0xAA] ≠ [] ∧
    Valid (ToLower [Char.ofNat 0xE2, Char.ofNat 0x84, Char.ofNat 0xAA]) ∧
    GetNeighbour [Char.ofNat 0xE2, Char.ofNat 0x84, Char.ofNat 0xAA] North = some ['s'] ∧
    ['s'].length = 1 ∧
    [Char.ofNat 0xE2, Char.ofNat 0x84, Char.ofNat 0xAA].length = 3 := by
  refine ⟨by decide!, by decide, by decide!, by decide!, rfl, rfl⟩

/-- C24, amended: each of the eight strings of `neighbours` is a permutation of
the 32 alphabet characters, so the lookup of an alphabet character gives a
position below 32.  For every non-empty string `h` whose lower-cased form is
made of alphabet characters and each of the four directions, `GetNeighbour h d`
returns a text made of alphabet characters that has the length of the
lower-cased `h`, which is the length of `h` when `h` is a string of ASCII bytes
and never more; the recursion ends within `len (ToLower h) + 1` calls, whatever
larger budget it is given. -/
theorem GetNeighbour_total (h : List Char) (d : Nat) (hne : h ≠ [])
    (hv : Valid (ToLower h)) (hd : d = North ∨ d = East ∨ d = South ∨ d = West) :
    (∀ d2, d2 ∈ [North, East, South, West] → ∀ cat, cat ∈ [0, 1] →
      ((neighbours d2).getD cat []).Perm base32) ∧
    (∀ d2, d2 ∈ [North, East, South, West] → ∀ cat, cat ∈ [0, 1] → ∀ c, c ∈ base32 →
      ∃ k, Index ((neighbours d2).getD cat []) c = some k ∧ k < 32 ∧
        ∃ ch, base32.get? k = some ch ∧ ch ∈ base32) ∧
    ∃ n, GetNeighbour h d = some n ∧ n.length = (ToLower h).length ∧
      (ToLower h).length ≤ h.length ∧
      ((∀ c, c ∈ h → c.toNat < 0x80) → n.length = h.length) ∧
      n ≠ [] ∧ Valid n ∧
      ∀ fuel, (ToLower h).length < fuel → GetNeighbourFuel fuel h d = some n := by
  refine ⟨neighbours_perm, neighbours_lookup, ?_⟩
  obtain ⟨n, hn, hvn, hln, _⟩ := GetNeighbour_opposite d hd (ToLower h) hv
  rw [← GetNeighbour_lower h d hv] at hn
  refine ⟨n, hn, hln, ToLower_length_le h hv, ?_, ?_, hvn, ?_⟩
  · intro hascii
    have hall : h.all (fun c => decide (c.toNat < 0x80)) = true := by
      rw [List.all_eq_true]
      intro c hc
      exact decide_eq_true (hascii c hc)
    have hlow : ToLower h = h.map Char.toLower := by
      unfold ToLower
      rw [if_pos hall]
    rw [hln, hlow, List.length_map]
  · intro h0
    rw [h0] at hln
    exact ToLower_ne_nil h hne (List.length_eq_zero.mp hln.symm)
  · intro fuel hf
    rw [GetNeighbourFuel_lower fuel h d hv hf, ← GetNeighbour_lower h d hv, hn]

/-- Instance of the amended C24 at the text "9", the Kelvin sign, "ZS" and the
direction north. -/
theorem GetNeighbour_total_witness :
    ['9', Char.ofNat 0xE2, Char.ofNat 0x84, Char.ofNat 0xAA, 'Z', 'S'] ≠ [] ∧
    Valid (ToLower ['9', Char.ofNat 0xE2, Char.ofNat 0x84, Char.ofNat 0xAA, 'Z', 'S']) ∧
    (∀ d2, d2 ∈ [North, East, South, West] → ∀ cat, cat ∈ [0, 1] →
      ((neighbours d2).getD cat []).Perm base32) ∧
    (∀ d2, d2 ∈ [North, East, South, West] → ∀ cat, cat ∈ [0, 1] → ∀ c, c ∈ base32 →
      ∃ k, Index ((neighbours d2).getD cat []) c = some k ∧ k < 32 ∧
        ∃ ch, base32.get? k = some ch ∧ ch ∈ base32) ∧
    ∃ n, GetNeighbour ['9', Char.ofNat 0xE2, Char.ofNat 0x84, Char.ofNat 0xAA, 'Z', 'S']
        North = some n ∧
      n.length =
        (ToLower ['9', Char.ofNat 0xE2, Char.ofNat 0x84, Char.ofNat 0xAA, 'Z', 'S']).length ∧
      (ToLower ['9', Char.ofNat 0xE2, Char.ofNat 0x84, Char.ofNat 0xAA, 'Z', 'S']).length ≤
        ['9', Char.ofNat 0xE2, Char.ofNat 0x84, Char.ofNat 0xAA, 'Z', 'S'].length ∧
      ((∀ c, c ∈ ['9', Char.ofNat 0xE2, Char.ofNat 0x84, Char.ofNat 0xAA, 'Z', 'S'] →
          c.toNat < 0x80) →
        n.length =
          ['9', Char.ofNat 0xE2, Char.ofNat 0x84, Char.ofNat 0xAA, 'Z', 'S'].length) ∧
      n ≠ [] ∧ Valid n ∧
      ∀ fuel,
        (ToLower ['9', Char.ofNat 0xE2, Char.ofNat 0x84, Char.ofNat 0xAA, 'Z', 'S']).length <
            fuel →
          GetNeighbourFuel fuel
            ['9', Char.ofNat 0xE2, Char.ofNat 0x84, Char.ofNat 0xAA, 'Z', 'S'] North =
            some n :=
  ⟨by decide, by decide,
    GetNeighbour_total ['9', Char.ofNat 0xE2, Char.ofNat 0x84, Char.ofNat 0xAA, 'Z', 'S']
      North (by decide) (by decide) (Or.inl rfl)⟩

/-! ## Claim C25 -/

/-- C25: for every point and precisions `m ≤ n ≤ 60`, the hashes `hm` and `hn`
of the point at `m` and `n` bits satisfy: the word of `hm` is the word of `hn`
with its low `64 - m` bits cleared, the value of `hm` is the value of `hn`
shifted right by `n - m`, and the text of `hm` is the text of `hn` cut after
`m / 5` characters, hence a beginning of it. -/
theorem GetHash_top_bits (pt : Point) (m n : Nat) (hmn : m ≤ n) (hn60 : n ≤ 60) :
    ∃ hm hn, GetHash (some pt) m = some hm ∧ GetHash (some pt) n = some hn ∧
      hm.bits = hn.bits / 2 ^ (64 - m) * 2 ^ (64 - m) ∧
      hm.val = hn.val >>> (n - m) ∧
      hm.str = hn.str.take (m / 5) ∧
      ∃ t, hn.str = hm.str ++ t := by
  obtain ⟨b, rfl⟩ := Nat.exists_eq_add_of_le hmn
  obtain ⟨hm, hn, e1, e2, _, _, hb, hv, hs, _⟩ := GetHash_truncate pt m b hn60
  refine ⟨hm, hn, e1, e2, hb, ?_, hs, hn.str.drop (m / 5), ?_⟩
  · rw [Nat.add_sub_cancel_left]; exact hv
  · rw [hs, List.take_append_drop]

/-- Instance of C25 at the point (57.64911, 10.40744) and the precisions 13 and
28. -/
theorem GetHash_top_bits_witness :
    13 ≤ 28 ∧ 28 ≤ 60 ∧
    ∃ hm hn, GetHash (some (NewPoint (5764911 / 100000) (1040744 / 100000))) 13 = some hm ∧
      GetHash (some (NewPoint (5764911 / 100000) (1040744 / 100000))) 28 = some hn ∧
      hm.bits = hn.bits / 2 ^ (64 - 13) * 2 ^ (64 - 13) ∧
      hm.val = hn.val >>> (28 - 13) ∧
      hm.str = hn.str.take (13 / 5) ∧
      ∃ t, hn.str = hm.str ++ t :=
  ⟨by decide, by decide, GetHash_top_bits _ 13 28 (by decide) (by decide)⟩

/-! ## Claim C26 -/

/-- C26: for every non-empty text `h` of alphabet characters, a step north and
a step east give the same text in either order, and likewise for north and
west, south and east, south and west: every step returns a text, and the text
reached after the two steps does not depend on their order. -/
theorem GetNeighbour_perpendicular_commute (h : List Char) (hne : h ≠ []) (hv : Valid h) :
    (∃ a, a ≠ [] ∧
      (∃ n, GetNeighbour h North = some n ∧ GetNeighbour n East = some a) ∧
      (∃ e, GetNeighbour h East = some e ∧ GetNeighbour e North = some a)) ∧
    (∃ a, a ≠ [] ∧
      (∃ n, GetNeighbour h North = some n ∧ GetNeighbour n West = some a) ∧
      (∃ w, GetNeighbour h West = some w ∧ GetNeighbour w North = some a)) ∧
    (∃ a, a ≠ [] ∧
      (∃ s, GetNeighbour h South = some s ∧ GetNeighbour s East = some a) ∧
      (∃ e, GetNeighbour h East = some e ∧ GetNeighbour e South = some a)) ∧
    (∃ a, a ≠ [] ∧
      (∃ s, GetNeighbour h South = some s ∧ GetNeighbour s West = some a) ∧
      (∃ w, GetNeighbour h West = some w ∧ GetNeighbour w South = some a)) := by
  have hN : North = North ∨ North = East ∨ North = South ∨ North = West := by decide
  have hS : South = North ∨ South = East ∨ South = South ∨ South = West := by decide
  have hE : East = North ∨ East = East ∨ East = South ∨ East = West := by decide
  have hW : West = North ∨ West = East ∨ West = South ∨ West = West := by decide
  have hpos : ∀ a : List Char, a.length = h.length → a ≠ [] := by
    intro a ha h0
    rw [h0] at ha
    exact hne (List.length_eq_zero.mp ha.symm)
  obtain ⟨a1, _, l1, p1, q1⟩ := GetNeighbour_commute North East hN hE h hv
  obtain ⟨a2, _, l2, p2, q2⟩ := GetNeighbour_commute North West hN hW h hv
  obtain ⟨a3, _, l3, p3, q3⟩ := GetNeighbour_commute South East hS hE h hv
  obtain ⟨a4, _, l4, p4, q4⟩ := GetNeighbour_commute South West hS hW h hv
  exact ⟨⟨a1, hpos a1 l1, p1, q1⟩, ⟨a2, hpos a2 l2, p2, q2⟩, ⟨a3, hpos a3 l3, p3, q3⟩,
    ⟨a4, hpos a4 l4, p4, q4⟩⟩

/-- Instance of C26 at the text "gbsuv", whose last character is on the
northern and eastern border of its parent. -/
theorem GetNeighbour_perpendicular_commute_witness :
    "gbsuv".toList ≠ [] ∧ Valid "gbsuv".toList ∧
    (∃ a, a ≠ [] ∧
      (∃ n, GetNeighbour "gbsuv".toList North = some n ∧ GetNeighbour n East = some a) ∧
      (∃ e, GetNeighbour "gbsuv".toList East = some e ∧ GetNeighbour e North = some a)) ∧
    (∃ a, a ≠ [] ∧
      (∃ n, GetNeighbour "gbsuv".toList North = some n ∧ GetNeighbour n West = some a) ∧
      (∃ w, GetNeighbour "gbsuv".toList West = some w ∧ GetNeighbour w North = some a)) ∧
    (∃ a, a ≠ [] ∧
      (∃ s, GetNeighbour "gbsuv".toList South = some s ∧ GetNeighbour s East = some a) ∧
      (∃ e, GetNeighbour "gbsuv".toList East = some e ∧ GetNeighbour e South = some a)) ∧
    (∃ a, a ≠ [] ∧
      (∃ s, GetNeighbour "gbsuv".toList South = some s ∧ GetNeighbour s West = some a) ∧
      (∃ w, GetNeighbour "gbsuv".toList West = some w ∧ GetNeighbour w South = some a)) :=
  ⟨by decide, by decide,
    GetNeighbour_perpendicular_commute "gbsuv".toList (by decide) (by decide)⟩

/-! ## Claim C27 -/

/-- C27: for every point and precision `p` with `min p 60 ≥ 5`, the texts of
the hashes `GetHashAndNeighbours` returns are pairwise distinct, none of the
hashes is nil and every text has `min p 60 / 5` characters; and for every
non-empty text `h` of alphabet characters and each of the four directions,
`GetNeighbour h d` is a text other than `h`. -/
theorem GetHashAndNeighbours_distinct (pt : Point) (p : Nat) (hp : 5 ≤ min p 60) :
    (∃ l, GetHashAndNeighbours (some pt) p = some l ∧ (texts l).Nodup ∧
      ∀ x, x ∈ texts l → ∃ t, x = some t ∧ t.length = min p 60 / 5) ∧
    ∀ (h : List Char) (d : Nat), h ≠ [] → Valid h →
      (d = North ∨ d = East ∨ d = South ∨ d = West) →
      ∃ n, GetNeighbour h d = some n ∧ n ≠ h :=
  ⟨GetHashAndNeighbours_texts pt p hp, fun h d hne hv hd => GetNeighbour_ne_self h d hne hv hd⟩

/-- Instance of C27 at the point (-12.5, 130.25) and precision 35. -/
theorem GetHashAndNeighbours_distinct_witness :
    5 ≤ min 35 60 ∧
    (∃ l, GetHashAndNeighbours (some (NewPoint (-25 / 2) (521 / 4))) 35 = some l ∧
      (texts l).Nodup ∧
      ∀ x, x ∈ texts l → ∃ t, x = some t ∧ t.length = min 35 60 / 5) ∧
    ∀ (h : List Char) (d : Nat), h ≠ [] → Valid h →
      (d = North ∨ d = East ∨ d = South ∨ d = West) →
      ∃ n, GetNeighbour h d = some n ∧ n ≠ h :=
  ⟨by decide, GetHashAndNeighbours_distinct _ 35 (by decide)⟩

/-! ## Claim C28 -/

/-- C28, counterexample: at the radius `2^-1074`, the smallest positive
float64, the least `k` with `EarthRadiusInKM / 2^(k+1) < r` is 1086, but the loop
of `GetNeededPrecision` makes 1087 halvings: 1087 loop tests are not enough,
and the result is `2 * 1087 mod 256 = 126`, not `2 * 1086 mod 256 = 124`.  Below
`2^-1022` the quotient `d / 2` is rounded, and the value 1.5 steps of `2^-1074`
is rounded up to 2 steps. -/
theorem GetNeededPrecision_extra_halving :
    EarthRadiusInKM / 2 ^ (1086 + 1) < 1 / 2 ^ 1074 ∧
    (∀ j, j < 1086 → ¬ EarthRadiusInKM / 2 ^ (j + 1) < 1 / 2 ^ 1074) ∧
    GetNeededPrecision 1087 (1 / 2 ^ 1074) = none ∧
    GetNeededPrecision 1088 (1 / 2 ^ 1074) = some 126 ∧
    (2 * 1087) % 256 = 126 ∧ (2 * 1086) % 256 = 124 := by
  have h : (1 : ℚ) / 2 ^ 1074 ≤ EarthRadiusInKM / 2 ^ 1086 := by decide!
  refine ⟨by decide!, ?_, by decide!, by decide!, by decide, by decide⟩
  intro j hj
  exact not_lt.mpr (le_trans h (earthRadius_div_anti (by omega)))

/-- C28, amended: for every radius `r > 0` there is a least `k` with
`EarthRadiusInKM / 2^(k+1) < r`, and the loop of `GetNeededPrecision` ends after
`n` halvings with `n ≤ k + 1`, and `n = k` when `r ≥ 2^-1021`: every budget of
more than `n` loop tests gives the result and no smaller budget does.  For every
radius `r2 ≤ 0` the test of the loop succeeds at every iteration, and no budget
gives a result. -/
theorem GetNeededPrecision_terminates (r : ℚ) (hr : 0 < r) :
    (∃ k n, EarthRadiusInKM / 2 ^ (k + 1) < r ∧
      (∀ j, j < k → ¬ EarthRadiusInKM / 2 ^ (j + 1) < r) ∧
      n ≤ k + 1 ∧ (2 / 2 ^ 1022 ≤ r → n = k) ∧
      (∀ fuel, n < fuel → GetNeededPrecision fuel r = some ((2 * n) % 256)) ∧
      ∀ fuel, fuel ≤ n → GetNeededPrecision fuel r = none) ∧
    ∀ r2 : ℚ, r2 ≤ 0 →
      (∀ i : Nat, half64^[i] (half64 EarthRadiusInKM) ≥ r2) ∧
      ∀ fuel, GetNeededPrecision fuel r2 = none := by
  constructor
  · obtain ⟨k, hk, hmin⟩ := exists_least_halving_pos r hr
    obtain ⟨n, hn, hexact, hsome, hnone⟩ := GetNeededPrecision_halts r hr k hk hmin
    exact ⟨k, n, hk, hmin, hn, hexact, hsome, hnone⟩
  · intro r2 hr2
    have hpos : ∀ i : Nat, half64^[i] (half64 EarthRadiusInKM) ≥ r2 :=
      fun i => le_trans hr2 (halving_nonneg i)
    refine ⟨hpos, ?_⟩
    intro fuel
    unfold GetNeededPrecision
    exact GetNeededPrecisionLoop_none r2 fuel _ 0 (fun i _ => hpos i)

/-- Instance of the amended C28 at the radius of 1/1000 km. -/
theorem GetNeededPrecision_terminates_witness :
    (0 : ℚ) < 1 / 1000 ∧
    (∃ k n, EarthRadiusInKM / 2 ^ (k + 1) < 1 / 1000 ∧
      (∀ j, j < k → ¬ EarthRadiusInKM / 2 ^ (j + 1) < 1 / 1000) ∧
      n ≤ k + 1 ∧ (2 / 2 ^ 1022 ≤ (1 : ℚ) / 1000 → n = k) ∧
      (∀ fuel, n < fuel → GetNeededPrecision fuel (1 / 1000) = some ((2 * n) % 256)) ∧
      ∀ fuel, fuel ≤ n → GetNeededPrecision fuel (1 / 1000) = none) ∧
    ∀ r2 : ℚ, r2 ≤ 0 →
      (∀ i : Nat, half64^[i] (half64 EarthRadiusInKM) ≥ r2) ∧
      ∀ fuel, GetNeededPrecision fuel r2 = none :=
  ⟨by norm_num, GetNeededPrecision_terminates (1 / 1000) (by norm_num)⟩

end Geo
